import Mathlib

/-!
# Verification development for the e-commerce crawler

The crawler (`internal/crawler`, `pkg/workerpool`) is embedded shallowly:

* a Go `string` is a list of bytes (`GoString`), each byte a natural number below 256;
* the Go standard library functions the crawler calls (`strings`, `path/filepath` on a
  Unix target, `net/url` as of Go 1.22) are transcribed function by function in the
  namespaces `Strings`, `Filepath` and `Url`;
* the functions of `github.com/temoto/robotstxt` that `checkRobotsTxt` calls on a response
  (`FromStatusAndBytes`, `FindGroup`, `findRule`, `Test`) are transcribed in the namespace
  `Robotstxt`; its parser `FromBytes` and the XML decoder are parameters;
* an HTML document is represented by what `goquery` lets the crawler observe of it: the
  elements in document order, each with its tag, attributes and text content;
* the network (robots.txt, sitemaps, page fetches) enters `processTask`, `checkRobotsTxt`
  and `checkSitemap` as explicit results;
* a `time.Duration` is its number of nanoseconds, an integer, and 64-bit arithmetic on it
  is written with `wrapInt64`.

`strings.TrimSpace` removes the white space of `unicode.IsSpace`, in its UTF-8 encoding,
as Go does. `strings.ToLower` is transcribed for the letters `A` to `Z`: it is Go's function
on every string without bytes above `0x7f`, and it keeps the bytes above `0x7f`, where Go
also maps the upper-case letters of other scripts.
-/

/-- A Go `string`: a sequence of bytes. -/
abbrev GoString := List Nat

/-- UTF-8 encoding of one code point. -/
def utf8Encode (c : Nat) : List Nat :=
  if c < 0x80 then [c]
  else if c < 0x800 then [0xC0 + c / 64, 0x80 + c % 64]
  else if c < 0x10000 then [0xE0 + c / 4096, 0x80 + (c / 64) % 64, 0x80 + c % 64]
  else [0xF0 + c / 262144, 0x80 + (c / 4096) % 64, 0x80 + (c / 64) % 64, 0x80 + c % 64]

/-- The bytes of a string literal, as Go stores it. -/
def bytes (s : String) : GoString := s.data.flatMap (fun c => utf8Encode c.toNat)

/-- A `case 'x', 'y', ...:` label list: `c` is one of the bytes of `set`. -/
def isOneOf (c : Nat) (set : String) : Bool := (bytes set).contains c

/-! ## Package `strings` -/

namespace Strings

/-- ASCII lower-casing of a byte: `c += 'a' - 'A'` for `'A' <= c <= 'Z'`. -/
def lowerByte (c : Nat) : Nat := if 65 ≤ c ∧ c ≤ 90 then c + 32 else c

/-- The function `strings.ToLower` on the letters `A` to `Z`, which is all of it for a
string without bytes above `0x7f`; a byte above `0x7f` is kept, where Go decodes the rune
and maps an upper-case letter of another script as well. -/
def ToLower (s : GoString) : GoString := s.map lowerByte

/-- The function `strings.HasPrefix`. -/
def HasPrefix (s p : GoString) : Bool := p.isPrefixOf s

/-- The function `strings.HasSuffix`. -/
def HasSuffix (s p : GoString) : Bool := p.reverse.isPrefixOf s.reverse

/-- The function `strings.Contains`. -/
def Contains : GoString → GoString → Bool
  | [], sub => sub.isEmpty
  | c :: s, sub => sub.isPrefixOf (c :: s) || Contains s sub

/-- The function `strings.Cut` for a one-byte separator: text before the first `sep`, text
after it, and whether `sep` was found. -/
def Cut (sep : Nat) : GoString → GoString × GoString × Bool
  | [] => ([], [], false)
  | c :: s =>
    if c = sep then ([], s, true)
    else ((c :: (Cut sep s).1), (Cut sep s).2.1, (Cut sep s).2.2)

/-- The pieces a loop `for { piece, s, found = strings.Cut(s, sep) }` visits: the maximal runs
of `s` between occurrences of `sep`. -/
def splitByte (sep : Nat) : GoString → List GoString
  | [] => [[]]
  | c :: s =>
    if c = sep then [] :: splitByte sep s
    else match splitByte sep s with
      | [] => [[c]]
      | e :: es => (c :: e) :: es

/-- The function `strings.IndexByte` (`none` for -1). -/
def IndexByte (c : Nat) : GoString → Option Nat
  | [] => none
  | x :: s => if x = c then some 0 else (IndexByte c s).map (· + 1)

/-- The function `strings.LastIndexByte` (`none` for -1). -/
def LastIndexByte (c : Nat) : GoString → Option Nat
  | [] => none
  | x :: s =>
    match LastIndexByte c s with
    | some i => some (i + 1)
    | none => if x = c then some 0 else none

/-- The function `strings.Index` (`none` for -1). -/
def Index (sub : GoString) : GoString → Option Nat
  | [] => if sub.isEmpty then some 0 else none
  | c :: s => if sub.isPrefixOf (c :: s) then some 0 else (Index sub s).map (· + 1)

/-- The function `strings.Count` for a one-byte pattern. -/
def CountByte (c : Nat) (s : GoString) : Nat := s.count c

/-- The function `strings.TrimSuffix`. -/
def TrimSuffix (s suffix : GoString) : GoString :=
  if HasSuffix s suffix then s.take (s.length - suffix.length) else s

/-- The function `strings.ReplaceAll` for one-byte `old` and `new`. -/
def ReplaceAllByte (s : GoString) (old new : Nat) : GoString :=
  s.map (fun c => if c = old then new else c)

/-- ASCII white space as `unicode.IsSpace` sees it, the table `asciiSpace`:
`\t \n \v \f \r` and the space. -/
def isSpace (c : Nat) : Bool := (9 ≤ c && c ≤ 13) || c = 32

/-- The code points above `0x7f` that `unicode.IsSpace` accepts: U+0085, U+00A0 and those of
the table `White_Space` above Latin-1. -/
def spaceRunes : List Nat :=
  [0x85, 0xA0, 0x1680, 0x2000, 0x2001, 0x2002, 0x2003, 0x2004, 0x2005, 0x2006, 0x2007,
   0x2008, 0x2009, 0x200A, 0x2028, 0x2029, 0x202F, 0x205F, 0x3000]

/-- The width in bytes of the white-space rune at the start of `s`, and 0 when `s` is empty
or starts with anything else. With `back` set, `s` is a text read from its end and the rune
is the one `utf8.DecodeLastRuneInString` finds. The decoders yield a code point other than
`RuneError` from its UTF-8 encoding only, so the rune is a white-space rune exactly when
its bytes are the encoding of one. -/
def spaceWidth (back : Bool) (s : GoString) : Nat :=
  match s with
  | [] => 0
  | c :: _ =>
    if c < 0x80 then (if isSpace c then 1 else 0)
    else
      match spaceRunes.find? (fun r =>
        (if back then (utf8Encode r).reverse else utf8Encode r).isPrefixOf s) with
      | some r => (utf8Encode r).length
      | none => 0

/-- The loop of `indexFunc(s, unicode.IsSpace, false)` and, on a text read from its end,
of `lastIndexFunc`: what is left of `s` after its leading white-space runes; `skip` counts
the bytes still to pass of the rune being removed. -/
def dropSpace (back : Bool) : Nat → GoString → GoString
  | _, [] => []
  | skip + 1, _ :: s => dropSpace back skip s
  | 0, c :: s =>
    if spaceWidth back (c :: s) = 0 then c :: s
    else dropSpace back (spaceWidth back (c :: s) - 1) s

/-- The function `strings.TrimSpace`: the white-space runes at both ends are removed. Its
two loops over ASCII bytes and the calls `TrimFunc(s[start:], unicode.IsSpace)` and
`TrimRightFunc(s[start:stop], unicode.IsSpace)` they fall back to at a byte above `0x7f`
remove the same runes as `TrimRightFunc(TrimLeftFunc(s, unicode.IsSpace), unicode.IsSpace)`. -/
def TrimSpace (s : GoString) : GoString :=
  (dropSpace true 0 (dropSpace false 0 s).reverse).reverse

end Strings

/-! ## Package `path/filepath` (Unix) -/

namespace Filepath

/-- The function `filepath.Ext`: the suffix from the last `.` of the last path element. -/
def Ext (path : GoString) : GoString :=
  let lastElem := (path.reverse.takeWhile (fun c => c != 47)).reverse
  match Strings.LastIndexByte 46 lastElem with
  | some i => lastElem.drop i
  | none => []

/-- The write side of `lazybuf`: the output written so far and the `dotdot` mark. -/
structure CleanState where
  /-- The bytes `buf[0:w]`. -/
  out : GoString
  /-- Index in `out` below which `..` may not backtrack. -/
  dotdot : Nat
deriving DecidableEq, Repr

/-- Backtracking on a `..` element, after the first `out.w--`: the loop
`for out.w > dotdot && !IsPathSeparator(out.index(out.w)) { out.w-- }` on the index `w`. -/
def backtrack (buf : GoString) (dotdot : Nat) : Nat → Nat
  | 0 => 0
  | w + 1 => if w + 1 > dotdot ∧ buf.get? (w + 1) ≠ some 47 then backtrack buf dotdot w else w + 1

/-- One round of the main loop of `filepath.Clean`, which consumes the input one path element
at a time; `elem` is the element consumed, a maximal run between two separators. -/
def cleanElem (rooted : Bool) (st : CleanState) (elem : GoString) : CleanState :=
  if elem = [] then st -- empty path element
  else if elem = [46] then st -- . element
  else if elem = [46, 46] then -- .. element: remove to last separator
    if st.out.length > st.dotdot then
      { st with out := st.out.take (backtrack st.out st.dotdot (st.out.length - 1)) }
    else if !rooted then
      let out := (if st.out.length > 0 then st.out ++ [47] else st.out) ++ [46, 46]
      { out := out, dotdot := out.length }
    else st
  else -- real path element: add slash if needed, copy element
    let out := if (rooted && st.out.length != 1) || (!rooted && st.out.length != 0)
      then st.out ++ [47] else st.out
    { st with out := out ++ elem }

/-- The function `filepath.Clean`. -/
def Clean (path : GoString) : GoString :=
  if path = [] then [46]
  else
    let rooted := path.head? = some 47
    let init : CleanState := if rooted then { out := [47], dotdot := 1 } else { out := [], dotdot := 0 }
    let st := (Strings.splitByte 47 (if rooted then path.drop 1 else path)).foldl (cleanElem rooted) init
    if st.out.length = 0 then [46] else st.out

end Filepath

/-! ## Package `net/url` -/

namespace Url

/-- The escaping modes of `net/url` (type `encoding`). -/
inductive Encoding where
  | encodePath
  | encodePathSegment
  | encodeHost
  | encodeZone
  | encodeUserPassword
  | encodeQueryComponent
  | encodeFragment
deriving DecidableEq, Repr

/-- The type `url.Userinfo`. -/
structure Userinfo where
  username : GoString
  password : GoString
  passwordSet : Bool
deriving DecidableEq, Repr

/-- The type `url.URL`. -/
structure URL where
  Scheme : GoString := []
  Opaque : GoString := []
  User : Option Userinfo := none
  Host : GoString := []
  Path : GoString := []
  RawPath : GoString := []
  OmitHost : Bool := false
  ForceQuery : Bool := false
  RawQuery : GoString := []
  Fragment : GoString := []
  RawFragment : GoString := []
deriving DecidableEq, Repr

/-- The function `ishex`. -/
def ishex (c : Nat) : Bool :=
  (48 ≤ c && c ≤ 57) || (97 ≤ c && c ≤ 102) || (65 ≤ c && c ≤ 70)

/-- The function `unhex`. -/
def unhex (c : Nat) : Nat :=
  if 48 ≤ c ∧ c ≤ 57 then c - 48
  else if 97 ≤ c ∧ c ≤ 102 then c - 97 + 10
  else if 65 ≤ c ∧ c ≤ 70 then c - 65 + 10
  else 0

/-- The byte `"0123456789ABCDEF"[i]`. -/
def upperhex (i : Nat) : Nat := if i < 10 then 48 + i else 55 + i

/-- The function `shouldEscape`: whether byte `c` must be escaped in the given mode. -/
def shouldEscape (c : Nat) (mode : Encoding) : Bool :=
  -- §2.3 Unreserved characters (alphanum)
  if (97 ≤ c && c ≤ 122) || (65 ≤ c && c ≤ 90) || (48 ≤ c && c ≤ 57) then false
  else if (mode = .encodeHost || mode = .encodeZone) && isOneOf c "!$&'()*+,;=:[]<>\x22" then false
  else if isOneOf c "-_.~" then false -- §2.3 Unreserved characters (mark)
  else if isOneOf c "$&+,/:;=?@" then -- §2.2 Reserved characters (reserved)
    match mode with
    | .encodePath => c = 63
    | .encodePathSegment => c = 47 || c = 59 || c = 44 || c = 63
    | .encodeUserPassword => c = 64 || c = 47 || c = 63 || c = 58
    | .encodeQueryComponent => true
    | .encodeFragment => false
    | _ => true
  else if mode = .encodeFragment && isOneOf c "!()*" then false
  else true -- Everything else must be escaped.

/-- First loop of `unescape`: every `%` is followed by two hex digits, and the host and zone
restrictions hold. -/
def unescapeValid (mode : Encoding) : GoString → Bool
  | [] => true
  | c :: rest =>
    if c = 37 then
      match rest with
      | a :: b :: rest2 =>
        if !(ishex a && ishex b) then false
        else if mode = .encodeHost && unhex a < 8 && !(a = 50 && b = 53) then false
        else if mode = .encodeZone && !(a = 50 && b = 53) && 16 * unhex a + unhex b != 32
            && shouldEscape (16 * unhex a + unhex b) .encodeHost then false
        else unescapeValid mode rest2
      | _ => false
    else if c = 43 then unescapeValid mode rest
    else if (mode = .encodeHost || mode = .encodeZone) && c < 0x80
        && shouldEscape c .encodeHost then false
    else unescapeValid mode rest

/-- Second loop of `unescape`: the decoded bytes of a string that passed the first loop. -/
def unescapeDecode (mode : Encoding) : GoString → GoString
  | [] => []
  | c :: rest =>
    if c = 37 then
      match rest with
      | a :: b :: rest2 => (16 * unhex a + unhex b) :: unescapeDecode mode rest2
      | _ => []
    else if c = 43 then
      (if mode = .encodeQueryComponent then 32 else 43) :: unescapeDecode mode rest
    else c :: unescapeDecode mode rest

/-- The function `unescape`; `none` stands for its error results. -/
def unescape (s : GoString) (mode : Encoding) : Option GoString :=
  if unescapeValid mode s then some (unescapeDecode mode s) else none

/-- What `escape` writes for the byte `c`: `+` for a space in a query component,
`%` and two hex digits (`upperhex[c>>4]`, `upperhex[c&15]`) for a byte to escape, and the
byte itself otherwise. -/
def escapeByte (mode : Encoding) (c : Nat) : GoString :=
  if c = 32 ∧ mode = .encodeQueryComponent then [43]
  else if shouldEscape c mode then [37, upperhex (c / 16 % 16), upperhex (c % 16)]
  else [c]

/-- The function `escape`. -/
def escape (s : GoString) (mode : Encoding) : GoString := s.flatMap (escapeByte mode)

/-- The function `QueryUnescape`. -/
def QueryUnescape (s : GoString) : Option GoString := unescape s .encodeQueryComponent

/-- The function `QueryEscape`. -/
def QueryEscape (s : GoString) : GoString := escape s .encodeQueryComponent

/-- The function `stringContainsCTLByte`. -/
def stringContainsCTLByte (s : GoString) : Bool := s.any (fun b => b < 32 || b = 0x7f)

/-- The result of `getScheme`: scheme, rest, or the `missing protocol scheme` error. -/
def getSchemeAux (rawURL : GoString) : Nat → GoString → Option (GoString × GoString)
  | _, [] => some ([], rawURL)
  | i, c :: rest =>
    if (97 ≤ c && c ≤ 122) || (65 ≤ c && c ≤ 90) then getSchemeAux rawURL (i + 1) rest
    else if (48 ≤ c && c ≤ 57) || c = 43 || c = 45 || c = 46 then
      if i = 0 then some ([], rawURL) else getSchemeAux rawURL (i + 1) rest
    else if c = 58 then
      if i = 0 then none else some (rawURL.take i, rest)
    else some ([], rawURL)

/-- The function `getScheme`. -/
def getScheme (rawURL : GoString) : Option (GoString × GoString) := getSchemeAux rawURL 0 rawURL

/-- The function `validOptionalPort`. -/
def validOptionalPort (port : GoString) : Bool :=
  match port with
  | [] => true
  | c :: digits => c = 58 && digits.all (fun b => 48 ≤ b && b ≤ 57)

/-- The function `validUserinfo`. A byte above `0x7f` starts a rune outside the accepted
set. -/
def validUserinfo (s : GoString) : Bool :=
  s.all (fun r =>
    (65 ≤ r && r ≤ 90) || (97 ≤ r && r ≤ 122) || (48 ≤ r && r ≤ 57)
      || isOneOf r "-._:~!$&'()*+,;=%@")

/-- The function `parseHost`. -/
def parseHost (host : GoString) : Option GoString :=
  let plain : Option GoString := unescape host .encodeHost
  if Strings.HasPrefix host [91] then
    -- Parse an IP-Literal in RFC 3986 and RFC 6874.
    match Strings.LastIndexByte 93 host with
    | none => none -- missing ']' in host
    | some i =>
      if !validOptionalPort (host.drop (i + 1)) then none
      else
        match Strings.Index (bytes "%25") (host.take i) with
        | some zone =>
          match unescape (host.take zone) .encodeHost with
          | none => none
          | some host1 =>
            match unescape ((host.take i).drop zone) .encodeZone with
            | none => none
            | some host2 =>
              match unescape (host.drop i) .encodeHost with
              | none => none
              | some host3 => some (host1 ++ host2 ++ host3)
        | none => plain
  else
    match Strings.LastIndexByte 58 host with
    | some i => if !validOptionalPort (host.drop i) then none else plain
    | none => plain

/-- The user part of `parseAuthority`: `userinfo` is the text before the last `@`. -/
def parseUserinfo (userinfo : GoString) : Option Userinfo :=
  if !validUserinfo userinfo then none
  else if !Strings.Contains userinfo [58] then
    match unescape userinfo .encodeUserPassword with
    | none => none
    | some username => some { username := username, password := [], passwordSet := false }
  else
    match unescape (Strings.Cut 58 userinfo).1 .encodeUserPassword with
    | none => none
    | some username =>
      match unescape (Strings.Cut 58 userinfo).2.1 .encodeUserPassword with
      | none => none
      | some password => some { username := username, password := password, passwordSet := true }

/-- The function `parseAuthority`. -/
def parseAuthority (authority : GoString) : Option (Option Userinfo × GoString) :=
  match Strings.LastIndexByte 64 authority with
  | none =>
    match parseHost authority with
    | none => none
    | some host => some (none, host)
  | some i =>
    match parseHost (authority.drop (i + 1)) with
    | none => none
    | some host =>
      match parseUserinfo (authority.take i) with
      | none => none
      | some user => some (some user, host)

/-- The user part `parseAuthority` finds in front of the host: none for an empty text, the
parsed user information for a text ending in `@`. -/
def userPart (userinfo : GoString) : Option (Option Userinfo) :=
  if userinfo = [] then some none else (parseUserinfo userinfo.dropLast).map some

/-- The method `URL.setPath`. -/
def URL.setPath (u : URL) (p : GoString) : Option URL :=
  match unescape p .encodePath with
  | none => none
  | some path =>
    if p = escape path .encodePath then some { u with Path := path, RawPath := [] }
    else some { u with Path := path, RawPath := p }

/-- The method `URL.setFragment`. -/
def URL.setFragment (u : URL) (f : GoString) : Option URL :=
  match unescape f .encodeFragment with
  | none => none
  | some frag =>
    if f = escape frag .encodeFragment then some { u with Fragment := frag, RawFragment := [] }
    else some { u with Fragment := frag, RawFragment := f }

/-- The query split of `parse`: for `rest` ending in its only `?` the `?` is cut off and
`ForceQuery` set, otherwise `rest, url.RawQuery, _ = strings.Cut(rest, "?")`. The result is
the new `rest`, `ForceQuery` and `RawQuery`. -/
def splitQuery (rest : GoString) : GoString × Bool × GoString :=
  if Strings.HasSuffix rest [63] && Strings.CountByte 63 rest = 1 then
    (rest.take (rest.length - 1), true, [])
  else ((Strings.Cut 63 rest).1, false, (Strings.Cut 63 rest).2.1)

/-- The authority split of `parse`, for `rest` starting with `//`:
`authority, rest = rest[2:], ""`, and at the first `/` of the authority, if any,
`authority, rest = authority[:i], authority[i:]`. -/
def splitAuthority (rest : GoString) : GoString × GoString :=
  match Strings.IndexByte 47 (rest.drop 2) with
  | some i => ((rest.drop 2).take i, (rest.drop 2).drop i)
  | none => (rest.drop 2, [])

/-- The part of `parse` after the scheme is split off and lowercased: `scheme` is the
lowercased scheme and `rest0` what follows its colon. -/
def parseAfterScheme (scheme rest0 : GoString) : Option URL :=
  let rest := (splitQuery rest0).1
  let url : URL :=
    { Scheme := scheme, ForceQuery := (splitQuery rest0).2.1, RawQuery := (splitQuery rest0).2.2 }
  if !Strings.HasPrefix rest [47] && scheme ≠ [] then
    -- We consider rootless paths per RFC 3986 as opaque.
    some { url with Opaque := rest }
  else if !Strings.HasPrefix rest [47] && Strings.Contains (Strings.Cut 47 rest).1 [58] then
    none -- first path segment in URL cannot contain colon
  else if (scheme ≠ [] || !Strings.HasPrefix rest (bytes "///"))
      && Strings.HasPrefix rest (bytes "//") then
    match parseAuthority (splitAuthority rest).1 with
    | none => none
    | some (user, host) =>
      URL.setPath { url with User := user, Host := host } (splitAuthority rest).2
  else if scheme ≠ [] && Strings.HasPrefix rest [47] then
    -- OmitHost is set to true when rawURL has an empty host (authority).
    URL.setPath { url with OmitHost := true } rest
  else URL.setPath url rest

/-- The function `parse` with `viaRequest = false`; `rawURL` carries no fragment. -/
def parse (rawURL : GoString) : Option URL :=
  if stringContainsCTLByte rawURL then none
  else if rawURL = [42] then some { Path := [42] }
  else
    -- Split off possible leading "http:", "mailto:", etc.
    match getScheme rawURL with
    | none => none
    | some (scheme, rest) => parseAfterScheme (Strings.ToLower scheme) rest

/-- The function `url.Parse`; `none` stands for its error results. -/
def Parse (rawURL : GoString) : Option URL :=
  -- Cut off #frag
  match parse (Strings.Cut 35 rawURL).1 with
  | none => none
  | some url =>
    if (Strings.Cut 35 rawURL).2.1 = [] then some url
    else URL.setFragment url (Strings.Cut 35 rawURL).2.1

/-- The function `validEncoded`. -/
def validEncoded (s : GoString) (mode : Encoding) : Bool :=
  s.all (fun c =>
    if isOneOf c "!$&'()*+,;=:@" then true
    else if isOneOf c "[]" then true
    else if c = 37 then true
    else !shouldEscape c mode)

/-- The method `URL.EscapedPath`. -/
def URL.EscapedPath (u : URL) : GoString :=
  if u.RawPath ≠ [] ∧ validEncoded u.RawPath .encodePath
      ∧ unescape u.RawPath .encodePath = some u.Path then u.RawPath
  else if u.Path = [42] then [42] -- don't escape (Issue 11202)
  else escape u.Path .encodePath

/-- The method `URL.EscapedFragment`. -/
def URL.EscapedFragment (u : URL) : GoString :=
  if u.RawFragment ≠ [] ∧ validEncoded u.RawFragment .encodeFragment
      ∧ unescape u.RawFragment .encodeFragment = some u.Fragment then u.RawFragment
  else escape u.Fragment .encodeFragment

/-- The method `Userinfo.String`. -/
def Userinfo.String (u : Userinfo) : GoString :=
  escape u.username .encodeUserPassword
    ++ (if u.passwordSet then [58] ++ escape u.password .encodeUserPassword else [])

/-- The part of `URL.String` written when `u.Opaque` is empty: authority and path. -/
def URL.hierPart (u : URL) (schemePart : GoString) : GoString :=
  let auth : GoString :=
    if u.Scheme ≠ [] ∨ u.Host ≠ [] ∨ u.User ≠ none then
      if u.OmitHost ∧ u.Host = [] ∧ u.User = none then [] -- omit empty host
      else
        (if u.Host ≠ [] ∨ u.Path ≠ [] ∨ u.User ≠ none then bytes "//" else [])
          ++ (match u.User with
              | some ui => Userinfo.String ui ++ [64]
              | none => [])
          ++ (if u.Host ≠ [] then escape u.Host .encodeHost else [])
    else []
  let path := URL.EscapedPath u
  let buf := schemePart ++ auth
  let buf := if path ≠ [] ∧ path.head? ≠ some 47 ∧ u.Host ≠ [] then buf ++ [47] else buf
  let buf := if buf.length = 0 ∧ Strings.Contains (Strings.Cut 47 path).1 [58]
    then buf ++ bytes "./" else buf
  buf ++ path

/-- The method `URL.String`. -/
def URL.String (u : URL) : GoString :=
  let schemePart : GoString := if u.Scheme ≠ [] then u.Scheme ++ [58] else []
  let buf := if u.Opaque ≠ [] then schemePart ++ u.Opaque else URL.hierPart u schemePart
  let buf := if u.ForceQuery ∨ u.RawQuery ≠ [] then buf ++ [63] ++ u.RawQuery else buf
  if u.Fragment ≠ [] then buf ++ [35] ++ URL.EscapedFragment u else buf

/-- The type `url.Values`: keys in order of first insertion, each with its values in order
of insertion. -/
abbrev Values := List (GoString × List GoString)

/-- The statement `m[key] = append(m[key], value)`. -/
def Values.add : Values → GoString → GoString → Values
  | [], key, value => [(key, [value])]
  | (k, vs) :: m, key, value =>
    if k = key then (k, vs ++ [value]) :: m else (k, vs) :: Values.add m key value

/-- One round of the loop of `parseQuery` on the piece `key` cut off at `&`. -/
def parseQueryPiece (m : Values) (key : GoString) : Values :=
  if Strings.Contains key [59] then m -- invalid semicolon separator in query
  else if key = [] then m
  else
    match QueryUnescape (Strings.Cut 61 key).1 with
    | none => m
    | some k =>
      match QueryUnescape (Strings.Cut 61 key).2.1 with
      | none => m
      | some value => Values.add m k value

/-- The method `URL.Query`: `ParseQuery(u.RawQuery)` with the error dropped. -/
def URL.Query (u : URL) : Values :=
  if u.RawQuery = [] then [] else (Strings.splitByte 38 u.RawQuery).foldl parseQueryPiece []

/-- Byte-wise lexicographic `a <= b`, the order of `sort.Strings`. -/
def strLE : GoString → GoString → Bool
  | [], _ => true
  | _ :: _, [] => false
  | a :: as, b :: bs => a < b || (a = b && strLE as bs)

/-- Insertion of a key into a sorted list of keys. -/
def insertKey (k : GoString) : List GoString → List GoString
  | [] => [k]
  | x :: xs => if strLE k x then k :: x :: xs else x :: insertKey k xs

/-- The call `sort.Strings(keys)`. -/
def sortKeys (keys : List GoString) : List GoString := keys.foldr insertKey []

/-- The values stored under `key`. -/
def Values.get (v : Values) (key : GoString) : List GoString :=
  match v.find? (fun kv => kv.1 = key) with
  | some kv => kv.2
  | none => []

/-- The method `Values.Encode`: `key=value` pairs joined by `&`, sorted by key. -/
def Values.Encode (v : Values) : GoString :=
  let pairs : List GoString := (sortKeys (v.map (·.1))).flatMap (fun k =>
    (Values.get v k).map (fun value => QueryEscape k ++ [61] ++ QueryEscape value))
  [38].intercalate pairs

/-- One round of the loop of `resolvePath` on the piece `elem`; the state is `dst`, what
follows its leading `/`, and `first`. -/
def resolveElem (st : GoString × Bool) (elem : GoString) : GoString × Bool :=
  if elem = [46] then (st.1, false) -- drop
  else if elem = [46, 46] then
    match Strings.LastIndexByte 47 st.1 with
    | none => ([], true)
    | some index => (st.1.take index, st.2)
  else ((if !st.2 then st.1 ++ [47] else st.1) ++ elem, false)

/-- The function `resolvePath`. -/
def resolvePath (base ref : GoString) : GoString :=
  let full : GoString :=
    if ref = [] then base
    else if ref.head? ≠ some 47 then
      (match Strings.LastIndexByte 47 base with
        | some i => base.take (i + 1)
        | none => []) ++ ref
    else ref
  if full = [] then []
  else
    let elems := Strings.splitByte 47 full
    let st := elems.foldl resolveElem ([], true)
    let dst : GoString := [47] ++ st.1
      ++ (if elems.getLast? = some [46] ∨ elems.getLast? = some [46, 46] then [47] else [])
    -- We wrote an initial '/', but we don't want two.
    if dst.length > 1 ∧ dst.get? 1 = some 47 then dst.drop 1 else dst

/-- The statement `url.setPath(p)` with its error ignored. -/
def URL.setPathIgnoringError (u : URL) (p : GoString) : URL :=
  match URL.setPath u p with
  | some v => v
  | none => u

/-- The method `URL.ResolveReference`. -/
def URL.ResolveReference (u ref : URL) : URL :=
  let url : URL := if ref.Scheme = [] then { ref with Scheme := u.Scheme } else ref
  if ref.Scheme ≠ [] ∨ ref.Host ≠ [] ∨ ref.User ≠ none then
    -- The "absoluteURI" or "net_path" cases.
    URL.setPathIgnoringError url (resolvePath (URL.EscapedPath ref) [])
  else if ref.Opaque ≠ [] then { url with User := none, Host := [], Path := [] }
  else
    let url : URL :=
      if ref.Path = [] ∧ ref.ForceQuery = false ∧ ref.RawQuery = [] then
        if ref.Fragment = [] then
          { url with RawQuery := u.RawQuery, Fragment := u.Fragment, RawFragment := u.RawFragment }
        else { url with RawQuery := u.RawQuery }
      else url
    if ref.Path = [] ∧ u.Opaque ≠ [] then
      { url with Opaque := u.Opaque, User := none, Host := [], Path := [] }
    else
      -- The "abs_path" or "rel_path" cases.
      URL.setPathIgnoringError { url with Host := u.Host, User := u.User }
        (resolvePath (URL.EscapedPath u) (URL.EscapedPath ref))

end Url

/-! ## Package `regexp`, for the patterns of `URLPatternMatch` -/

namespace Regexp

/-- The pieces the patterns of `URLPatternMatch` are built from. -/
inductive Atom where
  /-- A literal byte (also an escaped one, as `\.`). -/
  | lit (b : Nat)
  /-- The piece `\d+`: one or more ASCII digits. -/
  | digits
deriving DecidableEq, Repr

/-- A pattern: a concatenation of atoms. -/
abbrev Pattern := List Atom

/-- A literal pattern. -/
def literal (s : String) : Pattern := (bytes s).map Atom.lit

/-- Whether the pattern matches a prefix of the text. -/
def matchHere : Pattern → GoString → Bool
  | [], _ => true
  | _ :: _, [] => false
  | Atom.lit b :: p, c :: s => c = b && matchHere p s
  | Atom.digits :: p, c :: s =>
    (48 ≤ c && c ≤ 57) && (matchHere p s || matchHere (Atom.digits :: p) s)

/-- The function `regexp.MatchString`: the pattern matches somewhere in the text. -/
def MatchString (p : Pattern) : GoString → Bool
  | [] => matchHere p []
  | c :: s => matchHere p (c :: s) || MatchString p s

end Regexp

/-! ## Package `goquery`: the observable part of a parsed document -/

namespace Goquery

/-- An element node: tag name, attributes in source order, and the text content of the
element and its descendants (what `Selection.Text` returns for it). -/
structure Element where
  tag : GoString
  attrs : List (GoString × GoString)
  text : GoString
deriving DecidableEq, Repr

/-- A parsed document: its element nodes in document order. -/
abbrev Document := List Element

/-- What `goquery.NewDocumentFromReader(strings.NewReader(content))` yields for a page:
the document, or `none` when it returns an error. -/
abbrev Page := Option Document

/-- A selection: matched nodes in document order. -/
abbrev Selection := List Element

/-- The value of attribute `name` of a node, if present (`getAttributeValue`). -/
def Element.attr (e : Element) (name : String) : Option GoString :=
  (e.attrs.find? (fun kv => kv.1 = bytes name)).map (·.2)

/-- The method `Selection.Attr`: the attribute of the first node of the selection. -/
def Attr (s : Selection) (name : String) : Option GoString :=
  match s with
  | [] => none
  | e :: _ => e.attr name

/-- The method `Selection.Text`: the text contents of the nodes, concatenated. -/
def Text (s : Selection) : GoString := s.flatMap (·.text)

/-- The class selector `.name`: some `class` attribute lists `name` among its
white-space separated words. -/
def Element.hasClass (e : Element) (name : String) : Bool :=
  e.attrs.any (fun kv => kv.1 = bytes "class" &&
    ((kv.2.splitOnP (fun c => isOneOf c " \t\r\n\x0c")).contains (bytes name)))

/-- The selector `tag[key='val']`. -/
def Element.isTagWithAttr (e : Element) (tag key val : String) : Bool :=
  e.tag = bytes tag && e.attrs.any (fun kv => kv.1 = bytes key && kv.2 = bytes val)

end Goquery

/-! ## Package `pkg/workerpool` -/

namespace Workerpool

/-- The type `workerpool.Task`. -/
structure Task where
  URL : GoString
  Depth : Int
  Domain : GoString
deriving DecidableEq, Repr

/-- The type `workerpool.WorkerPool`: the buffered channel `tasks`, as its capacity and the
tasks pending in it, oldest first. -/
structure WorkerPool where
  capacity : Nat
  tasks : List Task
deriving DecidableEq, Repr

/-- The function `NewWorkerPool`: `tasks: make(chan *Task, 1000)`. -/
def NewWorkerPool : WorkerPool := { capacity := 1000, tasks := [] }

/-- The method `WorkerPool.AddTask`: a `select` that sends on `wp.tasks` when the channel
has room and takes the `default` branch, dropping the task, when it is full. -/
def WorkerPool.AddTask (wp : WorkerPool) (task : Task) : WorkerPool :=
  if wp.tasks.length < wp.capacity then { wp with tasks := wp.tasks ++ [task] } else wp

end Workerpool

/-! ## Package `internal/crawler` -/

namespace Crawl

open Goquery Workerpool

/-- The sentinel errors of `errors.go` that `processLink` returns, and the error of
`url.Parse` it passes on. -/
inductive LinkError where
  | ErrInvalidLink
  | ErrInvalidScheme
  | ErrExternalDomain
  | ErrNonHTMLResource
  | parseError
deriving DecidableEq, Repr

/-- The body of `normalizeURL` after a successful `url.Parse`. -/
def normalizeParsed (u : Url.URL) : GoString :=
  -- Standardize scheme and host
  let u := { u with Scheme := Strings.ToLower u.Scheme }
  let u := { u with Host := Strings.ToLower u.Host }
  -- Remove fragments and empty queries
  let u := { u with Fragment := [] }
  let u := if u.RawQuery = [] then { u with ForceQuery := false } else u
  -- Clean path (remove duplicate slashes, etc.)
  let u := { u with Path := Strings.TrimSuffix (Filepath.Clean u.Path) [47] }
  let u := { u with Path := Strings.ReplaceAllByte u.Path 92 47 }
  -- Sort query parameters for consistent comparison
  let u := if u.RawQuery ≠ [] then { u with RawQuery := Url.Values.Encode (Url.URL.Query u) } else u
  Url.URL.String u

/-- The method `normalizeURL` (the receiver is not used). -/
def normalizeURL (urlStr : GoString) : GoString :=
  match Url.Parse urlStr with
  | none => Strings.ToLower urlStr
  | some u => normalizeParsed u

/-- The function `isNonHTMLResource`. -/
def isNonHTMLResource (ext : GoString) : Bool :=
  [".jpg", ".jpeg", ".png", ".gif", ".webp",
   ".pdf", ".doc", ".docx", ".xls", ".xlsx",
   ".zip", ".tar", ".gz", ".mp3", ".mp4",
   ".avi", ".mov", ".css", ".js", ".svg"].any (fun e => ext = bytes e)

/-- The URL `processLink` resolves `href` to, with the fragment removed, before the scheme,
domain and extension checks: `base.ResolveReference(linkURL)` with `Fragment = ""`. -/
def resolveLink (base linkURL : Url.URL) : Url.URL :=
  { Url.URL.ResolveReference base linkURL with Fragment := [] }

/-- The method `processLink`: converts a relative link to absolute and validates it. -/
def processLink (base : Url.URL) (href : GoString) : Except LinkError GoString :=
  let href := Strings.TrimSpace href
  -- Skip empty and special links
  if href = [] ∨ href = [35] ∨ Strings.HasPrefix href (bytes "javascript:") then
    .error .ErrInvalidLink
  -- Skip non-HTTP(S) links
  else if Strings.HasPrefix href (bytes "mailto:") ∨ Strings.HasPrefix href (bytes "tel:")
      ∨ Strings.HasPrefix href (bytes "data:")
      ∨ Strings.HasPrefix href (bytes "chrome-extension:") then
    .error .ErrInvalidScheme
  else
    match Url.Parse href with
    | none => .error .parseError
    | some linkURL =>
      let absoluteURL := resolveLink base linkURL
      if absoluteURL.Scheme ≠ bytes "http" ∧ absoluteURL.Scheme ≠ bytes "https" then
        .error .ErrInvalidScheme
      else if absoluteURL.Host ≠ base.Host then .error .ErrExternalDomain
      else if isNonHTMLResource (Strings.ToLower (Filepath.Ext absoluteURL.Path)) then
        .error .ErrNonHTMLResource
      else .ok (Url.URL.String absoluteURL)

/-- The callback of `EachWithBreak` in `extractLinks`, run on the anchors from index `i` on;
the state is `links` and the set `seen`; `done i` tells whether `c.ctx` is cancelled when
anchor `i` is reached. -/
def extractLoop (base : Url.URL) (done : Nat → Bool) :
    Nat → List Element → List GoString × List GoString → List GoString
  | _, [], st => st.1
  | i, s :: rest, st =>
    if done i then st.1 -- Stop processing if context cancelled
    else
      match s.attr "href" with
      | none => extractLoop base done (i + 1) rest st
      | some href =>
        match processLink base href with
        | .error _ => extractLoop base done (i + 1) rest st
        | .ok link =>
          let normalized := normalizeURL link
          if !st.2.contains normalized then
            extractLoop base done (i + 1) rest (st.1 ++ [normalized], normalized :: st.2)
          else extractLoop base done (i + 1) rest st

/-- The selection `doc.Find("a[href]")`. -/
def anchorsWithHref (doc : Document) : Selection :=
  doc.filter (fun e => e.tag = bytes "a" && (e.attr "href").isSome)

/-- The method `extractLinks`; `nil` is the empty list. -/
def extractLinks (done : Nat → Bool) (baseURL : GoString) (content : Page) : List GoString :=
  match content with
  | none => []
  | some doc =>
    match Url.Parse baseURL with
    | none => []
    | some base => extractLoop base done 0 (anchorsWithHref doc) ([], [])

/-- The pattern list of `URLPatternMatch`. -/
def patterns : List Regexp.Pattern :=
  [Regexp.literal "/product/",
   Regexp.literal "/item/",
   Regexp.literal "/p/",
   Regexp.literal "/prod/",
   Regexp.literal "-prod" ++ [Regexp.Atom.digits],
   Regexp.literal "/buy/",
   Regexp.literal "/shop/",
   Regexp.literal "/product.html"]

/-- The method `URLPatternMatch`. -/
def URLPatternMatch (urlStr : GoString) : Bool :=
  patterns.any (fun pattern => Regexp.MatchString pattern (Strings.ToLower urlStr))

/-- The method `checkMetaTags`. -/
def checkMetaTags (doc : Document) : Bool :=
  -- Check for og:type product
  let ogType := Attr (doc.filter (fun e => e.isTagWithAttr "meta" "property" "og:type")) "content"
  if ogType.isSome ∧ ogType.map Strings.ToLower = some (bytes "product") then true
  else
    -- Check for other commerce-related meta tags
    (doc.filter (fun e => e.tag = bytes "meta")).any (fun s =>
      Strings.Contains (Strings.ToLower ((s.attr "name").getD [])) (bytes "product")
        || Strings.Contains (Strings.ToLower ((s.attr "property").getD [])) (bytes "product"))

/-- The method `checkBreadcrumbs`. -/
def checkBreadcrumbs (doc : Document) : Bool :=
  let breadcrumbs := doc.filter (fun e => e.hasClass "breadcrumb" || e.hasClass "breadcrumbs"
    || e.hasClass "bc" || e.hasClass "breadcrumb-trail")
  if breadcrumbs.length = 0 then false
  else
    let breadcrumbText := Strings.ToLower (Text breadcrumbs)
    Strings.Contains breadcrumbText (bytes "product")
      || Strings.Contains breadcrumbText (bytes "item")
      || Strings.Contains breadcrumbText (bytes "detail")

/-- The method `checkQueryParams`. -/
def checkQueryParams (urlStr : GoString) : Bool :=
  match Url.Parse urlStr with
  | none => false
  | some u =>
    (Url.URL.Query u).any (fun kv =>
      let lowerParam := Strings.ToLower kv.1
      Strings.Contains lowerParam (bytes "product")
        || Strings.Contains lowerParam (bytes "item")
        || Strings.Contains lowerParam (bytes "prod")
        || Strings.Contains lowerParam (bytes "sku"))

/-- The phrase list of `checkAnchorTexts`. -/
def productPhrases : List String :=
  ["buy now", "add to cart", "add to bag", "view product", "product details", "shop now"]

/-- The method `checkAnchorTexts`. -/
def checkAnchorTexts (doc : Document) : Bool :=
  (doc.filter (fun e => e.tag = bytes "a" || e.tag = bytes "button")).any (fun s =>
    let text := Strings.ToLower (Strings.TrimSpace s.text)
    productPhrases.any (fun phrase => Strings.Contains text (bytes phrase)))

/-- The method `checkStructuredData`: the callback of `Each` inspects every
`script[type='application/ld+json']` and returns nothing to the method, whose only
`return` statement is `return false`. -/
def checkStructuredData (doc : Document) : Bool :=
  let _visited := (doc.filter (fun e => e.isTagWithAttr "script" "type" "application/ld+json")).map
    (fun s =>
      let content := Strings.ToLower s.text
      Strings.Contains content (bytes "\x22@type\x22:\x22product\x22")
        || Strings.Contains content (bytes "'@type':'product'"))
  false

/-- The method `checkCanonicalTags`. -/
def checkCanonicalTags (doc : Document) : Bool :=
  match Attr (doc.filter (fun e => e.isTagWithAttr "link" "rel" "canonical")) "href" with
  | none => false
  | some canonical => URLPatternMatch canonical

/-- The method `checkAnchorDensity`. The test `float64(a) / float64(t) > 0.3` is written
`10 * a > 3 * t`; the two agree for every document of fewer than `2 ^ 50` elements. -/
def checkAnchorDensity (doc : Document) : Bool :=
  let totalElements := doc.length
  let anchorElements := (doc.filter (fun e => e.tag = bytes "a")).length
  if totalElements = 0 then false
  else decide (10 * anchorElements > 3 * totalElements)

/-- The value of `score` at the end of `IsProductPage` for a page that parsed. -/
def productScore (urlStr : GoString) (doc : Document) : Nat :=
  (if URLPatternMatch urlStr then 20 else 0)
    + (if checkMetaTags doc then 15 else 0)
    + (if checkBreadcrumbs doc then 10 else 0)
    + (if checkQueryParams urlStr then 10 else 0)
    + (if checkAnchorTexts doc then 10 else 0)
    + (if checkStructuredData doc then 20 else 0)
    + (if checkCanonicalTags doc then 10 else 0)
    + (if checkAnchorDensity doc then 5 else 0)

/-- The method `IsProductPage`. -/
def IsProductPage (urlStr : GoString) (content : Page) : Bool :=
  match content with
  | none => false
  | some doc => decide (productScore urlStr doc ≥ 50)

/-- The type `DomainURLMap`: for each domain stored, the URLs stored under it. -/
abbrev DomainURLMap := List (GoString × List GoString)

/-- The method `DomainURLMap.Add`: `LoadOrStore(domain, &sync.Map{})`, then
`Store(url, true)` on the map of the domain. -/
def DomainURLMap.Add : DomainURLMap → GoString → GoString → DomainURLMap
  | [], domain, url => [(domain, [url])]
  | (d, urls) :: m, domain, url =>
    if d = domain then (d, if urls.contains url then urls else urls ++ [url]) :: m
    else (d, urls) :: DomainURLMap.Add m domain url

/-- The fields of the type `Crawler` the crawl step reads or writes. -/
structure Crawler where
  domains : List GoString
  workerPool : WorkerPool
  /-- The keys of the `sync.Map`. -/
  visitedURLs : List GoString
  productURLs : DomainURLMap
  userAgent : GoString
  maxDepth : Int
  /-- A `time.Duration`, in nanoseconds. -/
  crawlDelay : Int
deriving Repr

/-- The function `NewCrawler`. -/
def NewCrawler (domains : List GoString) (maxDepth : Int) (crawlDelay : Int)
    (userAgent : GoString) : Crawler :=
  { domains := domains, workerPool := NewWorkerPool, visitedURLs := [], productURLs := [],
    userAgent := userAgent, maxDepth := maxDepth, crawlDelay := crawlDelay }

/-- One round of the loop of `Start` that initializes the queue. -/
def Crawler.seed (c : Crawler) (domain : GoString) : Crawler :=
  match Url.Parse domain with
  | none => c
  | some parsedURL =>
    { c with workerPool := c.workerPool.AddTask ⟨domain, 0, parsedURL.Host⟩ }

/-- The method `Start`, up to the start of the workers: the queue is initialized with one
task for each domain. -/
def Crawler.Start (c : Crawler) : Crawler := c.domains.foldl Crawler.seed c

/-- The errors `FetchWithContext` returns. -/
inductive FetchError where
  | ErrTimeout
  | other
deriving DecidableEq, Repr

/-- The errors `processTask` returns. -/
inductive TaskError where
  | contextError
  | robotsError
  | fetchError
deriving DecidableEq, Repr

/-- What the world answers during one call of `processTask`. -/
structure TaskEnv where
  /-- Whether `c.ctx.Err()` is non-nil on entry. -/
  ctxErr : Bool
  /-- The result of `c.checkRobotsTxt(task)`: `allowed` and the crawl delay, or an error. -/
  robots : Except Unit (Bool × Int)
  /-- The result of `c.checkSitemap(task.URL)`. -/
  sitemap : Except Unit (List GoString)
  /-- The result of `c.httpClient.FetchWithContext(c.ctx, task.URL)`. -/
  fetch : Except FetchError Page
  /-- Whether `c.ctx` is cancelled when `extractLinks` reaches anchor `i`. -/
  done : Nat → Bool

/-- The loop of `processTask` over the sitemap URLs, one round. -/
def Crawler.addSitemapTask (task : Task) (c : Crawler) (u : GoString) : Crawler :=
  -- Don't follow sitemap links deeper than max depth
  if task.Depth + 1 ≤ c.maxDepth then
    { c with workerPool := c.workerPool.AddTask ⟨u, task.Depth + 1, task.Domain⟩ }
  else c

/-- The loop of `processTask` over the extracted links, one round. -/
def Crawler.addLinkTask (task : Task) (c : Crawler) (link : GoString) : Crawler :=
  { c with workerPool := c.workerPool.AddTask ⟨link, task.Depth + 1, task.Domain⟩ }

/-- The part of `processTask` that checks the sitemap when the task is at the root. -/
def Crawler.sitemapStep (c : Crawler) (env : TaskEnv) (task : Task) : Crawler :=
  if task.Depth = 0 then
    match env.sitemap with
    | .ok sitemapURLs => sitemapURLs.foldl (Crawler.addSitemapTask task) c
    | .error _ => c
  else c

/-- The part of `processTask` from the page fetch on. -/
def Crawler.fetchStep (c : Crawler) (env : TaskEnv) (task : Task) (normalizedURL : GoString) :
    Crawler × Option TaskError :=
  match env.fetch with
  | .error .ErrTimeout => (c, none) -- Skip this URL but continue processing
  | .error .other => (c, some .fetchError)
  | .ok content =>
    -- Detect if this is a product page
    if IsProductPage normalizedURL content then
      -- Don't crawl further from product pages
      ({ c with productURLs := c.productURLs.Add task.Domain normalizedURL }, none)
    -- Extract links and add to queue if we haven't reached max depth
    else if task.Depth < c.maxDepth then
      ((extractLinks env.done normalizedURL content).foldl (Crawler.addLinkTask task) c, none)
    else (c, none)

/-- The part of `processTask` from the robots check on, for a URL not visited before. -/
def Crawler.robotsStep (c : Crawler) (env : TaskEnv) (task : Task) (normalizedURL : GoString) :
    Crawler × Option TaskError :=
  match env.robots with
  | .error _ => (c, some .robotsError)
  | .ok (robotsAllowed, _crawlDelay) =>
    if !robotsAllowed then (c, none)
    else Crawler.fetchStep (Crawler.sitemapStep c env task) env task normalizedURL

/-- The method `Crawler.processTask`: the crawler after the call, and the error returned. -/
def Crawler.processTask (c : Crawler) (env : TaskEnv) (task : Task) :
    Crawler × Option TaskError :=
  -- Check context cancellation
  if env.ctxErr then (c, some .contextError)
  -- Check if we've already visited this URL (`LoadOrStore` on the normalized URL)
  else if c.visitedURLs.contains (normalizeURL task.URL) then (c, none)
  else
    Crawler.robotsStep { c with visitedURLs := c.visitedURLs ++ [normalizeURL task.URL] }
      env task (normalizeURL task.URL)

end Crawl

/-! ## The specification's reading of the classifier, and the pages of the test suite -/

namespace Crawl

open Goquery Workerpool

/-- The host of a URL given as text: the `Host` field `url.Parse` finds in it. -/
def hostOf (urlStr : GoString) : Option GoString := (Url.Parse urlStr).map (·.Host)

/-- The structured-data signal in the words of the specification: a `ld+json` script
block's (lowercased) text contains a `"@type":"product"` marker, or the single-quoted
variant. -/
def specStructuredData (doc : Document) : Bool :=
  (doc.filter (fun e => e.isTagWithAttr "script" "type" "application/ld+json")).any (fun s =>
    Strings.Contains (Strings.ToLower s.text) (bytes "\x22@type\x22:\x22product\x22")
      || Strings.Contains (Strings.ToLower s.text) (bytes "'@type':'product'"))

/-- The score in the words of the specification: the sum of the weights of the signals of
its table that hold. -/
def specScore (urlStr : GoString) (doc : Document) : Nat :=
  (if URLPatternMatch urlStr then 20 else 0)
    + (if checkMetaTags doc then 15 else 0)
    + (if checkBreadcrumbs doc then 10 else 0)
    + (if checkQueryParams urlStr then 10 else 0)
    + (if checkAnchorTexts doc then 10 else 0)
    + (if specStructuredData doc then 20 else 0)
    + (if checkCanonicalTags doc then 10 else 0)
    + (if checkAnchorDensity doc then 5 else 0)

/-- The verdict in the words of the specification: positive exactly when the score reaches
the threshold 50; a page that fails to parse is not a product page. -/
def specIsProductPage (urlStr : GoString) (content : Page) : Bool :=
  match content with
  | none => false
  | some doc => decide (specScore urlStr doc ≥ 50)

/-- An element without attributes. -/
def plainElement (tag : String) (text : String) : Element :=
  { tag := bytes tag, attrs := [], text := bytes text }

/-- The element `<meta property="og:type" content="product">`. -/
def ogTypeMeta : Element :=
  { tag := bytes "meta", attrs := [(bytes "property", bytes "og:type"), (bytes "content", bytes "product")],
    text := [] }

/-- The element `<script type="application/ld+json">{"@type":"Product"}</script>`. -/
def productLdJson : Element :=
  { tag := bytes "script", attrs := [(bytes "type", bytes "application/ld+json")],
    text := bytes "\x7b\x22@type\x22:\x22Product\x22\x7d" }

/-- The page of the test `product page with og:type`:
`<html><head><meta property="og:type" content="product"></head><body></body></html>`. -/
def ogTypePage : Page :=
  some [plainElement "html" "", plainElement "head" "", ogTypeMeta, plainElement "body" ""]

/-- The page of the test `product page with schema.org`:
`<html><script type="application/ld+json">{"@type":"Product"}</script></html>`; the parser
puts the script into the head it creates. -/
def schemaOrgPage : Page :=
  some [plainElement "html" "\x7b\x22@type\x22:\x22Product\x22\x7d",
    plainElement "head" "\x7b\x22@type\x22:\x22Product\x22\x7d", productLdJson, plainElement "body" ""]

/-- A page with both the `og:type` meta tag and the Schema.org script in its head. -/
def ogTypeAndSchemaOrgPage : Page :=
  some [plainElement "html" "\x7b\x22@type\x22:\x22Product\x22\x7d",
    plainElement "head" "\x7b\x22@type\x22:\x22Product\x22\x7d", ogTypeMeta, productLdJson,
    plainElement "body" ""]

/-- The page `<html><head></head><body><a href="/a">A</a></body></html>`. -/
def oneLinkPage : Page :=
  some [plainElement "html" "A", plainElement "head" "", plainElement "body" "A",
    { tag := bytes "a", attrs := [(bytes "href", bytes "/a")], text := bytes "A" }]

/-- The context is never cancelled. -/
def neverDone : Nat → Bool := fun _ => false

end Crawl

/-! ## What it means to differ only in scheme case, host case and fragment -/

namespace Crawl

open Goquery Workerpool

/-- A byte `getScheme` accepts at the start of a scheme: an ASCII letter. -/
def isLetter (c : Nat) : Bool := (97 ≤ c && c ≤ 122) || (65 ≤ c && c ≤ 90)

/-- A byte `getScheme` accepts inside a scheme: a letter, a digit, `+`, `-` or `.`. -/
def isSchemeByte (c : Nat) : Bool :=
  isLetter c || (48 ≤ c && c ≤ 57) || c = 43 || c = 45 || c = 46

/-- A scheme as `getScheme` recognises it: a letter followed by scheme bytes. -/
def isScheme (s : GoString) : Bool :=
  match s with
  | [] => false
  | c :: cs => isLetter c && cs.all isSchemeByte

/-- The scheme parts of two URLs that differ at most in the letter case of the scheme:
both empty, or two schemes equal up to case, each with its colon. -/
inductive SchemeVariant : GoString → GoString → Prop where
  | none : SchemeVariant [] []
  | scheme (s1 s2 : GoString) (h1 : isScheme s1 = true) (h2 : isScheme s2 = true)
      (hcase : Strings.ToLower s1 = Strings.ToLower s2) : SchemeVariant (s1 ++ [58]) (s2 ++ [58])

/-- What follows the scheme in two URLs that differ at most in the letter case of the host:
the same text (without `#`), or `//`, the same user information (empty, or ending in `@`),
two hosts equal up to case, and the same path and query (empty, or starting with `/`
or `?`). User information and host contain no `/`, `?` or `#`, the host no `@`. -/
inductive HostVariant : GoString → GoString → Prop where
  | same (t : GoString) (ht : 35 ∉ t) : HostVariant t t
  | host (userinfo host1 host2 rest : GoString)
      (hui : userinfo = [] ∨ ∃ ui, userinfo = ui ++ [64])
      (hui2 : 47 ∉ userinfo ∧ 63 ∉ userinfo ∧ 35 ∉ userinfo)
      (hh1 : 47 ∉ host1 ∧ 63 ∉ host1 ∧ 35 ∉ host1 ∧ 64 ∉ host1)
      (hh2 : 47 ∉ host2 ∧ 63 ∉ host2 ∧ 35 ∉ host2 ∧ 64 ∉ host2)
      (hcase : Strings.ToLower host1 = Strings.ToLower host2)
      (hrest : rest = [] ∨ rest.head? = some 47 ∨ rest.head? = some 63)
      (hrest2 : 35 ∉ rest) :
      HostVariant (bytes "//" ++ userinfo ++ host1 ++ rest) (bytes "//" ++ userinfo ++ host2 ++ rest)

/-- A fragment part: nothing, or `#` and any text. -/
def isFragmentPart (f : GoString) : Prop := f = [] ∨ f.head? = some 35

/-- The depth bound as a property of a crawler: its `maxDepth` is `d` and no pending task
is deeper than `d`. -/
def DepthBounded (d : Int) (c : Crawler) : Prop :=
  c.maxDepth = d ∧ ∀ t ∈ c.workerPool.tasks, t.Depth ≤ d

/-- A task queue at capacity: 1000 pending tasks. -/
def fullPool : WorkerPool :=
  { capacity := 1000, tasks := List.replicate 1000 ⟨bytes "http://test/", 0, bytes "test"⟩ }

/-- A crawler for the seed `http://test/` with `maxDepth = 3`, after `Start` has queued the
seed task. -/
def seededCrawler : Crawler :=
  (NewCrawler [bytes "http://test/"] 3 1000000 (bytes "test-crawler")).Start

/-- The seed task of `seededCrawler`. -/
def seedTask : Task := ⟨bytes "http://test/", 0, bytes "test"⟩

/-- A world in which robots.txt allows the task, the sitemap lists one URL and the page
fetched is `oneLinkPage`. -/
def oneLinkEnv : TaskEnv :=
  { ctxErr := false, robots := .ok (true, 0), sitemap := .ok [bytes "http://test/product/1"],
    fetch := .ok oneLinkPage, done := neverDone }

end Crawl

/-! ## Plain hosts, and the parts `URL.String` writes -/

namespace Url

/-- An upper-case hex digit. -/
def isUpperHex (c : Nat) : Prop := (48 ≤ c ∧ c ≤ 57) ∨ (65 ≤ c ∧ c ≤ 70)

/-- A byte that is neither `?`, `#` nor a control byte. -/
def isPlainByte (x : Nat) : Prop := x ≠ 63 ∧ x ≠ 35 ∧ ¬ (x < 32 ∨ x = 0x7f)

/-- A byte that is neither `#` nor a control byte. -/
def isQueryByte (x : Nat) : Prop := x ≠ 35 ∧ ¬ (x < 32 ∨ x = 0x7f)

/-- What `URL.String` writes for the user information: nothing, or the escaped user
information and `@`. -/
def uiPart (user : Option Userinfo) : GoString :=
  match user with
  | some ui => Userinfo.String ui ++ [64]
  | none => []

/-- What `URL.String` writes for the path of a URL that has a host: the escaped path, after
a `/` when it does not start with one. -/
def pathPart (u : URL) : GoString :=
  if URL.EscapedPath u ≠ [] ∧ (URL.EscapedPath u).head? ≠ some 47 then 47 :: URL.EscapedPath u
  else URL.EscapedPath u

end Url

namespace Crawl

/-- A byte of a host name: a letter, a digit, `.` or `-`. -/
def isHostNameByte (c : Nat) : Bool :=
  (97 ≤ c && c ≤ 122) || (65 ≤ c && c ≤ 90) || (48 ≤ c && c ≤ 57) || c = 46 || c = 45

/-- A plain host: a non-empty name of letters, digits, dots and hyphens, optionally
followed by a port, `:` and digits. -/
def plainHost (host : GoString) : Bool :=
  !(host.takeWhile isHostNameByte).isEmpty
    && Url.validOptionalPort (host.dropWhile isHostNameByte)

end Crawl

/-! ## Package `github.com/temoto/robotstxt`, as `checkRobotsTxt` uses it -/

namespace Robotstxt

/-- A compiled wildcard pattern of a rule (a path with `*` or `$`): the length of the text
of the regular expression, and the test `pattern.MatchString`. -/
structure PathPattern where
  length : Nat
  MatchString : GoString → Bool

/-- The type `rule`. -/
structure Rule where
  path : GoString
  allow : Bool
  pattern : Option PathPattern

/-- The type `Group`; `CrawlDelay` is a `time.Duration`, in nanoseconds. -/
structure Group where
  rules : List Rule
  CrawlDelay : Int

/-- The type `RobotsData`: the groups by (lowercased) user agent, and the two flags. -/
structure RobotsData where
  groups : List (GoString × Group)
  allowAll : Bool
  disallowAll : Bool

/-- The variable `allowAll`. -/
def allowAllData : RobotsData := { groups := [], allowAll := true, disallowAll := false }

/-- The variable `disallowAll`. -/
def disallowAllData : RobotsData := { groups := [], allowAll := false, disallowAll := true }

/-- The variable `emptyGroup`. -/
def emptyGroup : Group := { rules := [], CrawlDelay := 0 }

/-- The function `FromStatusAndBytes`; `fromBytes` is the parser `FromBytes`. -/
def FromStatusAndBytes (fromBytes : GoString → Except Unit RobotsData) (statusCode : Int)
    (body : GoString) : Except Unit RobotsData :=
  if statusCode ≥ 200 ∧ statusCode < 300 then fromBytes body
  -- Google treats all 4xx errors in the same way and assumes that no valid robots.txt
  -- file exists.
  else if statusCode ≥ 400 ∧ statusCode < 500 then .ok allowAllData
  -- Server errors (5xx) are seen as temporary errors that result in a "full disallow".
  else if statusCode ≥ 500 ∧ statusCode < 600 then .ok disallowAllData
  else .error ()

/-- One round of the loop of `FindGroup` over the groups; the state is `ret` and
`prefixLen`. -/
def findGroupStep (agent : GoString) (st : Option Group × Nat) (ag : GoString × Group) :
    Option Group × Nat :=
  if ag.1 ≠ [42] ∧ Strings.HasPrefix agent ag.1 then
    if ag.1.length > st.2 then (some ag.2, ag.1.length) else st
  else st

/-- The method `RobotsData.FindGroup`; a nil pointer is `none`, which it never returns. The
loop visits the groups in the order of the list; the result does not depend on the order,
two different agents of the same length not being both a prefix of `agent`. -/
def RobotsData.FindGroup (r : RobotsData) (agent : GoString) : Option Group :=
  let agent := Strings.ToLower agent
  let star := (r.groups.find? (fun ag => ag.1 = [42])).map (·.2)
  -- Weakest match possible
  let st : Option Group × Nat := (star, if star.isSome then 1 else 0)
  match (r.groups.foldl (findGroupStep agent) st).1 with
  | none => some emptyGroup
  | some ret => some ret

/-- One round of the loop of `findRule` over the rules; the state is `ret` and
`prefixLen`. -/
def findRuleStep (path : GoString) (st : Option Rule × Nat) (r : Rule) : Option Rule × Nat :=
  match r.pattern with
  | some pattern =>
    if pattern.MatchString path then
      -- Consider this a match equal to the length of the pattern.
      if pattern.length > st.2 then (some r, pattern.length) else st
    else st
  | none =>
    if r.path = [47] ∧ st.2 = 0 then (some r, 1) -- Weakest match possible
    else if Strings.HasPrefix path r.path then
      if r.path.length > st.2 then (some r, r.path.length) else st
    else st

/-- The method `Group.findRule`. -/
def Group.findRule (g : Group) (path : GoString) : Option Rule :=
  (g.rules.foldl (findRuleStep path) (none, 0)).1

/-- The method `Group.Test`. -/
def Group.Test (g : Group) (path : GoString) : Bool :=
  match g.findRule path with
  | some r => r.allow
  | none => true -- By default, there are no restrictions for crawling

end Robotstxt

/-! ## The method `checkRobotsTxt` -/

namespace Crawl

open Goquery Workerpool Robotstxt

/-- The constant `time.Second`, in nanoseconds. -/
def Second : Int := 1000000000

/-- The value of a 64-bit signed integer expression whose exact value is `x`. -/
def wrapInt64 (x : Int) : Int := (x + 2 ^ 63) % 2 ^ 64 - 2 ^ 63

/-- A response of `http.Get`: the status code, and the body as `io.ReadAll` returns it. -/
structure Response where
  StatusCode : Int
  body : Except Unit GoString

/-- What the world answers during one call of `checkRobotsTxt`, and the parser of the
robots library. -/
structure RobotsEnv where
  /-- The result of `http.Get` on a URL. -/
  get : GoString → Except Unit Response
  /-- The function `robotstxt.FromBytes`. -/
  fromBytes : GoString → Except Unit RobotsData

/-- The function `robotstxt.FromResponse`. -/
def FromResponse (env : RobotsEnv) (res : Response) : Except Unit RobotsData :=
  match res.body with
  | .error e => .error e
  | .ok buf => FromStatusAndBytes env.fromBytes res.StatusCode buf

/-- The errors `checkRobotsTxt` returns: that of `url.Parse`. -/
inductive RobotsError where
  | parseError
deriving DecidableEq, Repr

/-- The URL `checkRobotsTxt` fetches: the task URL with `Path = "/robots.txt"`. -/
def robotsURL (u : Url.URL) : GoString := Url.URL.String { u with Path := bytes "/robots.txt" }

/-- The method `checkRobotsTxt`: `allowed`, the crawl delay and the error. -/
def Crawler.checkRobotsTxt (c : Crawler) (env : RobotsEnv) (task : Task) :
    Bool × Int × Option RobotsError :=
  -- Get robots.txt URL
  match Url.Parse task.URL with
  | none => (false, c.crawlDelay, some .parseError)
  | some u =>
    -- Fetch robots.txt
    match env.get (robotsURL u) with
    | .error _ => (true, c.crawlDelay, none) -- assume all paths are allowed
    | .ok resp =>
      -- Parse robots.txt
      match FromResponse env resp with
      | .error _ => (true, c.crawlDelay, none)
      | .ok data =>
        -- Check if our user agent is allowed to access this URL
        match data.FindGroup c.userAgent with
        | none => (true, c.crawlDelay, none) -- No specific rules for our user agent
        | some group =>
          -- Check if the path is allowed
          if !group.Test task.URL then (false, c.crawlDelay, none)
          else
            -- Get crawl delay if specified
            let crawlDelay :=
              if group.CrawlDelay > 0 then wrapInt64 (group.CrawlDelay * Second)
              else c.crawlDelay
            (true, crawlDelay, none)

/-- The result of `checkRobotsTxt` as `processTask` reads it. -/
def robotsResult (r : Bool × Int × Option RobotsError) : Except Unit (Bool × Int) :=
  match r.2.2 with
  | some _ => .error ()
  | none => .ok (r.1, r.2.1)

end Crawl

/-! ## Runs of tasks, `ToJSON`, the sitemap check, and the inputs of the claims on them -/

namespace Crawl

open Goquery Workerpool Robotstxt

/-- A sequence of `processTask` calls on one crawler, each with what the world answers
during it: the crawler after the last call. -/
def Crawler.runTasks (c : Crawler) (calls : List (TaskEnv × Task)) : Crawler :=
  calls.foldl (fun c call => (c.processTask call.1 call.2).1) c

/-- A task for the seed of `seededCrawler` spelled with an upper-case scheme and host and a
fragment. -/
def seedTaskVariant : Task := ⟨bytes "HTTP://TEST/#top", 0, bytes "test"⟩

end Crawl

namespace Crawl

open Goquery Workerpool Robotstxt

/-- A world in which `robots.txt` is served with status `status` and body `body`, which the
robots library parses to `data`. -/
def robotsEnvOf (status : Int) (body : String) (data : RobotsData) : RobotsEnv :=
  { get := fun _ => .ok { StatusCode := status, body := .ok (bytes body) },
    fromBytes := fun _ => .ok data }

/-- The parsed file `User-agent: *`, `Crawl-delay: n` for a delay of `n` seconds. -/
def crawlDelayData (n : Int) : RobotsData :=
  { groups := [([42], { rules := [], CrawlDelay := n * Second })],
    allowAll := false, disallowAll := false }

/-- A crawler with a default crawl delay of one millisecond, as in the tests. -/
def testCrawler : Crawler := NewCrawler [] 1 1000000 (bytes "test-crawler")

end Crawl

namespace Crawl

open Goquery Workerpool Robotstxt

/-- The parsed file `User-agent: *`, `Disallow: path`. -/
def disallowData (path : String) : RobotsData :=
  { groups := [([42], { rules := [{ path := bytes path, allow := false, pattern := none }],
                        CrawlDelay := 0 })],
    allowAll := false, disallowAll := false }

/-- The task of the robots test for the page `/disallowed/product` of the seed
`http://shop.test`. -/
def disallowedTask : Task := ⟨bytes "http://shop.test/disallowed/product", 0, bytes "shop.test"⟩

/-- A page that scores 50: the `og:type` meta tag, a canonical link to a product URL, a
breadcrumb naming the product, a `Buy now` anchor, and three anchors among eight elements. -/
def productPage : Page :=
  some [plainElement "html" "Product Buy now More", plainElement "head" "", ogTypeMeta,
    { tag := bytes "link", attrs := [(bytes "rel", bytes "canonical"),
        (bytes "href", bytes "/product/1")], text := [] },
    plainElement "body" "Product Buy now More",
    { tag := bytes "a", attrs := [(bytes "class", bytes "breadcrumb"), (bytes "href", bytes "/")],
      text := bytes "Product" },
    { tag := bytes "a", attrs := [(bytes "href", bytes "/cart")], text := bytes "Buy now" },
    { tag := bytes "a", attrs := [(bytes "href", bytes "/more")], text := bytes "More" }]

/-- What the world answers to the task of the robots test: `robots.txt` disallows
`/disallowed/`, there is no sitemap, and the page fetched is `productPage`. -/
def disallowedEnv : TaskEnv :=
  { ctxErr := false,
    robots := robotsResult (testCrawler.checkRobotsTxt
      (robotsEnvOf 200 "User-agent: *\nDisallow: /disallowed/" (disallowData "/disallowed/"))
      disallowedTask),
    sitemap := .ok [], fetch := .ok productPage, done := neverDone }

end Crawl

deriving instance DecidableEq for Except

namespace Crawl

open Goquery Workerpool Robotstxt

open Strings

/-- The first rejection rule of `processLink` on the trimmed `href`: empty, `#`, or a
`javascript:` link. -/
def isSpecialLink (href : GoString) : Prop :=
  href = [] ∨ href = [35] ∨ HasPrefix href (bytes "javascript:") = true

/-- The second rejection rule of `processLink` on the trimmed `href`: a `mailto:`, `tel:`,
`data:` or `chrome-extension:` link. -/
def isNonHTTPLink (href : GoString) : Prop :=
  HasPrefix href (bytes "mailto:") = true ∨ HasPrefix href (bytes "tel:") = true
    ∨ HasPrefix href (bytes "data:") = true
    ∨ HasPrefix href (bytes "chrome-extension:") = true

/-- The parsed base URL `http://example.com/`. -/
def exampleBase : Url.URL :=
  { Scheme := bytes "http", Host := bytes "example.com", Path := bytes "/" }

end Crawl

namespace Crawl

open Goquery Workerpool Robotstxt

/-- The first occurrences of a sequence of URLs, in order: every later repetition of a URL
is dropped. -/
def firstOccurrences : List GoString → List GoString
  | [] => []
  | x :: xs => x :: (firstOccurrences xs).filter (fun y => y ≠ x)

/-- The normalized URL of an anchor whose `href` the method `processLink` accepts. -/
def acceptedLink (base : Url.URL) (e : Element) : Option GoString :=
  match e.attr "href" with
  | none => none
  | some href =>
    match processLink base href with
    | .error _ => none
    | .ok link => some (normalizeURL link)

/-- The sequence `normalizeURL(processLink(base, href))` over the anchors with an `href`
that `processLink` accepts, in document order. -/
def acceptedLinks (base : Url.URL) (doc : Document) : List GoString :=
  (anchorsWithHref doc).filterMap (acceptedLink base)

/-- The page with the anchors `/a`, `/A/../a#x`, `mailto:x@example.com`, `/b` and `/a`. -/
def fiveLinkPage : Page :=
  some [plainElement "html" "", plainElement "body" "",
    { tag := bytes "a", attrs := [(bytes "href", bytes "/a")], text := [] },
    { tag := bytes "a", attrs := [(bytes "href", bytes "/A/../a#x")], text := [] },
    { tag := bytes "a", attrs := [(bytes "href", bytes "mailto:x@example.com")], text := [] },
    { tag := bytes "a", attrs := [(bytes "href", bytes "/b")], text := [] },
    { tag := bytes "a", attrs := [(bytes "href", bytes "/a")], text := [] }]

/-- The task URL `HTTP://My_Shop.Test:8080/Dir/`: upper-case letters in scheme and host, an
underscore in the host, and a port. -/
def shopTaskURL : GoString := bytes "HTTP://My_Shop.Test:8080/Dir/"

/-- A page with a relative link, a link to another host, and a link to the host of
`shopTaskURL` spelled as in the task URL. -/
def shopPage : Page :=
  some [plainElement "html" "", plainElement "body" "",
    { tag := bytes "a", attrs := [(bytes "href", bytes "a?x=1#top")], text := [] },
    { tag := bytes "a", attrs := [(bytes "href", bytes "http://other.test/b")], text := [] },
    { tag := bytes "a", attrs := [(bytes "href", bytes "http://My_Shop.Test:8080/c")],
      text := [] }]

end Crawl

namespace Crawl

open Goquery Workerpool Robotstxt

/-- The statement `result[domain] = urlList` on a Go map given as a list of entries. -/
def setEntry : List (GoString × List GoString) → GoString → List GoString →
    List (GoString × List GoString)
  | [], domain, urlList => [(domain, urlList)]
  | (d, l) :: result, domain, urlList =>
    if d = domain then (d, urlList) :: result else (d, l) :: setEntry result domain urlList

/-- The method `DomainURLMap.ToJSON`: the entries of the resulting Go map. The two `Range`
loops visit domains and URLs in the order of the lists; `sync.Map` fixes no order. -/
def DomainURLMap.ToJSON (m : DomainURLMap) : List (GoString × List GoString) :=
  m.foldl (fun result kv => setEntry result kv.1 (kv.2.foldl (fun urlList url => urlList ++ [url]) []))
    []

/-- Four `Add` calls: two domains, one URL added twice. -/
def sampleCalls : List (GoString × GoString) :=
  [(bytes "a.test", bytes "http://a.test/p/1"), (bytes "a.test", bytes "http://a.test/p/1"),
   (bytes "b.test", bytes "http://b.test/p/2"), (bytes "a.test", bytes "http://a.test/p/3")]

/-- A sequence of `Add` calls on a new map, each call a domain and a URL. -/
def addAll (calls : List (GoString × GoString)) : DomainURLMap :=
  calls.foldl (fun m call => m.Add call.1 call.2) []

end Crawl

namespace Crawl

open Goquery Workerpool Robotstxt

open Strings

/-- The method `isProductSitemap`. -/
def isProductSitemap (url : GoString) : Bool :=
  Contains (ToLower url) (bytes "product")
    || Contains (ToLower url) (bytes "item")
    || Contains (ToLower url) (bytes "prod")

/-- What the world answers during one call of `checkSitemap`, and the XML decoder. -/
structure SitemapEnv where
  /-- The result of `http.Get` on a URL. -/
  get : GoString → Except Unit Response
  /-- The call `xml.Unmarshal(content, &index)`: the `loc` of each `sitemap` entry. -/
  unmarshalIndex : GoString → Except Unit (List GoString)
  /-- The call `xml.Unmarshal(content, &set)`: the `loc` of each `url` entry. -/
  unmarshalURLSet : GoString → Except Unit (List GoString)

/-- The method `parseSitemapURLs`. -/
def parseSitemapURLs (env : SitemapEnv) (sitemapURL : GoString) : Except Unit (List GoString) :=
  match env.get sitemapURL with
  | .error _ => .error () -- failed to fetch sitemap
  | .ok resp =>
    match resp.body with
    | .error _ => .error () -- failed to read sitemap content
    | .ok content =>
      match env.unmarshalURLSet content with
      | .error _ => .error () -- failed to parse sitemap URLs
      | .ok locs => .ok (locs.foldl (fun urls loc => urls ++ [loc]) [])

/-- One round of the loop of `checkSitemap` over the entries of a sitemap index. -/
def indexRound (env : SitemapEnv) (productURLs : List GoString) (loc : GoString) :
    List GoString :=
  if isProductSitemap loc then
    match parseSitemapURLs env loc with
    | .error _ => productURLs -- continue
    | .ok urls => productURLs ++ urls
  else productURLs

/-- One round of the loop of `checkSitemap` over the three candidate locations: the value
of `productURLs` after the round, or the error returned. -/
def sitemapRound (env : SitemapEnv) (productURLs : List GoString) (sitemapURL : GoString) :
    Except Unit (List GoString) :=
  match env.get sitemapURL with
  | .error _ => .ok productURLs -- continue
  | .ok resp =>
    if resp.StatusCode ≠ 200 then .ok productURLs -- continue
    else
      match resp.body with
      | .error _ => .error () -- failed to read sitemap
      | .ok content =>
        -- Check if it's a sitemap index
        if Contains content (bytes "<sitemapindex") then
          match env.unmarshalIndex content with
          | .error _ => .error () -- failed to parse sitemap index
          | .ok locs => .ok (locs.foldl (indexRound env) productURLs)
        else
          -- Regular sitemap
          if isProductSitemap sitemapURL then
            match parseSitemapURLs env sitemapURL with
            | .error _ => .error () -- failed to parse sitemap
            | .ok urls => .ok (productURLs ++ urls)
          else .ok productURLs

/-- A world in which every sitemap location answers with a `urlset` that lists the page
`http://shop.test/about`. -/
def aboutSitemapEnv : SitemapEnv :=
  { get := fun _ => .ok { StatusCode := 200, body := .ok (bytes "<urlset></urlset>") },
    unmarshalIndex := fun _ => .error (),
    unmarshalURLSet := fun _ => .ok [bytes "http://shop.test/about"] }

/-- The candidate locations of `checkSitemap`. -/
def sitemapCandidates (domain : GoString) : List GoString :=
  [domain ++ bytes "/sitemap.xml", domain ++ bytes "/sitemap_index.xml",
   domain ++ bytes "/sitemap-index.xml"]

/-- The loop of `checkSitemap` over the candidate locations. -/
def sitemapLoop (env : SitemapEnv) :
    List GoString → List GoString → Except Unit (List GoString)
  | [], productURLs => .ok productURLs
  | sitemapURL :: rest, productURLs =>
    match sitemapRound env productURLs sitemapURL with
    | .error e => .error e
    | .ok productURLs => sitemapLoop env rest productURLs

/-- The method `checkSitemap`. -/
def checkSitemap (env : SitemapEnv) (domain : GoString) : Except Unit (List GoString) :=
  sitemapLoop env (sitemapCandidates domain) []

end Crawl

namespace Crawl

open Goquery Workerpool Robotstxt

open Strings

/-- The text of a normalized URL without path, query and fragment: lowercased scheme,
`://`, user information and escaped lowercased host. -/
def rootText (u : Url.URL) : GoString :=
  ToLower u.Scheme ++ 58 :: (bytes "//" ++ Url.uiPart u.User
    ++ Url.escape (ToLower u.Host) .encodeHost)

end Crawl

/-! ## Theorems -/

open Url Crawl Goquery Workerpool Robotstxt

/-! ### Cutting and searching in a concatenation -/

namespace Strings

theorem Cut_of_not_mem (sep : Nat) (a : GoString) (h : sep ∉ a) :
    Cut sep a = (a, [], false) := by
  induction a with
  | nil => rfl
  | cons x xs ih =>
    have hx : x ≠ sep := fun e => h (by simp [e])
    have hxs : sep ∉ xs := fun e => h (List.mem_cons_of_mem _ e)
    simp [Cut, hx, ih hxs]

theorem Cut_append_sep (sep : Nat) (a b : GoString) (h : sep ∉ a) :
    Cut sep (a ++ sep :: b) = (a, b, true) := by
  induction a with
  | nil => simp [Cut]
  | cons x xs ih =>
    have hx : x ≠ sep := fun e => h (by simp [e])
    have hxs : sep ∉ xs := fun e => h (List.mem_cons_of_mem _ e)
    simp [Cut, hx, ih hxs]

theorem Cut_append_left (sep : Nat) (a r : GoString) (h : sep ∉ a) :
    Cut sep (a ++ r) = (a ++ (Cut sep r).1, (Cut sep r).2.1, (Cut sep r).2.2) := by
  induction a with
  | nil => simp
  | cons x xs ih =>
    have hx : x ≠ sep := fun e => h (by simp [e])
    have hxs : sep ∉ xs := fun e => h (List.mem_cons_of_mem _ e)
    simp [Cut, hx, ih hxs]

theorem IndexByte_of_not_mem (c : Nat) (a : GoString) (h : c ∉ a) : IndexByte c a = none := by
  induction a with
  | nil => rfl
  | cons x xs ih =>
    have hx : x ≠ c := fun e => h (by simp [e])
    have hxs : c ∉ xs := fun e => h (List.mem_cons_of_mem _ e)
    simp [IndexByte, hx, ih hxs]

theorem IndexByte_append_sep (c : Nat) (a b : GoString) (h : c ∉ a) :
    IndexByte c (a ++ c :: b) = some a.length := by
  induction a with
  | nil => simp [IndexByte]
  | cons x xs ih =>
    have hx : x ≠ c := fun e => h (by simp [e])
    have hxs : c ∉ xs := fun e => h (List.mem_cons_of_mem _ e)
    simp [IndexByte, hx, ih hxs]

theorem LastIndexByte_of_not_mem (c : Nat) (a : GoString) (h : c ∉ a) :
    LastIndexByte c a = none := by
  induction a with
  | nil => rfl
  | cons x xs ih =>
    have hx : x ≠ c := fun e => h (by simp [e])
    have hxs : c ∉ xs := fun e => h (List.mem_cons_of_mem _ e)
    simp [LastIndexByte, hx, ih hxs]

theorem LastIndexByte_append_sep (c : Nat) (a b : GoString) (h : c ∉ b) :
    LastIndexByte c (a ++ c :: b) = some a.length := by
  induction a with
  | nil => simp [LastIndexByte, LastIndexByte_of_not_mem c b h]
  | cons x xs ih => simp [LastIndexByte, ih]

theorem HasSuffix_append_of_ne_nil (a r : GoString) (c : Nat) (hr : r ≠ []) :
    HasSuffix (a ++ r) [c] = HasSuffix r [c] := by
  unfold HasSuffix
  cases hrev : r.reverse with
  | nil => exact absurd (List.reverse_eq_nil_iff.mp hrev) hr
  | cons x xs => simp [hrev, List.isPrefixOf]

theorem HasSuffix_of_not_mem (a : GoString) (c : Nat) (h : c ∉ a) :
    HasSuffix a [c] = false := by
  unfold HasSuffix
  cases hrev : a.reverse with
  | nil => simp [List.isPrefixOf]
  | cons x xs =>
    have : x ∈ a := by
      have : x ∈ a.reverse := by rw [hrev]; simp
      simpa using this
    have hx : c ≠ x := fun e => h (e ▸ this)
    simp [List.isPrefixOf, hx]

theorem CountByte_append_of_not_mem (c : Nat) (a r : GoString) (h : c ∉ a) :
    CountByte c (a ++ r) = CountByte c r := by
  unfold CountByte
  rw [List.count_append, List.count_eq_zero.mpr h, Nat.zero_add]

end Strings

/-! ### How `parse` splits a URL that has an authority -/

namespace Url

theorem splitQuery_append_left (a r : GoString) (h : 63 ∉ a) :
    splitQuery (a ++ r)
      = (a ++ (splitQuery r).1, (splitQuery r).2.1, (splitQuery r).2.2) := by
  unfold splitQuery
  by_cases hr : r = []
  · subst hr
    have h0 : Strings.HasSuffix [] [63] = false := rfl
    rw [List.append_nil, Strings.HasSuffix_of_not_mem a 63 h, h0, Strings.Cut_of_not_mem 63 a h]
    simp [Strings.Cut]
  · rw [Strings.HasSuffix_append_of_ne_nil a r 63 hr, Strings.CountByte_append_of_not_mem 63 a r h,
      Strings.Cut_append_left 63 a r h]
    have hlen : 0 < r.length := List.length_pos.mpr hr
    split
    · have : (a ++ r).length - 1 = a.length + (r.length - 1) := by
        rw [List.length_append]; omega
      rw [this, List.take_append]
    · rfl

theorem splitQuery_fst_head (r : GoString)
    (hr : r = [] ∨ r.head? = some 47 ∨ r.head? = some 63) :
    (splitQuery r).1 = [] ∨ (splitQuery r).1.head? = some 47 := by
  unfold splitQuery
  rcases hr with hr | hr | hr
  · subst hr; left; simp [Strings.HasSuffix, Strings.Cut]
  · cases r with
    | nil => simp at hr
    | cons x xs =>
      simp at hr; subst hr
      split
      · rename_i hf
        right
        cases xs with
        | nil => simp [Strings.HasSuffix] at hf
        | cons y ys => simp
      · right; simp [Strings.Cut]
  · cases r with
    | nil => simp at hr
    | cons x xs =>
      simp at hr; subst hr
      split
      · rename_i hf
        left
        cases xs with
        | nil => simp
        | cons y ys =>
          exfalso
          simp only [Bool.and_eq_true, decide_eq_true_eq] at hf
          have h1 := hf.1
          have h2 := hf.2
          unfold Strings.CountByte at h2
          rw [List.count_cons_self] at h2
          have h3 : List.count 63 (y :: ys) = 0 := by omega
          have h4 : 63 ∉ (y :: ys) := List.count_eq_zero.mp h3
          have h5 := Strings.HasSuffix_of_not_mem (y :: ys) 63 h4
          rw [show (63 :: y :: ys : GoString) = [63] ++ (y :: ys) from rfl,
            Strings.HasSuffix_append_of_ne_nil [63] (y :: ys) 63 (by simp)] at h1
          rw [h5] at h1
          exact Bool.false_ne_true h1
      · left; simp [Strings.Cut]

theorem splitAuthority_eq (b r : GoString) (hb : 47 ∉ b)
    (hr : r = [] ∨ r.head? = some 47) :
    splitAuthority (bytes "//" ++ b ++ r) = (b, r) := by
  unfold splitAuthority
  have hd : (bytes "//" ++ b ++ r).drop 2 = b ++ r := by
    rw [List.append_assoc]; rfl
  rw [hd]
  rcases hr with hr | hr
  · subst hr
    simp [Strings.IndexByte_of_not_mem 47 b hb]
  · cases r with
    | nil => simp at hr
    | cons x xs =>
      simp at hr; subst hr
      rw [Strings.IndexByte_append_sep 47 b xs hb]
      simp

end Url

namespace Url

theorem parseAuthority_split (userinfo host : GoString)
    (hui : userinfo = [] ∨ ∃ ui, userinfo = ui ++ [64]) (hh : 64 ∉ host) :
    parseAuthority (userinfo ++ host)
      = match parseHost host, userPart userinfo with
        | some h, some user => some (user, h)
        | _, _ => none := by
  unfold parseAuthority userPart
  rcases hui with hui | ⟨ui, hui⟩
  · subst hui
    rw [List.nil_append, Strings.LastIndexByte_of_not_mem 64 host hh]
    cases parseHost host <;> simp
  · subst hui
    have e : ui ++ [64] ++ host = ui ++ 64 :: host := by simp
    rw [e, Strings.LastIndexByte_append_sep 64 ui host hh]
    have hd : (ui ++ 64 :: host).drop (ui.length + 1) = host := by
      rw [show ui ++ 64 :: host = (ui ++ [64]) ++ host by simp]
      rw [List.drop_append_of_le_length (by simp)]
      simp
    have ht : (ui ++ 64 :: host).take ui.length = ui := by
      rw [List.take_append_of_le_length (by simp)]
      simp
    simp only [hd, ht]
    have hne : ui ++ [64] ≠ [] := by simp
    simp only [hne, if_false, List.dropLast_concat]
    cases parseHost host with
    | none => rfl
    | some h => cases parseUserinfo ui <;> rfl

theorem getSchemeAux_scheme (raw : GoString) (s t pre : GoString)
    (hs : s.all isSchemeByte = true) (hraw : raw = pre ++ s ++ 58 :: t)
    (hfirst : pre = [] → ∃ c cs, s = c :: cs ∧ isLetter c = true) :
    getSchemeAux raw pre.length (s ++ 58 :: t) = some (pre ++ s, t) := by
  induction s generalizing pre with
  | nil =>
    have hpre : pre ≠ [] := by
      intro e
      obtain ⟨c, cs, h, _⟩ := hfirst e
      simp at h
    have hlen : pre.length ≠ 0 := fun e => hpre (List.length_eq_zero.mp e)
    simp only [List.nil_append, getSchemeAux]
    simp only [List.append_nil] at hraw
    simp [hlen, hraw]
  | cons c cs ih =>
    simp only [List.all_cons, Bool.and_eq_true] at hs
    have hrec := ih (pre ++ [c]) hs.2 (by simp [hraw]) (by simp)
    simp only [List.length_append, List.length_singleton, List.append_assoc,
      List.singleton_append] at hrec
    simp only [List.cons_append, getSchemeAux]
    by_cases hl : isLetter c = true
    · have hl2 := hl
      unfold isLetter at hl2
      simp only [hl2, if_true]
      exact hrec
    · have hl2 : ((decide (97 ≤ c) && decide (c ≤ 122)) || (decide (65 ≤ c) && decide (c ≤ 90))) = false := by
        unfold isLetter at hl
        simpa using hl
      have hd : ((decide (48 ≤ c) && decide (c ≤ 57)) || decide (c = 43) || decide (c = 45) || decide (c = 46)) = true := by
        have := hs.1
        unfold isSchemeByte at this
        simp only [Bool.not_eq_true] at hl
        rw [hl] at this
        simpa using this
      have hpre : pre ≠ [] := by
        intro e
        obtain ⟨c', cs', h, hc'⟩ := hfirst e
        simp only [List.cons.injEq] at h
        rw [← h.1] at hc'
        exact hl hc'
      have hlen : pre.length ≠ 0 := fun e => hpre (List.length_eq_zero.mp e)
      simp only [hl2, hd, hlen, if_true, if_false, Bool.false_eq_true]
      exact hrec

theorem getScheme_scheme (s t : GoString) (hs : isScheme s = true) :
    getScheme (s ++ 58 :: t) = some (s, t) := by
  unfold getScheme
  cases s with
  | nil => simp [isScheme] at hs
  | cons c cs =>
    simp only [isScheme, Bool.and_eq_true] at hs
    have hall : (c :: cs).all isSchemeByte = true := by
      simp only [List.all_cons, Bool.and_eq_true]
      refine ⟨?_, hs.2⟩
      unfold isSchemeByte
      simp [hs.1]
    have := getSchemeAux_scheme ((c :: cs) ++ 58 :: t) (c :: cs) t [] hall (by simp)
      (fun _ => ⟨c, cs, rfl, hs.1⟩)
    simpa using this

theorem getScheme_slash (t : GoString) : getScheme (47 :: t) = some ([], 47 :: t) := by
  simp [getScheme, getSchemeAux]

end Url

namespace Url

theorem bytes_slash2 : bytes "//" = [47, 47] := by decide
theorem bytes_slash3 : bytes "///" = [47, 47, 47] := by decide

theorem parseAfterScheme_authority (sch ui h r : GoString)
    (hui : ui = [] ∨ ∃ ui0, ui = ui0 ++ [64])
    (hui2 : 47 ∉ ui ∧ 63 ∉ ui ∧ 35 ∉ ui)
    (hh : 47 ∉ h ∧ 63 ∉ h ∧ 35 ∉ h ∧ 64 ∉ h)
    (hr : r = [] ∨ r.head? = some 47 ∨ r.head? = some 63)
    (hne : sch ≠ [] ∨ h ≠ []) :
    parseAfterScheme sch (bytes "//" ++ ui ++ h ++ r)
      = match parseHost h, userPart ui with
        | some host, some user =>
          URL.setPath { Scheme := sch, ForceQuery := (splitQuery r).2.1,
                        RawQuery := (splitQuery r).2.2, User := user, Host := host }
            (splitQuery r).1
        | _, _ => none := by
  have hA : 63 ∉ bytes "//" ++ ui ++ h := by
    rw [bytes_slash2]
    simp [hui2.2.1, hh.2.1]
  have hB : 47 ∉ ui ++ h := by simp [hui2.1, hh.1]
  have hr1 := splitQuery_fst_head r hr
  unfold parseAfterScheme
  rw [splitQuery_append_left _ r hA]
  simp only []
  generalize (splitQuery r).1 = r1 at hr1 ⊢
  generalize (splitQuery r).2.1 = fq
  generalize (splitQuery r).2.2 = rq
  have e1 : bytes "//" ++ ui ++ h ++ r1 = bytes "//" ++ (ui ++ h) ++ r1 := by simp
  have hp1 : Strings.HasPrefix (bytes "//" ++ ui ++ h ++ r1) [47] = true := by
    rw [bytes_slash2]; simp [Strings.HasPrefix, List.isPrefixOf]
  have hp2 : Strings.HasPrefix (bytes "//" ++ ui ++ h ++ r1) (bytes "//") = true := by
    rw [bytes_slash2]; simp [Strings.HasPrefix, List.isPrefixOf]
  have hp3 : (decide (sch ≠ []) || !Strings.HasPrefix (bytes "//" ++ ui ++ h ++ r1) (bytes "///")) = true := by
    rcases hne with hne | hne
    · simp [hne]
    · have : Strings.HasPrefix (bytes "//" ++ ui ++ h ++ r1) (bytes "///") = false := by
        rw [bytes_slash2, bytes_slash3]
        cases ui with
        | nil =>
          cases h with
          | nil => exact absurd rfl hne
          | cons x xs =>
            have hx : x ≠ 47 := fun e => hh.1 (by simp [e])
            have hx' : ¬ (47 = x) := fun e => hx e.symm
            simp [Strings.HasPrefix, List.isPrefixOf, hx']
        | cons x xs =>
          have hx : x ≠ 47 := fun e => hui2.1 (by simp [e])
          have hx' : ¬ (47 = x) := fun e => hx e.symm
          simp [Strings.HasPrefix, List.isPrefixOf, hx']
      rw [this]; simp
  rw [hp1, hp2, hp3]
  simp only [Bool.not_true, Bool.false_and, Bool.and_self, if_true, if_false,
    Bool.false_eq_true]
  rw [e1, splitAuthority_eq (ui ++ h) r1 hB hr1]
  simp only []
  rw [parseAuthority_split ui h hui hh.2.2.2]
  cases parseHost h with
  | none => rfl
  | some host =>
    cases userPart ui with
    | none => rfl
    | some user => rfl

end Url

/-! ### Letter case and the parsing of a host -/

namespace Strings

theorem lowerByte_idem (c : Nat) : lowerByte (lowerByte c) = lowerByte c := by
  unfold lowerByte; split_ifs <;> omega

theorem ToLower_idem (s : GoString) : ToLower (ToLower s) = ToLower s := by
  unfold ToLower
  rw [List.map_map]
  apply List.map_congr_left
  intro c _
  exact lowerByte_idem c

theorem lowerByte_eq_neutral (c k : Nat) (hk : ¬ (97 ≤ k ∧ k ≤ 122) ∧ ¬ (65 ≤ k ∧ k ≤ 90)) :
    lowerByte c = k ↔ c = k := by
  unfold lowerByte; split_ifs <;> omega

theorem ToLower_take (s : GoString) (n : Nat) : ToLower (s.take n) = (ToLower s).take n := by
  unfold ToLower; exact List.map_take ..

theorem ToLower_drop (s : GoString) (n : Nat) : ToLower (s.drop n) = (ToLower s).drop n := by
  unfold ToLower; exact List.map_drop ..

theorem ToLower_append (a b : GoString) : ToLower (a ++ b) = ToLower a ++ ToLower b := by
  unfold ToLower; exact List.map_append ..

theorem ToLower_cons (c : Nat) (s : GoString) : ToLower (c :: s) = lowerByte c :: ToLower s := rfl

theorem LastIndexByte_ToLower (k : Nat) (hk : ¬ (97 ≤ k ∧ k ≤ 122) ∧ ¬ (65 ≤ k ∧ k ≤ 90))
    (s : GoString) : LastIndexByte k (ToLower s) = LastIndexByte k s := by
  induction s with
  | nil => rfl
  | cons x xs ih =>
    rw [ToLower_cons]
    unfold LastIndexByte
    rw [ih]
    have := lowerByte_eq_neutral x k hk
    by_cases hx : x = k
    · rw [if_pos hx, if_pos (this.mpr hx)]
    · rw [if_neg hx, if_neg (fun e => hx (this.mp e))]

theorem isPrefixOf_ToLower (p : GoString)
    (hp : ∀ k ∈ p, ¬ (97 ≤ k ∧ k ≤ 122) ∧ ¬ (65 ≤ k ∧ k ≤ 90)) (s : GoString) :
    p.isPrefixOf (ToLower s) = p.isPrefixOf s := by
  induction p generalizing s with
  | nil => simp [List.isPrefixOf]
  | cons k ks ih =>
    cases s with
    | nil => rfl
    | cons x xs =>
      have hk := hp k (by simp)
      have := lowerByte_eq_neutral x k hk
      rw [ToLower_cons]
      unfold List.isPrefixOf
      rw [ih (fun k hk => hp k (List.mem_cons_of_mem _ hk))]
      have e : (k == lowerByte x) = (k == x) := by
        rw [Bool.eq_iff_iff]
        simp only [beq_iff_eq]
        constructor
        · intro e; exact (this.mp e.symm).symm
        · intro e; exact (this.mpr e.symm).symm
      rw [e]

theorem Index_ToLower (p : GoString)
    (hp : ∀ k ∈ p, ¬ (97 ≤ k ∧ k ≤ 122) ∧ ¬ (65 ≤ k ∧ k ≤ 90)) (s : GoString) :
    Index p (ToLower s) = Index p s := by
  induction s with
  | nil => rfl
  | cons x xs ih =>
    have := isPrefixOf_ToLower p hp (x :: xs)
    rw [ToLower_cons] at this
    rw [ToLower_cons]
    unfold Index
    rw [ih, this]

end Strings

namespace Url

open Strings

theorem ishex_lowerByte (c : Nat) : ishex (lowerByte c) = ishex c := by
  unfold ishex lowerByte
  rw [Bool.eq_iff_iff]
  split_ifs <;> (simp; try omega)

theorem unhex_lowerByte (c : Nat) : unhex (lowerByte c) = unhex c := by
  unfold unhex lowerByte
  split_ifs <;> omega

theorem validOptionalPort_ToLower (p : GoString) :
    validOptionalPort (ToLower p) = validOptionalPort p := by
  cases p with
  | nil => rfl
  | cons c digits =>
    rw [ToLower_cons]
    have h1 : decide (lowerByte c = 58) = decide (c = 58) := by
      rw [decide_eq_decide]; exact lowerByte_eq_neutral c 58 (by omega)
    have h2 : (ToLower digits).all (fun b => decide (48 ≤ b) && decide (b ≤ 57))
        = digits.all (fun b => decide (48 ≤ b) && decide (b ≤ 57)) := by
      induction digits with
      | nil => rfl
      | cons d ds ih =>
        rw [ToLower_cons, List.all_cons, List.all_cons, ih]
        congr 1
        unfold lowerByte
        rw [Bool.eq_iff_iff]
        split_ifs <;> (simp; try omega)
    show (decide (lowerByte c = 58)
        && (ToLower digits).all (fun b => decide (48 ≤ b) && decide (b ≤ 57)))
      = (decide (c = 58) && digits.all (fun b => decide (48 ≤ b) && decide (b ≤ 57)))
    rw [h1, h2]

end Url

namespace Url

open Strings

theorem shouldEscape_lowerByte (c : Nat) (mode : Encoding) :
    shouldEscape (lowerByte c) mode = shouldEscape c mode := by
  by_cases h : 65 ≤ c ∧ c ≤ 90
  · have e : lowerByte c = c + 32 := by unfold lowerByte; rw [if_pos h]
    rw [e]
    have h1 : ((decide (97 ≤ c + 32) && decide (c + 32 ≤ 122)) || (decide (65 ≤ c + 32) && decide (c + 32 ≤ 90))
        || (decide (48 ≤ c + 32) && decide (c + 32 ≤ 57))) = true := by
      simp; omega
    have h2 : ((decide (97 ≤ c) && decide (c ≤ 122)) || (decide (65 ≤ c) && decide (c ≤ 90))
        || (decide (48 ≤ c) && decide (c ≤ 57))) = true := by
      simp; omega
    unfold shouldEscape
    rw [if_pos h1, if_pos h2]
  · have e : lowerByte c = c := by unfold lowerByte; rw [if_neg h]
    rw [e]

theorem lowerByte_lt_128 (c : Nat) : (lowerByte c < 0x80) = (c < 0x80) := by
  unfold lowerByte
  apply propext
  split_ifs <;> omega

theorem unescapeValid_ToLower_aux (mode : Encoding) (n : Nat) :
    ∀ a : GoString, a.length ≤ n → unescapeValid mode (ToLower a) = unescapeValid mode a := by
  induction n with
  | zero =>
    intro a ha
    have : a = [] := List.length_eq_zero.mp (by omega)
    subst this; rfl
  | succ n ih =>
    intro a ha
    cases a with
    | nil => rfl
    | cons c rest =>
      have e37 : (lowerByte c = 37) = (c = 37) := propext (lowerByte_eq_neutral c 37 (by omega))
      have e43 : (lowerByte c = 43) = (c = 43) := propext (lowerByte_eq_neutral c 43 (by omega))
      cases rest with
      | nil =>
        simp only [ToLower_cons, ToLower, List.map_nil, unescapeValid, e37, e43,
          lowerByte_lt_128, shouldEscape_lowerByte]
      | cons a rest1 =>
        have ihr : unescapeValid mode (ToLower (a :: rest1)) = unescapeValid mode (a :: rest1) :=
          ih _ (by simp at ha; simp; omega)
        rw [ToLower_cons] at ihr
        cases rest1 with
        | nil =>
          simp only [ToLower, List.map_nil, List.map_cons] at ihr ⊢
          simp only [unescapeValid, e37, e43, lowerByte_lt_128, shouldEscape_lowerByte] at ihr ⊢
          simp only [ihr]
        | cons b rest2 =>
          have e50 : (lowerByte a = 50) = (a = 50) := propext (lowerByte_eq_neutral a 50 (by omega))
          have e53 : (lowerByte b = 53) = (b = 53) := propext (lowerByte_eq_neutral b 53 (by omega))
          have ih2 : unescapeValid mode (ToLower rest2) = unescapeValid mode rest2 :=
            ih rest2 (by simp at ha; omega)
          rw [ToLower_cons] at ihr
          rw [ToLower_cons, ToLower_cons, ToLower_cons]
          rw [unescapeValid, unescapeValid]
          simp only [e37, e43, lowerByte_lt_128, shouldEscape_lowerByte, ishex_lowerByte,
            unhex_lowerByte, e50, e53, ih2, ihr]

theorem unescapeValid_ToLower (mode : Encoding) (a : GoString) :
    unescapeValid mode (ToLower a) = unescapeValid mode a :=
  unescapeValid_ToLower_aux mode a.length a (Nat.le_refl _)

theorem unescapeDecode_ToLower_aux (mode : Encoding) (n : Nat) :
    ∀ a : GoString, a.length ≤ n →
      ToLower (unescapeDecode mode (ToLower a)) = ToLower (unescapeDecode mode a) := by
  induction n with
  | zero =>
    intro a ha
    have : a = [] := List.length_eq_zero.mp (by omega)
    subst this; rfl
  | succ n ih =>
    intro a ha
    cases a with
    | nil => rfl
    | cons c rest =>
      have e37 : (lowerByte c = 37) = (c = 37) := propext (lowerByte_eq_neutral c 37 (by omega))
      have e43 : (lowerByte c = 43) = (c = 43) := propext (lowerByte_eq_neutral c 43 (by omega))
      cases rest with
      | nil =>
        simp only [ToLower_cons, ToLower, List.map_nil, unescapeDecode, e37, e43]
        split_ifs <;> simp [lowerByte_idem]
      | cons a rest1 =>
        have ihr := ih (a :: rest1) (by simp at ha; simp; omega)
        rw [ToLower_cons] at ihr
        cases rest1 with
        | nil =>
          simp only [ToLower, List.map_nil, List.map_cons] at ihr ⊢
          simp only [unescapeDecode, e37, e43] at ihr ⊢
          split_ifs <;> simp_all [lowerByte_idem]
        | cons b rest2 =>
          have ih2 := ih rest2 (by simp at ha; omega)
          rw [ToLower_cons] at ihr
          rw [ToLower_cons, ToLower_cons, ToLower_cons]
          rw [unescapeDecode, unescapeDecode]
          simp only [e37, e43, unhex_lowerByte]
          split_ifs
          · simp only [ToLower_cons, ih2]
          · simp only [ToLower_cons, ihr]
          · simp only [ToLower_cons, ihr]
          · simp only [ToLower_cons, ihr, lowerByte_idem]

theorem unescapeDecode_ToLower (mode : Encoding) (a : GoString) :
    ToLower (unescapeDecode mode (ToLower a)) = ToLower (unescapeDecode mode a) :=
  unescapeDecode_ToLower_aux mode a.length a (Nat.le_refl _)

theorem unescape_ToLower (mode : Encoding) (a : GoString) :
    (unescape (ToLower a) mode).map ToLower = (unescape a mode).map ToLower := by
  unfold unescape
  rw [unescapeValid_ToLower]
  split
  · simp only [Option.map_some']
    rw [unescapeDecode_ToLower]
  · rfl

end Url

namespace Url

open Strings

theorem bytes_pct25 : bytes "%25" = [37, 50, 53] := by decide

theorem option_map_ToLower_cases {o1 o2 : Option GoString}
    (e : o1.map ToLower = o2.map ToLower) :
    (o1 = none ∧ o2 = none) ∨ ∃ a b, o1 = some a ∧ o2 = some b ∧ ToLower a = ToLower b := by
  cases o1 with
  | none =>
    cases o2 with
    | none => exact Or.inl ⟨rfl, rfl⟩
    | some b => simp at e
  | some a =>
    cases o2 with
    | none => simp at e
    | some b =>
      right
      refine ⟨a, b, rfl, rfl, ?_⟩
      simpa using e

theorem parseHost_ToLower (h : GoString) :
    (parseHost (ToLower h)).map ToLower = (parseHost h).map ToLower := by
  have hp : HasPrefix (ToLower h) [91] = HasPrefix h [91] :=
    isPrefixOf_ToLower [91] (by intro k hk; simp at hk; omega) h
  have h93 := LastIndexByte_ToLower 93 (by omega) h
  have h58 := LastIndexByte_ToLower 58 (by omega) h
  have hplain := unescape_ToLower .encodeHost h
  unfold parseHost
  simp only []
  rw [hp, h93, h58]
  split
  · -- IP literal
    cases LastIndexByte 93 h with
    | none => rfl
    | some i =>
      simp only []
      rw [← ToLower_drop, validOptionalPort_ToLower, ← ToLower_take,
        bytes_pct25, Index_ToLower [37, 50, 53] (by intro k hk; simp at hk; omega)]
      split
      · rfl
      · cases Index [37, 50, 53] (List.take i h) with
        | none => exact hplain
        | some zone =>
          simp only []
          have e1 := unescape_ToLower .encodeHost (List.take zone h)
          have e2 := unescape_ToLower .encodeZone (List.drop zone (List.take i h))
          have e3 := unescape_ToLower .encodeHost (List.drop i h)
          rw [ToLower_take] at e1
          rw [ToLower_drop, ToLower_take] at e2
          rw [ToLower_drop] at e3
          rw [ToLower_take]
          rcases option_map_ToLower_cases e1 with ⟨a1, b1⟩ | ⟨x1, y1, a1, b1, c1⟩
          · rw [a1, b1]
          · rw [a1, b1]
            simp only []
            rcases option_map_ToLower_cases e2 with ⟨a2, b2⟩ | ⟨x2, y2, a2, b2, c2⟩
            · rw [a2, b2]
            · rw [a2, b2]
              simp only []
              rcases option_map_ToLower_cases e3 with ⟨a3, b3⟩ | ⟨x3, y3, a3, b3, c3⟩
              · rw [a3, b3]
              · rw [a3, b3]
                simp only [Option.map_some', ToLower_append]
                rw [c1, c2, c3]
  · cases LastIndexByte 58 h with
    | none => exact hplain
    | some i =>
      simp only []
      rw [← ToLower_drop, validOptionalPort_ToLower]
      split
      · rfl
      · exact hplain

theorem parseHost_case (h1 h2 H1 H2 : GoString) (hcase : ToLower h1 = ToLower h2)
    (p1 : parseHost h1 = some H1) (p2 : parseHost h2 = some H2) : ToLower H1 = ToLower H2 := by
  have e1 := parseHost_ToLower h1
  have e2 := parseHost_ToLower h2
  rw [hcase, e2, p1, p2] at e1
  simpa using e1.symm

end Url

/-! ### `normalizeURL` on URLs that differ in case and fragment -/

namespace Crawl

open Strings

theorem normalizeParsed_host (u : Url.URL) (H1 H2 : GoString)
    (h : ToLower H1 = ToLower H2) :
    normalizeParsed { u with Host := H1 } = normalizeParsed { u with Host := H2 } := by
  unfold normalizeParsed
  simp only []
  rw [h]

theorem normalizeParsed_fragment (u : Url.URL) (a b : GoString) :
    normalizeParsed { u with Fragment := a, RawFragment := b } = normalizeParsed u := by
  unfold normalizeParsed
  simp only []
  by_cases hq : u.RawQuery = []
  · simp only [hq, if_true, ne_eq, not_true_eq_false, if_false]
    simp only [Url.URL.String, Url.URL.hierPart, Url.URL.EscapedPath, ne_eq, not_true_eq_false,
      if_false]
  · simp only [hq, if_false, ne_eq, not_false_eq_true, if_true]
    simp only [Url.URL.String, Url.URL.hierPart, Url.URL.EscapedPath, Url.URL.Query, ne_eq,
      not_true_eq_false, if_false]

end Crawl

namespace Url

open Strings

theorem setPath_host (u : URL) (H1 H2 p : GoString) (x1 x2 : URL)
    (p1 : URL.setPath { u with Host := H1 } p = some x1)
    (p2 : URL.setPath { u with Host := H2 } p = some x2) :
    x1 = { x2 with Host := H1 } := by
  unfold URL.setPath at p1 p2
  cases hun : unescape p .encodePath with
  | none => rw [hun] at p1; simp at p1
  | some path =>
    rw [hun] at p1 p2
    simp only [] at p1 p2
    split at p1
    · rename_i hc
      rw [if_pos hc] at p2
      simp only [Option.some.injEq] at p1 p2
      rw [← p1, ← p2]
    · rename_i hc
      rw [if_neg hc] at p2
      simp only [Option.some.injEq] at p1 p2
      rw [← p1, ← p2]

theorem parse_eq_parseAfterScheme (raw scheme rest : GoString) (x : URL)
    (hstar : raw ≠ [42]) (hs : getScheme raw = some (scheme, rest)) (hp : parse raw = some x) :
    parseAfterScheme (ToLower scheme) rest = some x := by
  unfold parse at hp
  by_cases hc : stringContainsCTLByte raw = true
  · rw [if_pos hc] at hp
    simp at hp
  · rw [if_neg hc, if_neg hstar, hs] at hp
    exact hp

theorem not_mem_of_isScheme (s : GoString) (hs : isScheme s = true) (k : Nat)
    (hk : isSchemeByte k = false) : k ∉ s := by
  cases s with
  | nil => simp
  | cons c cs =>
    simp only [isScheme, Bool.and_eq_true, List.all_eq_true] at hs
    intro hmem
    rcases List.mem_cons.mp hmem with e | e
    · subst e
      have : isSchemeByte k = true := by unfold isSchemeByte; simp [hs.1]
      rw [hk] at this; exact Bool.false_ne_true this
    · have := hs.2 k e
      rw [hk] at this; exact Bool.false_ne_true this

end Url

namespace Crawl

open Strings Url

theorem parse_variant (sp1 sp2 m1 m2 : GoString) (hs : SchemeVariant sp1 sp2)
    (hm : HostVariant m1 m2) (x1 x2 : URL) (p1 : parse (sp1 ++ m1) = some x1)
    (p2 : parse (sp2 ++ m2) = some x2) : normalizeParsed x1 = normalizeParsed x2 := by
  -- the host case, once the scheme is split off
  have hostCase : ∀ (sch ui h1 h2 r : GoString),
      (ui = [] ∨ ∃ ui0, ui = ui0 ++ [64]) → (47 ∉ ui ∧ 63 ∉ ui ∧ 35 ∉ ui) →
      (47 ∉ h1 ∧ 63 ∉ h1 ∧ 35 ∉ h1 ∧ 64 ∉ h1) → (47 ∉ h2 ∧ 63 ∉ h2 ∧ 35 ∉ h2 ∧ 64 ∉ h2) →
      ToLower h1 = ToLower h2 → (r = [] ∨ r.head? = some 47 ∨ r.head? = some 63) →
      (sch ≠ [] ∨ h1 ≠ []) →
      parseAfterScheme sch (bytes "//" ++ ui ++ h1 ++ r) = some x1 →
      parseAfterScheme sch (bytes "//" ++ ui ++ h2 ++ r) = some x2 →
      normalizeParsed x1 = normalizeParsed x2 := by
    intro sch ui h1 h2 r hui hui2 hh1 hh2 hcase hr hne q1 q2
    have hne2 : sch ≠ [] ∨ h2 ≠ [] := by
      rcases hne with e | e
      · exact Or.inl e
      · right
        intro e2
        rw [e2] at hcase
        have : h1 = [] := by
          have := congrArg List.length hcase
          simp [ToLower] at this
          exact this
        exact e this
    rw [parseAfterScheme_authority sch ui h1 r hui hui2 hh1 hr hne] at q1
    rw [parseAfterScheme_authority sch ui h2 r hui hui2 hh2 hr hne2] at q2
    cases hH1 : parseHost h1 with
    | none => rw [hH1] at q1; simp at q1
    | some H1 =>
      cases hH2 : parseHost h2 with
      | none => rw [hH2] at q2; simp at q2
      | some H2 =>
        cases hU : userPart ui with
        | none => rw [hH1, hU] at q1; simp at q1
        | some user =>
          rw [hH1, hU] at q1
          rw [hH2, hU] at q2
          simp only [] at q1 q2
          have hx := setPath_host
            { Scheme := sch, ForceQuery := (splitQuery r).2.1, RawQuery := (splitQuery r).2.2,
              User := user } H1 H2 (splitQuery r).1 x1 x2 q1 q2
          have hlow := parseHost_case h1 h2 H1 H2 hcase hH1 hH2
          have hx2 : x2 = { x2 with Host := x2.Host } := rfl
          rw [hx]
          have := normalizeParsed_host x2 H1 x2.Host (by
            have e2 := setPath_host
              { Scheme := sch, ForceQuery := (splitQuery r).2.1, RawQuery := (splitQuery r).2.2,
                User := user } H2 H2 (splitQuery r).1 x2 x2 q2 q2
            have : x2.Host = H2 := by rw [e2]
            rw [this]; exact hlow)
          rw [this]
  cases hs with
  | none =>
    cases hm with
    | same t ht =>
      rw [p1] at p2
      rw [Option.some.injEq] at p2
      rw [p2]
    | host ui h1 h2 r hui hui2 hh1 hh2 hcase hr hr2 =>
      by_cases hne : h1 = []
      · have hne2 : h2 = [] := by
          rw [hne] at hcase
          have := congrArg List.length hcase
          simp [ToLower] at this
          exact List.length_eq_zero.mp this.symm
        subst hne; subst hne2
        rw [p1] at p2
        rw [Option.some.injEq] at p2
        rw [p2]
      · rw [List.nil_append] at p1 p2
        have hraw1 : bytes "//" ++ ui ++ h1 ++ r = 47 :: (47 :: (ui ++ h1 ++ r)) := by
          rw [bytes_slash2]; simp
        have hraw2 : bytes "//" ++ ui ++ h2 ++ r = 47 :: (47 :: (ui ++ h2 ++ r)) := by
          rw [bytes_slash2]; simp
        have q1 := parse_eq_parseAfterScheme _ [] _ x1 (by rw [hraw1]; simp)
          (by rw [hraw1]; exact getScheme_slash _) p1
        have q2 := parse_eq_parseAfterScheme _ [] _ x2 (by rw [hraw2]; simp)
          (by rw [hraw2]; exact getScheme_slash _) p2
        rw [← hraw1] at q1
        rw [← hraw2] at q2
        exact hostCase (ToLower []) ui h1 h2 r hui hui2 hh1 hh2 hcase hr (Or.inr hne) q1 q2
  | scheme s1 s2 hs1 hs2 hsc =>
    have hlen1 : s1 ≠ [] := by intro e; rw [e] at hs1; simp [isScheme] at hs1
    have hlen2 : s2 ≠ [] := by intro e; rw [e] at hs2; simp [isScheme] at hs2
    have hstar : ∀ (s m : GoString), s ≠ [] → s ++ [58] ++ m ≠ [42] := by
      intro s m hs e
      have := congrArg List.length e
      have hl : 0 < s.length := List.length_pos.mpr hs
      simp at this
      omega
    have q1 := parse_eq_parseAfterScheme _ s1 m1 x1 (hstar s1 m1 hlen1)
      (by rw [List.append_assoc]; exact getScheme_scheme s1 m1 hs1) p1
    have q2 := parse_eq_parseAfterScheme _ s2 m2 x2 (hstar s2 m2 hlen2)
      (by rw [List.append_assoc]; exact getScheme_scheme s2 m2 hs2) p2
    rw [← hsc] at q2
    have hsch : ToLower s1 ≠ [] := by
      intro e
      have := congrArg List.length e
      simp [ToLower] at this
      exact hlen1 this
    cases hm with
    | same t ht =>
      rw [q1] at q2
      rw [Option.some.injEq] at q2
      rw [q2]
    | host ui h1 h2 r hui hui2 hh1 hh2 hcase hr hr2 =>
      exact hostCase (ToLower s1) ui h1 h2 r hui hui2 hh1 hh2 hcase hr (Or.inl hsch) q1 q2

end Crawl

namespace Crawl

open Strings Url

theorem setFragment_normalizeParsed (x y : URL) (f : GoString)
    (h : URL.setFragment x f = some y) : normalizeParsed y = normalizeParsed x := by
  unfold URL.setFragment at h
  cases hun : unescape f .encodeFragment with
  | none => rw [hun] at h; simp at h
  | some frag =>
    rw [hun] at h
    simp only [] at h
    split at h
    · rw [Option.some.injEq] at h
      rw [← h]
      exact normalizeParsed_fragment x frag []
    · rw [Option.some.injEq] at h
      rw [← h]
      exact normalizeParsed_fragment x frag f

theorem normalizeURL_of_fragment (a f : GoString) (h35 : 35 ∉ a) (hf : isFragmentPart f)
    (hp : Url.Parse (a ++ f) ≠ none) :
    ∃ x, parse a = some x ∧ normalizeURL (a ++ f) = normalizeParsed x := by
  have hcut : (Cut 35 (a ++ f)).1 = a := by
    rw [Cut_append_left 35 a f h35]
    rcases hf with hf | hf
    · subst hf; simp [Cut]
    · cases f with
      | nil => simp at hf
      | cons c cs =>
        simp at hf; subst hf
        simp [Cut]
  unfold normalizeURL
  unfold Url.Parse at hp ⊢
  rw [hcut] at hp ⊢
  cases hpa : parse a with
  | none => rw [hpa] at hp; exact absurd rfl hp
  | some x =>
    refine ⟨x, rfl, ?_⟩
    rw [hpa] at hp
    simp only [] at hp ⊢
    split
    · rename_i heq
      split at heq
      · simp at heq
      · rename_i hfe
        rw [if_neg hfe] at hp
        exact absurd heq hp
    · rename_i u heq
      split at heq
      · rw [Option.some.injEq] at heq
        rw [heq]
      · exact setFragment_normalizeParsed x u _ heq

theorem not_mem_35_variant (sp m sp' m' : GoString) (hs : SchemeVariant sp sp')
    (hm : HostVariant m m') : 35 ∉ sp ++ m ∧ 35 ∉ sp' ++ m' := by
  have h1 : 35 ∉ sp ∧ 35 ∉ sp' := by
    cases hs with
    | none => simp
    | scheme s1 s2 hs1 hs2 _ =>
      have a1 := not_mem_of_isScheme s1 hs1 35 (by decide)
      have a2 := not_mem_of_isScheme s2 hs2 35 (by decide)
      simp [a1, a2]
  have h2 : 35 ∉ m ∧ 35 ∉ m' := by
    cases hm with
    | same t ht => exact ⟨ht, ht⟩
    | host ui ha hb r hui hui2 hh1 hh2 hcase hr hr2 =>
      rw [bytes_slash2]
      simp [hui2.2.2, hh1.2.2.1, hh2.2.2.1, hr2]
  simp [h1.1, h1.2, h2.1, h2.2]

end Crawl

/-! ### The links `extractLinks` returns -/

namespace Crawl

open Strings Url

theorem processLink_ok (base : URL) (href link : GoString)
    (h : processLink base href = .ok link) :
    ∃ linkURL, Url.Parse (TrimSpace href) = some linkURL
      ∧ ((resolveLink base linkURL).Scheme = bytes "http"
          ∨ (resolveLink base linkURL).Scheme = bytes "https")
      ∧ (resolveLink base linkURL).Host = base.Host
      ∧ link = URL.String (resolveLink base linkURL) := by
  unfold processLink at h
  simp only [] at h
  split at h
  · exact absurd h (by simp)
  · split at h
    · exact absurd h (by simp)
    · cases hp : Url.Parse (TrimSpace href) with
      | none => rw [hp] at h; exact absurd h (by simp)
      | some linkURL =>
        rw [hp] at h
        simp only [] at h
        refine ⟨linkURL, rfl, ?_⟩
        split at h
        · exact absurd h (by simp)
        · rename_i hsch
          split at h
          · exact absurd h (by simp)
          · rename_i hhost
            split at h
            · exact absurd h (by simp)
            · refine ⟨?_, ?_, ?_⟩
              · by_cases e : (resolveLink base linkURL).Scheme = bytes "http"
                · exact Or.inl e
                · right
                  by_contra e2
                  exact hsch ⟨e, e2⟩
              · by_contra e
                exact hhost e
              · simp only [Except.ok.injEq] at h
                exact h.symm

theorem extractLoop_mem (base : URL) (done : Nat → Bool) (P : GoString → Prop)
    (anchors : List Element) :
    ∀ (i : Nat) (st : List GoString × List GoString),
      (∀ l ∈ st.1, P l) →
      (∀ e ∈ anchors, ∀ href link, e.attr "href" = some href →
        processLink base href = .ok link → P (normalizeURL link)) →
      ∀ l ∈ extractLoop base done i anchors st, P l := by
  induction anchors with
  | nil =>
    intro i st hst _ l hl
    unfold extractLoop at hl
    exact hst l hl
  | cons s rest ih =>
    intro i st hst hP l hl
    have hrest : ∀ e ∈ rest, ∀ href link, e.attr "href" = some href →
        processLink base href = .ok link → P (normalizeURL link) :=
      fun e he => hP e (List.mem_cons_of_mem _ he)
    unfold extractLoop at hl
    split at hl
    · exact hst l hl
    · cases hattr : s.attr "href" with
      | none =>
        rw [hattr] at hl
        exact ih (i + 1) st hst hrest l hl
      | some href =>
        rw [hattr] at hl
        simp only [] at hl
        cases hpl : processLink base href with
        | error e =>
          rw [hpl] at hl
          exact ih (i + 1) st hst hrest l hl
        | ok link =>
          rw [hpl] at hl
          simp only [] at hl
          split at hl
          · refine ih (i + 1) _ ?_ hrest l hl
            intro l2 hl2
            rcases List.mem_append.mp hl2 with h1 | h1
            · exact hst l2 h1
            · rw [List.mem_singleton.mp h1]
              exact hP s (by simp) href link hattr hpl
          · exact ih (i + 1) st hst hrest l hl

end Crawl

/-! ### Writing a URL out and parsing it again -/

namespace Url

open Strings Crawl

theorem upperhex_isUpperHex (i : Nat) (h : i < 16) : isUpperHex (upperhex i) := by
  unfold upperhex isUpperHex
  split_ifs <;> omega

theorem ishex_upperhex (i : Nat) (h : i < 16) : ishex (upperhex i) = true := by
  have := upperhex_isUpperHex i h
  unfold isUpperHex at this
  unfold ishex
  simp
  omega

theorem escape_nil (mode : Encoding) : escape [] mode = [] := rfl

theorem escape_cons (c : Nat) (s : GoString) (mode : Encoding) :
    escape (c :: s) mode = escapeByte mode c ++ escape s mode := by
  unfold escape
  rw [List.flatMap_cons]

theorem mem_escapeByte (mode : Encoding) (c x : Nat) (h : x ∈ escapeByte mode c) :
    x = 37 ∨ x = 43 ∨ isUpperHex x ∨ (x = c ∧ shouldEscape c mode = false) := by
  unfold escapeByte at h
  split at h
  · simp at h; right; left; exact h
  · split at h
    · simp only [List.mem_cons, List.mem_singleton, List.not_mem_nil, or_false] at h
      rcases h with h | h | h
      · left; exact h
      · right; right; left; rw [h]; exact upperhex_isUpperHex _ (Nat.mod_lt _ (by omega))
      · right; right; left; rw [h]; exact upperhex_isUpperHex _ (Nat.mod_lt _ (by omega))
    · rename_i hse
      simp only [List.mem_singleton] at h
      right; right; right
      exact ⟨h, by simpa using hse⟩

theorem mem_escape (s : GoString) (mode : Encoding) (x : Nat) (h : x ∈ escape s mode) :
    x = 37 ∨ x = 43 ∨ isUpperHex x ∨ (x ∈ s ∧ shouldEscape x mode = false) := by
  induction s with
  | nil => simp [escape_nil] at h
  | cons c cs ih =>
    rw [escape_cons] at h
    rcases List.mem_append.mp h with h1 | h1
    · rcases mem_escapeByte mode c x h1 with e | e | e | ⟨e1, e2⟩
      · exact Or.inl e
      · exact Or.inr (Or.inl e)
      · exact Or.inr (Or.inr (Or.inl e))
      · right; right; right
        subst e1
        exact ⟨by simp, e2⟩
    · rcases ih h1 with e | e | e | ⟨e1, e2⟩
      · exact Or.inl e
      · exact Or.inr (Or.inl e)
      · exact Or.inr (Or.inr (Or.inl e))
      · exact Or.inr (Or.inr (Or.inr ⟨List.mem_cons_of_mem _ e1, e2⟩))

/-- A byte that no escaping writes unless the mode leaves it unescaped. -/
theorem not_mem_escape (s : GoString) (mode : Encoding) (x : Nat)
    (hx : x ≠ 37 ∧ x ≠ 43 ∧ ¬ isUpperHex x) (hse : shouldEscape x mode = true) :
    x ∉ escape s mode := by
  intro h
  rcases mem_escape s mode x h with e | e | e | ⟨_, e2⟩
  · exact hx.1 e
  · exact hx.2.1 e
  · exact hx.2.2 e
  · rw [hse] at e2; exact Bool.noConfusion e2

theorem shouldEscape_ctl (c : Nat) (mode : Encoding) (h : c < 32 ∨ c = 0x7f) :
    shouldEscape c mode = true := by
  have hc : c < 128 := by omega
  have key : ∀ c, c < 128 → (c < 32 ∨ c = 0x7f) → shouldEscape c mode = true := by
    cases mode <;> decide
  exact key c hc h

end Url

namespace Url

open Strings Crawl

theorem unescapeValid_cons_raw (mode : Encoding) (c : Nat) (tail : GoString) (hc : c ≠ 37)
    (hm : (mode = .encodeHost ∨ mode = .encodeZone) → c < 0x80 → shouldEscape c .encodeHost = false) :
    unescapeValid mode (c :: tail) = unescapeValid mode tail := by
  have key : ((decide (mode = .encodeHost) || decide (mode = .encodeZone)) && decide (c < 0x80)
      && shouldEscape c .encodeHost) = false := by
    by_cases h1 : mode = .encodeHost ∨ mode = .encodeZone
    · by_cases h2 : c < 0x80
      · rw [hm h1 h2]; simp
      · simp [h2]
    · have a : ¬ mode = .encodeHost := fun e => h1 (Or.inl e)
      have b : ¬ mode = .encodeZone := fun e => h1 (Or.inr e)
      simp [a, b]
  cases tail with
  | nil =>
    simp only [unescapeValid, hc, if_false]
    by_cases h43 : c = 43
    · simp only [h43, if_true]
    · simp only [h43, if_false, key, Bool.false_eq_true]
  | cons a t1 =>
    cases t1 with
    | nil =>
      simp only [unescapeValid, hc, if_false]
      by_cases h43 : c = 43
      · simp only [h43, if_true]
      · simp only [h43, if_false, key, Bool.false_eq_true]
    | cons b t2 =>
      rw [unescapeValid]
      simp only [hc, if_false]
      by_cases h43 : c = 43
      · simp only [h43, if_true]
      · simp only [h43, if_false, key, Bool.false_eq_true]

theorem unescapeValid_cons_pct (mode : Encoding) (a b : Nat) (tail : GoString)
    (ha : ishex a = true) (hb : ishex b = true)
    (hm : mode ≠ .encodeHost ∧ mode ≠ .encodeZone) :
    unescapeValid mode (37 :: a :: b :: tail) = unescapeValid mode tail := by
  rw [unescapeValid]
  simp [ha, hb, hm.1, hm.2]

theorem shouldEscape_pct (mode : Encoding) : shouldEscape 37 mode = true := by
  cases mode <;> decide

theorem unescapeValid_escape_append (mode : Encoding)
    (hm : mode ≠ .encodeHost ∧ mode ≠ .encodeZone) (s t : GoString) :
    unescapeValid mode (escape s mode ++ t) = unescapeValid mode t := by
  induction s with
  | nil => rfl
  | cons c cs ih =>
    rw [escape_cons, List.append_assoc]
    unfold escapeByte
    split
    · -- a space in a query component
      rw [List.singleton_append]
      rw [unescapeValid_cons_raw mode 43 _ (by omega)
        (fun h => by rcases h with h | h; exact absurd h hm.1; exact absurd h hm.2)]
      exact ih
    · split
      · rw [show ([37, upperhex (c / 16 % 16), upperhex (c % 16)] : GoString) ++ (escape cs mode ++ t)
            = 37 :: upperhex (c / 16 % 16) :: upperhex (c % 16) :: (escape cs mode ++ t) from rfl]
        rw [unescapeValid_cons_pct mode _ _ _ (ishex_upperhex _ (Nat.mod_lt _ (by omega)))
          (ishex_upperhex _ (Nat.mod_lt _ (by omega))) hm]
        exact ih
      · rename_i hse
        have hc : c ≠ 37 := by
          intro e
          rw [e, shouldEscape_pct] at hse
          exact hse rfl
        rw [List.singleton_append]
        rw [unescapeValid_cons_raw mode c _ hc
          (fun h => by rcases h with h | h; exact absurd h hm.1; exact absurd h hm.2)]
        exact ih

theorem unescapeValid_escape (mode : Encoding)
    (hm : mode ≠ .encodeHost ∧ mode ≠ .encodeZone) (s : GoString) :
    unescapeValid mode (escape s mode) = true := by
  have := unescapeValid_escape_append mode hm s []
  rw [List.append_nil] at this
  rw [this]; rfl

theorem unescapeValid_plain (mode : Encoding) (s : GoString)
    (h : ∀ c ∈ s, c ≠ 37 ∧ shouldEscape c .encodeHost = false) :
    unescapeValid mode s = true := by
  induction s with
  | nil => rfl
  | cons c cs ih =>
    have hc := h c (by simp)
    rw [unescapeValid_cons_raw mode c cs hc.1 (fun _ _ => hc.2)]
    exact ih (fun x hx => h x (List.mem_cons_of_mem _ hx))

theorem unescapeDecode_plain (mode : Encoding) (s : GoString)
    (h : ∀ c ∈ s, c ≠ 37 ∧ c ≠ 43) : unescapeDecode mode s = s := by
  induction s with
  | nil => rfl
  | cons c cs ih =>
    have hc := h c (by simp)
    have ih2 := ih (fun x hx => h x (List.mem_cons_of_mem _ hx))
    cases cs with
    | nil => simp [unescapeDecode, hc.1, hc.2]
    | cons a t1 =>
      cases t1 with
      | nil =>
        simp only [unescapeDecode, hc.1, hc.2, if_false] at ih2 ⊢
        rw [ih2]
      | cons b t2 =>
        rw [unescapeDecode]
        simp only [hc.1, hc.2, if_false]
        rw [ih2]

theorem escape_plain (mode : Encoding) (s : GoString)
    (h : ∀ c ∈ s, shouldEscape c mode = false) : escape s mode = s := by
  induction s with
  | nil => rfl
  | cons c cs ih =>
    rw [escape_cons, ih (fun x hx => h x (List.mem_cons_of_mem _ hx))]
    have hc := h c (by simp)
    unfold escapeByte
    have h32 : ¬ (c = 32 ∧ mode = .encodeQueryComponent) := by
      intro ⟨e, _⟩
      rw [e] at hc
      have : shouldEscape 32 mode = true := by cases mode <;> decide
      rw [this] at hc; exact Bool.noConfusion hc
    rw [if_neg h32, hc]
    simp

end Url

namespace Crawl

open Strings Url

/-- A byte of a plain host: a name byte, `:` or a digit. -/
theorem plainHost_bytes (H : GoString) (h : plainHost H = true) :
    ∀ c ∈ H, isHostNameByte c = true ∨ c = 58 := by
  unfold plainHost at h
  simp only [Bool.and_eq_true] at h
  intro c hc
  rw [← List.takeWhile_append_dropWhile isHostNameByte H] at hc
  rcases List.mem_append.mp hc with h1 | h1
  · exact Or.inl (List.mem_takeWhile_imp h1)
  · have hp := h.2
    cases hd : H.dropWhile isHostNameByte with
    | nil => rw [hd] at h1; simp at h1
    | cons x xs =>
      rw [hd] at h1 hp
      simp only [validOptionalPort, Bool.and_eq_true, decide_eq_true_eq, List.all_eq_true] at hp
      rcases List.mem_cons.mp h1 with e | e
      · right; rw [e]; exact hp.1
      · left
        have := hp.2 c e
        unfold isHostNameByte
        simp only [Bool.and_eq_true, decide_eq_true_eq] at this
        simp
        omega

theorem hostByte_facts (c : Nat) (h : isHostNameByte c = true ∨ c = 58) :
    c ≠ 37 ∧ c ≠ 43 ∧ c ≠ 47 ∧ c ≠ 63 ∧ c ≠ 35 ∧ c ≠ 64 ∧ c ≠ 91 ∧ ¬ (c < 32 ∨ c = 0x7f)
      ∧ shouldEscape c .encodeHost = false := by
  have hc : c < 128 := by
    rcases h with h | h
    · unfold isHostNameByte at h
      simp at h
      omega
    · omega
  have key : ∀ c, c < 128 → (isHostNameByte c = true ∨ c = 58) →
      c ≠ 37 ∧ c ≠ 43 ∧ c ≠ 47 ∧ c ≠ 63 ∧ c ≠ 35 ∧ c ≠ 64 ∧ c ≠ 91 ∧ ¬ (c < 32 ∨ c = 0x7f)
        ∧ shouldEscape c .encodeHost = false := by
    decide
  exact key c hc h

theorem plainHost_ne_nil (H : GoString) (h : plainHost H = true) : H ≠ [] := by
  intro e
  subst e
  simp [plainHost] at h

theorem plainHost_escape (H : GoString) (h : plainHost H = true) :
    escape H .encodeHost = H :=
  escape_plain _ H (fun c hc => (hostByte_facts c (plainHost_bytes H h c hc)).2.2.2.2.2.2.2.2)

theorem plainHost_unescape (H : GoString) (h : plainHost H = true) :
    unescape H .encodeHost = some H := by
  unfold unescape
  rw [unescapeValid_plain _ H (fun c hc =>
    ⟨(hostByte_facts c (plainHost_bytes H h c hc)).1,
     (hostByte_facts c (plainHost_bytes H h c hc)).2.2.2.2.2.2.2.2⟩)]
  rw [unescapeDecode_plain _ H (fun c hc =>
    ⟨(hostByte_facts c (plainHost_bytes H h c hc)).1,
     (hostByte_facts c (plainHost_bytes H h c hc)).2.1⟩)]
  rfl

theorem plainHost_parseHost (H : GoString) (h : plainHost H = true) :
    parseHost H = some H := by
  have hb := plainHost_bytes H h
  have hune := plainHost_unescape H h
  have hsplit := List.takeWhile_append_dropWhile isHostNameByte H
  unfold plainHost at h
  simp only [Bool.and_eq_true, Bool.not_eq_true', List.isEmpty_eq_false] at h
  have hpre : HasPrefix H [91] = false := by
    cases H with
    | nil => rfl
    | cons x xs =>
      have := (hostByte_facts x (hb x (by simp))).2.2.2.2.2.2.1
      have h2 : ¬ (91 = x) := fun e => this e.symm
      simp [HasPrefix, List.isPrefixOf, h2]
  unfold parseHost
  simp only []
  rw [hpre, hune]
  simp only [Bool.false_eq_true, if_false]
  have hname : 58 ∉ H.takeWhile isHostNameByte := by
    intro hm
    have := List.mem_takeWhile_imp hm
    revert this
    decide
  cases hd : H.dropWhile isHostNameByte with
  | nil =>
    rw [hd, List.append_nil] at hsplit
    rw [← hsplit, LastIndexByte_of_not_mem 58 _ hname]
  | cons x xs =>
    have hp := h.2
    rw [hd] at hp hsplit
    simp only [validOptionalPort, Bool.and_eq_true, decide_eq_true_eq, List.all_eq_true] at hp
    have hx : x = 58 := hp.1
    have hxs : 58 ∉ xs := by
      intro hm
      have := hp.2 58 hm
      simp at this
    rw [hx] at hsplit hd
    have : LastIndexByte 58 H = some (H.takeWhile isHostNameByte).length := by
      have key : ∀ name : GoString, name ++ 58 :: xs = H →
          LastIndexByte 58 H = some name.length := by
        intro name e
        rw [← e]
        exact LastIndexByte_append_sep 58 name xs hxs
      exact key _ hsplit
    rw [this]
    simp only []
    have hdrop : H.drop (H.takeWhile isHostNameByte).length = 58 :: xs := by
      have key : ∀ name : GoString, name ++ 58 :: xs = H → H.drop name.length = 58 :: xs := by
        intro name e
        rw [← e, List.drop_left]
      exact key _ hsplit
    rw [hdrop]
    have hv : validOptionalPort (58 :: xs) = true := by
      simp only [validOptionalPort, Bool.and_eq_true, decide_eq_true_eq, List.all_eq_true]
      exact ⟨trivial, hp.2⟩
    rw [hv]
    rfl

theorem isHostNameByte_lowerByte (c : Nat) :
    isHostNameByte (lowerByte c) = isHostNameByte c := by
  unfold isHostNameByte lowerByte
  rw [Bool.eq_iff_iff]
  split_ifs <;> (simp; try omega)

theorem takeWhile_ToLower (s : GoString) :
    (ToLower s).takeWhile isHostNameByte = ToLower (s.takeWhile isHostNameByte) := by
  induction s with
  | nil => rfl
  | cons c cs ih =>
    rw [ToLower_cons, List.takeWhile_cons, List.takeWhile_cons, isHostNameByte_lowerByte]
    split
    · rw [ToLower_cons, ih]
    · rfl

theorem dropWhile_ToLower (s : GoString) :
    (ToLower s).dropWhile isHostNameByte = ToLower (s.dropWhile isHostNameByte) := by
  induction s with
  | nil => rfl
  | cons c cs ih =>
    rw [ToLower_cons, List.dropWhile_cons, List.dropWhile_cons, isHostNameByte_lowerByte]
    split
    · exact ih
    · rw [ToLower_cons]

theorem plainHost_ToLower (H : GoString) (h : plainHost H = true) :
    plainHost (ToLower H) = true := by
  unfold plainHost at h ⊢
  rw [takeWhile_ToLower, dropWhile_ToLower, validOptionalPort_ToLower]
  simp only [Bool.and_eq_true, Bool.not_eq_true', List.isEmpty_eq_false] at h ⊢
  refine ⟨?_, h.2⟩
  intro e
  apply h.1
  unfold ToLower at e
  exact List.map_eq_nil_iff.mp e

end Crawl

namespace Url

open Strings Crawl

theorem Contains_singleton (s : GoString) (c : Nat) : Contains s [c] = decide (c ∈ s) := by
  induction s with
  | nil => simp [Contains]
  | cons x xs ih =>
    rw [Contains, ih]
    by_cases h : c = x
    · subst h; simp [List.isPrefixOf]
    · have h2 : ¬ (x = c) := fun e => h e.symm
      simp [List.isPrefixOf, h, h2]

theorem shouldEscape_high (x : Nat) (hx : 128 ≤ x) (mode : Encoding) :
    shouldEscape x mode = true := by
  unfold shouldEscape isOneOf
  have e0 : bytes "!$&'()*+,;=:[]<>\x22"
      = [33, 36, 38, 39, 40, 41, 42, 43, 44, 59, 61, 58, 91, 93, 60, 62, 34] := by decide
  have e1 : bytes "-_.~" = [45, 95, 46, 126] := by decide
  have e2 : bytes "$&+,/:;=?@" = [36, 38, 43, 44, 47, 58, 59, 61, 63, 64] := by decide
  have e3 : bytes "!()*" = [33, 40, 41, 42] := by decide
  rw [e0, e1, e2, e3]
  have a0 : ([33, 36, 38, 39, 40, 41, 42, 43, 44, 59, 61, 58, 91, 93, 60, 62, 34] : List Nat).contains x
      = false := by simp; omega
  have a1 : ((decide (97 ≤ x) && decide (x ≤ 122)) || (decide (65 ≤ x) && decide (x ≤ 90))
      || (decide (48 ≤ x) && decide (x ≤ 57))) = false := by simp; omega
  have a2 : ([45, 95, 46, 126] : List Nat).contains x = false := by simp; omega
  have a3 : ([36, 38, 43, 44, 47, 58, 59, 61, 63, 64] : List Nat).contains x = false := by
    simp; omega
  have a4 : ([33, 40, 41, 42] : List Nat).contains x = false := by simp; omega
  rw [a0, a1, a2, a3, a4]
  simp

/-- The bytes of escaped user information. -/
theorem userinfo_escape_bytes (s : GoString) (x : Nat)
    (h : x ∈ escape s .encodeUserPassword) :
    x ≠ 47 ∧ x ≠ 63 ∧ x ≠ 35 ∧ x ≠ 64 ∧ x ≠ 58 ∧ ¬ (x < 32 ∨ x = 0x7f)
      ∧ ((65 ≤ x && x ≤ 90) || (97 ≤ x && x ≤ 122) || (48 ≤ x && x ≤ 57)
          || isOneOf x "-._:~!$&'()*+,;=%@") = true := by
  have key : ∀ x, x < 128 →
      (x = 37 ∨ x = 43 ∨ isUpperHex x ∨ shouldEscape x .encodeUserPassword = false) →
      x ≠ 47 ∧ x ≠ 63 ∧ x ≠ 35 ∧ x ≠ 64 ∧ x ≠ 58 ∧ ¬ (x < 32 ∨ x = 0x7f)
        ∧ ((65 ≤ x && x ≤ 90) || (97 ≤ x && x ≤ 122) || (48 ≤ x && x ≤ 57)
            || isOneOf x "-._:~!$&'()*+,;=%@") = true := by
    unfold isUpperHex
    decide
  have big : ∀ x, 128 ≤ x → shouldEscape x .encodeUserPassword = true :=
    fun x hx => shouldEscape_high x hx _
  rcases mem_escape s _ x h with e | e | e | ⟨_, e⟩
  · exact key x (by omega) (Or.inl e)
  · exact key x (by omega) (Or.inr (Or.inl e))
  · exact key x (by unfold isUpperHex at e; omega) (Or.inr (Or.inr (Or.inl e)))
  · by_cases hx : x < 128
    · exact key x hx (Or.inr (Or.inr (Or.inr e)))
    · rw [big x (by omega)] at e
      exact Bool.noConfusion e

end Url

namespace Url

open Strings Crawl

theorem uiPart_shape (user : Option Userinfo) :
    uiPart user = [] ∨ ∃ ui0, uiPart user = ui0 ++ [64] := by
  cases user with
  | none => exact Or.inl rfl
  | some ui => exact Or.inr ⟨Userinfo.String ui, rfl⟩

theorem mem_Userinfo_String (ui : Userinfo) (x : Nat) (h : x ∈ Userinfo.String ui) :
    x ≠ 47 ∧ x ≠ 63 ∧ x ≠ 35 ∧ x ≠ 64 ∧ ¬ (x < 32 ∨ x = 0x7f)
      ∧ ((65 ≤ x && x ≤ 90) || (97 ≤ x && x ≤ 122) || (48 ≤ x && x ≤ 57)
          || isOneOf x "-._:~!$&'()*+,;=%@") = true := by
  unfold Userinfo.String at h
  have colon : (58 : Nat) ≠ 47 ∧ (58 : Nat) ≠ 63 ∧ (58 : Nat) ≠ 35 ∧ (58 : Nat) ≠ 64
      ∧ ¬ ((58 : Nat) < 32 ∨ (58 : Nat) = 0x7f)
      ∧ ((65 ≤ (58 : Nat) && (58 : Nat) ≤ 90) || (97 ≤ (58 : Nat) && (58 : Nat) ≤ 122)
          || (48 ≤ (58 : Nat) && (58 : Nat) ≤ 57)
          || isOneOf 58 "-._:~!$&'()*+,;=%@") = true := by decide
  rcases List.mem_append.mp h with h1 | h1
  · have := userinfo_escape_bytes _ x h1
    exact ⟨this.1, this.2.1, this.2.2.1, this.2.2.2.1, this.2.2.2.2.2.1, this.2.2.2.2.2.2⟩
  · split at h1
    · rcases List.mem_append.mp h1 with h2 | h2
      · rw [List.mem_singleton] at h2
        rw [h2]; exact colon
      · have := userinfo_escape_bytes _ x h2
        exact ⟨this.1, this.2.1, this.2.2.1, this.2.2.2.1, this.2.2.2.2.2.1, this.2.2.2.2.2.2⟩
    · simp at h1

theorem uiPart_bytes (user : Option Userinfo) :
    (47 ∉ uiPart user ∧ 63 ∉ uiPart user ∧ 35 ∉ uiPart user)
      ∧ ∀ x ∈ uiPart user, ¬ (x < 32 ∨ x = 0x7f) := by
  cases user with
  | none => simp [uiPart]
  | some ui =>
    unfold uiPart
    simp only []
    have hb := mem_Userinfo_String ui
    refine ⟨⟨?_, ?_, ?_⟩, ?_⟩
    · intro h
      rcases List.mem_append.mp h with h1 | h1
      · exact (hb 47 h1).1 rfl
      · simp at h1
    · intro h
      rcases List.mem_append.mp h with h1 | h1
      · exact (hb 63 h1).2.1 rfl
      · simp at h1
    · intro h
      rcases List.mem_append.mp h with h1 | h1
      · exact (hb 35 h1).2.2.1 rfl
      · simp at h1
    · intro x h
      rcases List.mem_append.mp h with h1 | h1
      · exact (hb x h1).2.2.2.2.1
      · rw [List.mem_singleton] at h1
        rw [h1]; decide

theorem parseUserinfo_String (ui : Userinfo) : parseUserinfo (Userinfo.String ui) ≠ none := by
  have hvalid : validUserinfo (Userinfo.String ui) = true := by
    unfold validUserinfo
    rw [List.all_eq_true]
    intro x hx
    exact (mem_Userinfo_String ui x hx).2.2.2.2.2
  have hm : Encoding.encodeUserPassword ≠ .encodeHost ∧ Encoding.encodeUserPassword ≠ .encodeZone := by
    constructor <;> decide
  have hnc : 58 ∉ escape ui.username .encodeUserPassword :=
    fun h => (userinfo_escape_bytes _ 58 h).2.2.2.2.1 rfl
  unfold parseUserinfo
  rw [hvalid]
  simp only [Bool.not_true, Bool.false_eq_true, if_false]
  rw [Contains_singleton]
  unfold Userinfo.String
  by_cases hp : ui.passwordSet = true
  · rw [if_pos hp]
    have hmem : 58 ∈ escape ui.username .encodeUserPassword
        ++ ([58] ++ escape ui.password .encodeUserPassword) := by simp
    have hcut : Cut 58 (escape ui.username .encodeUserPassword
        ++ ([58] ++ escape ui.password .encodeUserPassword))
        = (escape ui.username .encodeUserPassword, escape ui.password .encodeUserPassword, true) :=
      Cut_append_sep 58 _ _ hnc
    rw [hcut]
    simp only [hmem, decide_True, Bool.not_true, Bool.false_eq_true, if_false]
    unfold unescape
    rw [unescapeValid_escape _ hm, unescapeValid_escape _ hm]
    simp
  · rw [if_neg hp, List.append_nil]
    simp only [hnc, decide_False, Bool.not_false, if_true]
    unfold unescape
    rw [unescapeValid_escape _ hm]
    simp

theorem userPart_uiPart (user : Option Userinfo) : userPart (uiPart user) ≠ none := by
  cases user with
  | none => simp [uiPart, userPart]
  | some ui =>
    unfold uiPart userPart
    simp only []
    have hne : Userinfo.String ui ++ [64] ≠ [] := by simp
    rw [if_neg hne, List.dropLast_concat]
    have := parseUserinfo_String ui
    cases h : parseUserinfo (Userinfo.String ui) with
    | none => exact absurd h this
    | some v => simp

end Url

namespace Url

open Strings Crawl

theorem isUpperHex_plain (x : Nat) (h : isUpperHex x) : isPlainByte x := by
  unfold isUpperHex at h
  unfold isPlainByte
  omega

theorem escape_plainByte (s : GoString) (mode : Encoding)
    (hm : shouldEscape 63 mode = true ∧ shouldEscape 35 mode = true) :
    ∀ x ∈ escape s mode, isPlainByte x := by
  intro x hx
  rcases mem_escape s mode x hx with e | e | e | ⟨_, e2⟩
  · subst e; unfold isPlainByte; decide
  · subst e; unfold isPlainByte; decide
  · exact isUpperHex_plain x e
  · refine ⟨?_, ?_, ?_⟩
    · intro e; subst e; rw [hm.1] at e2; exact Bool.noConfusion e2
    · intro e; subst e; rw [hm.2] at e2; exact Bool.noConfusion e2
    · intro e; rw [shouldEscape_ctl x mode e] at e2; exact Bool.noConfusion e2

theorem validEncoded_plainByte (s : GoString) (h : validEncoded s .encodePath = true) :
    ∀ x ∈ s, isPlainByte x := by
  unfold validEncoded at h
  rw [List.all_eq_true] at h
  intro x hx
  have hx2 := h x hx
  by_cases h128 : x < 128
  · have key : ∀ c, c < 128 →
        (if isOneOf c "!$&'()*+,;=:@" = true then true
          else if isOneOf c "[]" = true then true
          else if c = 37 then true
          else !shouldEscape c .encodePath) = true → isPlainByte c := by
      unfold isPlainByte
      decide
    exact key x h128 hx2
  · unfold isPlainByte; omega

theorem EscapedPath_plainByte (u : URL) : ∀ x ∈ URL.EscapedPath u, isPlainByte x := by
  unfold URL.EscapedPath
  split
  · rename_i h
    exact validEncoded_plainByte _ h.2.1
  · split
    · intro x hx
      rw [List.mem_singleton] at hx
      subst hx; unfold isPlainByte; decide
    · exact escape_plainByte _ _ (by constructor <;> decide)

theorem EscapedPath_valid (u : URL) : unescapeValid .encodePath (URL.EscapedPath u) = true := by
  unfold URL.EscapedPath
  split
  · rename_i h
    have h3 := h.2.2
    unfold unescape at h3
    by_cases hv : unescapeValid .encodePath u.RawPath = true
    · exact hv
    · rw [if_neg hv] at h3
      exact Option.noConfusion h3
  · split
    · decide
    · exact unescapeValid_escape _ (by constructor <;> decide) _

theorem pathPart_plainByte (u : URL) : ∀ x ∈ pathPart u, isPlainByte x := by
  unfold pathPart
  split
  · intro x hx
    rcases List.mem_cons.mp hx with e | e
    · subst e; unfold isPlainByte; decide
    · exact EscapedPath_plainByte u x e
  · exact EscapedPath_plainByte u

theorem pathPart_head (u : URL) : pathPart u = [] ∨ (pathPart u).head? = some 47 := by
  unfold pathPart
  split
  · right; rfl
  · rename_i h
    by_cases h1 : URL.EscapedPath u = []
    · left; exact h1
    · right
      by_contra h2
      exact h ⟨h1, h2⟩

theorem pathPart_valid (u : URL) : unescapeValid .encodePath (pathPart u) = true := by
  unfold pathPart
  split
  · rw [unescapeValid_cons_raw _ _ _ (by decide)]
    · exact EscapedPath_valid u
    · decide
  · exact EscapedPath_valid u

theorem splitQuery_path_query (p q : GoString) (force : Bool) (hp : 63 ∉ p) :
    (splitQuery (p ++ (if force = true ∨ q ≠ [] then 63 :: q else []))).1 = p := by
  rw [splitQuery_append_left p _ hp]
  simp only []
  by_cases h : force = true ∨ q ≠ []
  · rw [if_pos h]
    unfold splitQuery
    split
    · rename_i hc
      simp only [Bool.and_eq_true, decide_eq_true_eq] at hc
      have : q = [] := by
        have h2 := hc.2
        unfold CountByte at h2
        rw [List.count_cons_self] at h2
        have h3 : List.count 63 q = 0 := by omega
        have h4 : 63 ∉ q := List.count_eq_zero.mp h3
        by_contra hq
        have h5 := hc.1
        rw [show (63 :: q : GoString) = [63] ++ q from rfl,
          HasSuffix_append_of_ne_nil [63] q 63 hq, HasSuffix_of_not_mem q 63 h4] at h5
        exact Bool.noConfusion h5
      subst this
      simp
    · simp [Cut]
  · rw [if_neg h]
    simp [splitQuery, HasSuffix, Cut]

end Url

namespace Url

open Strings Crawl

theorem isPlainByte_queryByte (x : Nat) (h : isPlainByte x) : isQueryByte x := ⟨h.2.1, h.2.2⟩

theorem stringContainsCTLByte_eq_false (s : GoString) (h : ∀ x ∈ s, isQueryByte x) :
    stringContainsCTLByte s = false := by
  unfold stringContainsCTLByte
  rw [List.any_eq_false]
  intro x hx
  have := (h x hx).2
  simp only [Bool.or_eq_true, decide_eq_true_eq]
  exact this

theorem setPath_fields (u : URL) (p : GoString) (hv : unescapeValid .encodePath p = true) :
    ∃ y, URL.setPath u p = some y ∧ y.Host = u.Host ∧ y.Scheme = u.Scheme
      ∧ y.Opaque = u.Opaque ∧ y.RawQuery = u.RawQuery ∧ y.User = u.User := by
  unfold URL.setPath unescape
  rw [if_pos hv]
  simp only []
  split
  · exact ⟨_, rfl, rfl, rfl, rfl, rfl, rfl⟩
  · exact ⟨_, rfl, rfl, rfl, rfl, rfl, rfl⟩

end Url

namespace Strings

theorem mem_Cut_fst (sep : Nat) (s : GoString) (x : Nat) (h : x ∈ (Cut sep s).1) :
    x ∈ s ∧ x ≠ sep := by
  induction s with
  | nil => simp [Cut] at h
  | cons c cs ih =>
    unfold Cut at h
    split at h
    · simp at h
    · rename_i hc
      rcases List.mem_cons.mp h with e | e
      · subst e; exact ⟨by simp, hc⟩
      · exact ⟨List.mem_cons_of_mem _ (ih e).1, (ih e).2⟩

theorem mem_Cut_snd (sep : Nat) (s : GoString) (x : Nat) (h : x ∈ (Cut sep s).2.1) :
    x ∈ s := by
  induction s with
  | nil => simp [Cut] at h
  | cons c cs ih =>
    unfold Cut at h
    split at h
    · exact List.mem_cons_of_mem _ h
    · exact List.mem_cons_of_mem _ (ih h)

end Strings

namespace Url

open Strings Crawl

theorem getSchemeAux_rest_mem (raw : GoString) (i : Nat) (s a b : GoString)
    (hsub : ∀ x ∈ s, x ∈ raw) (h : getSchemeAux raw i s = some (a, b)) :
    ∀ x ∈ b, x ∈ raw := by
  induction s generalizing i with
  | nil =>
    simp only [getSchemeAux, Option.some.injEq, Prod.mk.injEq] at h
    rw [← h.2]; exact fun x hx => hx
  | cons c cs ih =>
    have hcs : ∀ x ∈ cs, x ∈ raw := fun x hx => hsub x (List.mem_cons_of_mem _ hx)
    unfold getSchemeAux at h
    split at h
    · exact ih _ hcs h
    · split at h
      · split at h
        · simp only [Option.some.injEq, Prod.mk.injEq] at h
          rw [← h.2]; exact fun x hx => hx
        · exact ih _ hcs h
      · split at h
        · split at h
          · exact Option.noConfusion h
          · simp only [Option.some.injEq, Prod.mk.injEq] at h
            rw [← h.2]; exact hcs
        · simp only [Option.some.injEq, Prod.mk.injEq] at h
          rw [← h.2]; exact fun x hx => hx

theorem getScheme_rest_mem (raw a b : GoString) (h : getScheme raw = some (a, b)) :
    ∀ x ∈ b, x ∈ raw :=
  getSchemeAux_rest_mem raw 0 raw a b (fun _ hx => hx) h

theorem splitQuery_query_mem (r : GoString) : ∀ x ∈ (splitQuery r).2.2, x ∈ r := by
  unfold splitQuery
  split
  · intro x hx; simp at hx
  · intro x hx
    exact mem_Cut_snd 63 r x hx

theorem setPath_some_fields (u y : URL) (p : GoString) (h : URL.setPath u p = some y) :
    y.Host = u.Host ∧ y.Scheme = u.Scheme ∧ y.Opaque = u.Opaque ∧ y.RawQuery = u.RawQuery := by
  unfold URL.setPath at h
  split at h
  · exact Option.noConfusion h
  · split at h
    · simp only [Option.some.injEq] at h
      rw [← h]; exact ⟨rfl, rfl, rfl, rfl⟩
    · simp only [Option.some.injEq] at h
      rw [← h]; exact ⟨rfl, rfl, rfl, rfl⟩

theorem setFragment_some_fields (u y : URL) (f : GoString) (h : URL.setFragment u f = some y) :
    y.Host = u.Host ∧ y.Scheme = u.Scheme ∧ y.Opaque = u.Opaque ∧ y.RawQuery = u.RawQuery := by
  unfold URL.setFragment at h
  split at h
  · exact Option.noConfusion h
  · split at h
    · simp only [Option.some.injEq] at h
      rw [← h]; exact ⟨rfl, rfl, rfl, rfl⟩
    · simp only [Option.some.injEq] at h
      rw [← h]; exact ⟨rfl, rfl, rfl, rfl⟩

theorem parseAfterScheme_facts (scheme rest : GoString) (y : URL)
    (h : parseAfterScheme scheme rest = some y) :
    (y.Opaque ≠ [] → y.Host = []) ∧ ∀ x ∈ y.RawQuery, x ∈ rest := by
  unfold parseAfterScheme at h
  simp only [] at h
  have hq := splitQuery_query_mem rest
  split at h
  · simp only [Option.some.injEq] at h
    rw [← h]
    exact ⟨fun _ => rfl, hq⟩
  · split at h
    · exact Option.noConfusion h
    · split at h
      · split at h
        · exact Option.noConfusion h
        · have := setPath_some_fields _ _ _ h
          rw [this.2.2.1, this.2.2.2]
          exact ⟨fun e => absurd rfl e, hq⟩
      · split at h
        · have := setPath_some_fields _ _ _ h
          rw [this.2.2.1, this.2.2.2]
          exact ⟨fun e => absurd rfl e, hq⟩
        · have := setPath_some_fields _ _ _ h
          rw [this.2.2.1, this.2.2.2]
          exact ⟨fun e => absurd rfl e, hq⟩

theorem parse_facts (raw : GoString) (y : URL) (h : parse raw = some y) :
    (y.Opaque ≠ [] → y.Host = []) ∧ ∀ x ∈ y.RawQuery, x ∈ raw ∧ ¬ (x < 32 ∨ x = 0x7f) := by
  unfold parse at h
  split at h
  · exact Option.noConfusion h
  · rename_i hctl
    split at h
    · simp only [Option.some.injEq] at h
      rw [← h]
      exact ⟨fun _ => rfl, fun x hx => by simp at hx⟩
    · split at h
      · exact Option.noConfusion h
      · rename_i scheme rest hg
        have hf := parseAfterScheme_facts _ _ _ h
        refine ⟨hf.1, fun x hx => ?_⟩
        have hx2 := getScheme_rest_mem raw scheme rest hg x (hf.2 x hx)
        refine ⟨hx2, ?_⟩
        unfold stringContainsCTLByte at hctl
        simp only [Bool.not_eq_true, List.any_eq_false, Bool.or_eq_true, decide_eq_true_eq] at hctl
        exact hctl x hx2

/-- A URL that `url.Parse` returns has no host when it is opaque, and its raw query holds
neither `#` nor a control byte. -/
theorem Parse_facts (s : GoString) (y : URL) (h : Parse s = some y) :
    (y.Opaque ≠ [] → y.Host = []) ∧ ∀ x ∈ y.RawQuery, isQueryByte x := by
  unfold Parse at h
  split at h
  · exact Option.noConfusion h
  · rename_i u hu
    have hf := parse_facts _ _ hu
    have key : (u.Opaque ≠ [] → u.Host = []) ∧ ∀ x ∈ u.RawQuery, isQueryByte x :=
      ⟨hf.1, fun x hx => ⟨(mem_Cut_fst 35 s x (hf.2 x hx).1).2, (hf.2 x hx).2⟩⟩
    split at h
    · simp only [Option.some.injEq] at h
      rw [← h]; exact key
    · have := setFragment_some_fields _ _ _ h
      rw [this.1, this.2.2.1, this.2.2.2]
      exact key

end Url

namespace Url

open Strings Crawl

theorem mem_intercalate (sep : GoString) (l : List GoString) (x : Nat)
    (h : x ∈ sep.intercalate l) : x ∈ sep ∨ ∃ p ∈ l, x ∈ p := by
  induction l with
  | nil => simp [List.intercalate] at h
  | cons a t ih =>
    cases t with
    | nil =>
      right
      refine ⟨a, by simp, ?_⟩
      simpa [List.intercalate] using h
    | cons b t2 =>
      have e : sep.intercalate (a :: b :: t2) = a ++ (sep ++ sep.intercalate (b :: t2)) := by
        simp [List.intercalate]
      rw [e] at h
      rcases List.mem_append.mp h with h1 | h1
      · exact Or.inr ⟨a, by simp, h1⟩
      · rcases List.mem_append.mp h1 with h2 | h2
        · exact Or.inl h2
        · rcases ih h2 with h3 | ⟨p, hp, hx⟩
          · exact Or.inl h3
          · exact Or.inr ⟨p, List.mem_cons_of_mem _ hp, hx⟩

theorem QueryEscape_queryByte (s : GoString) : ∀ x ∈ QueryEscape s, isQueryByte x := by
  intro x hx
  exact isPlainByte_queryByte x
    (escape_plainByte s .encodeQueryComponent (by constructor <;> decide) x hx)

/-- The text `Values.Encode` writes holds neither `#` nor a control byte. -/
theorem Encode_queryByte (v : Values) : ∀ x ∈ Values.Encode v, isQueryByte x := by
  intro x hx
  unfold Values.Encode at hx
  simp only [] at hx
  rcases mem_intercalate _ _ x hx with h | ⟨p, hp, hxp⟩
  · rw [List.mem_singleton] at h
    subst h; unfold isQueryByte; decide
  · rw [List.mem_flatMap] at hp
    obtain ⟨k, _, hk⟩ := hp
    rw [List.mem_map] at hk
    obtain ⟨value, _, hval⟩ := hk
    rw [← hval] at hxp
    simp only [List.mem_append, List.mem_singleton] at hxp
    rcases hxp with (h | h) | h
    · exact QueryEscape_queryByte k x h
    · subst h; unfold isQueryByte; decide
    · exact QueryEscape_queryByte value x h

theorem setPathIgnoringError_fields (u : URL) (p : GoString) :
    (URL.setPathIgnoringError u p).Host = u.Host
      ∧ (URL.setPathIgnoringError u p).Scheme = u.Scheme
      ∧ (URL.setPathIgnoringError u p).Opaque = u.Opaque
      ∧ (URL.setPathIgnoringError u p).RawQuery = u.RawQuery := by
  unfold URL.setPathIgnoringError
  split
  · rename_i v hv
    exact setPath_some_fields _ _ _ hv
  · exact ⟨rfl, rfl, rfl, rfl⟩

/-- A resolved reference that has a host is not opaque, and its raw query is that of the
reference or that of the base. -/
theorem ResolveReference_facts (u ref : URL)
    (href : ref.Opaque ≠ [] → ref.Host = [])
    (hhost : (URL.ResolveReference u ref).Host ≠ []) :
    (URL.ResolveReference u ref).Opaque = []
      ∧ ((URL.ResolveReference u ref).RawQuery = ref.RawQuery
          ∨ (URL.ResolveReference u ref).RawQuery = u.RawQuery) := by
  unfold URL.ResolveReference at hhost ⊢
  simp only [] at hhost ⊢
  split
  · rw [if_pos (by assumption)] at hhost
    have hf := setPathIgnoringError_fields
      (if ref.Scheme = [] then { ref with Scheme := u.Scheme } else ref)
      (resolvePath (URL.EscapedPath ref) [])
    rw [hf.1] at hhost
    rw [hf.2.2.1, hf.2.2.2]
    have e1 : (if ref.Scheme = [] then { ref with Scheme := u.Scheme } else ref).Host
        = ref.Host := by split <;> rfl
    have e2 : (if ref.Scheme = [] then { ref with Scheme := u.Scheme } else ref).Opaque
        = ref.Opaque := by split <;> rfl
    have e3 : (if ref.Scheme = [] then { ref with Scheme := u.Scheme } else ref).RawQuery
        = ref.RawQuery := by split <;> rfl
    rw [e1] at hhost
    rw [e2, e3]
    refine ⟨?_, Or.inl rfl⟩
    by_contra ho
    exact hhost (href ho)
  · rename_i h1
    rw [if_neg h1] at hhost
    split
    · rw [if_pos (by assumption)] at hhost
      exact absurd rfl hhost
    · rename_i h2
      rw [if_neg h2] at hhost
      split
      · rw [if_pos (by assumption)] at hhost
        exact absurd rfl hhost
      · rename_i h3
        rw [if_neg h3] at hhost
        have hf := setPathIgnoringError_fields
          { (if ref.Path = [] ∧ ref.ForceQuery = false ∧ ref.RawQuery = [] then
              if ref.Fragment = [] then
                { (if ref.Scheme = [] then { ref with Scheme := u.Scheme } else ref) with
                  RawQuery := u.RawQuery, Fragment := u.Fragment, RawFragment := u.RawFragment }
              else { (if ref.Scheme = [] then { ref with Scheme := u.Scheme } else ref) with
                  RawQuery := u.RawQuery }
             else (if ref.Scheme = [] then { ref with Scheme := u.Scheme } else ref)) with
            Host := u.Host, User := u.User }
          (resolvePath (URL.EscapedPath u) (URL.EscapedPath ref))
        rw [hf.2.2.1, hf.2.2.2]
        have ho : ref.Opaque = [] := by
          by_contra h; exact h2 h
        constructor
        · simp only []
          split
          · split
            · split <;> exact ho
            · split <;> exact ho
          · split <;> exact ho
        · simp only []
          split
          · split
            · right; rfl
            · right; rfl
          · left; split <;> rfl

end Url

namespace Crawl

open Strings Url

theorem normalizeParsed_eq_String (y : URL) :
    ∃ z, normalizeParsed y = URL.String z ∧ z.Scheme = ToLower y.Scheme
      ∧ z.Host = ToLower y.Host ∧ z.Opaque = y.Opaque ∧ z.Fragment = []
      ∧ ∀ x ∈ z.RawQuery, isQueryByte x := by
  unfold normalizeParsed
  by_cases hq : y.RawQuery = []
  · simp only [hq, if_true, ne_eq, not_true_eq_false, if_false]
    exact ⟨_, rfl, rfl, rfl, rfl, rfl, fun x hx => by simp [hq] at hx⟩
  · simp only [hq, if_false, ne_eq, not_false_eq_true, if_true]
    exact ⟨_, rfl, rfl, rfl, rfl, rfl, Encode_queryByte _⟩

end Crawl

namespace Crawl

open Strings Url

/-- Where a URL in the list of `extractLinks` comes from: an anchor of the page whose link
`processLink` accepted. -/
theorem extractLinks_mem (done : Nat → Bool) (baseURL : GoString)
    (content : Page) (l : GoString) (hl : l ∈ extractLinks done baseURL content) :
    ∃ doc base e href linkURL,
      content = some doc ∧ Url.Parse baseURL = some base
        ∧ e ∈ doc ∧ e.tag = bytes "a" ∧ e.attr "href" = some href
        ∧ Url.Parse (TrimSpace href) = some linkURL
        ∧ ((resolveLink base linkURL).Scheme = bytes "http"
            ∨ (resolveLink base linkURL).Scheme = bytes "https")
        ∧ (resolveLink base linkURL).Host = base.Host
        ∧ l = normalizeURL (URL.String (resolveLink base linkURL)) := by
  unfold extractLinks at hl
  cases content with
  | none => simp at hl
  | some doc =>
    simp only [] at hl
    cases hb : Url.Parse baseURL with
    | none => rw [hb] at hl; simp at hl
    | some base =>
      rw [hb] at hl
      simp only [] at hl
      refine ⟨doc, base, ?_⟩
      have := extractLoop_mem base done
        (fun l => ∃ e href linkURL, some doc = some doc ∧ some base = some base
          ∧ e ∈ doc ∧ e.tag = bytes "a" ∧ e.attr "href" = some href
          ∧ Url.Parse (TrimSpace href) = some linkURL
          ∧ ((resolveLink base linkURL).Scheme = bytes "http"
              ∨ (resolveLink base linkURL).Scheme = bytes "https")
          ∧ (resolveLink base linkURL).Host = base.Host
          ∧ l = normalizeURL (URL.String (resolveLink base linkURL)))
        (anchorsWithHref doc) 0 ([], []) (by simp) (by
          intro e he href link hattr hpl
          obtain ⟨linkURL, h1, h2, h3, h4⟩ := processLink_ok base href link hpl
          unfold anchorsWithHref at he
          rw [List.mem_filter] at he
          refine ⟨e, href, linkURL, rfl, rfl, he.1, ?_, hattr, h1, h2, h3, by rw [h4]⟩
          have := he.2
          simp only [Bool.and_eq_true, decide_eq_true_eq] at this
          exact this.1) l hl
      exact this

end Crawl

/-! ### The task queue and the depth bound -/

namespace Workerpool

theorem AddTask_tasks_bounded (wp : WorkerPool) (task : Task) (d : Int)
    (h : ∀ t ∈ wp.tasks, t.Depth ≤ d) (ht : task.Depth ≤ d) :
    ∀ t ∈ (wp.AddTask task).tasks, t.Depth ≤ d := by
  unfold WorkerPool.AddTask
  split
  · intro t hmem
    rcases List.mem_append.mp hmem with h1 | h1
    · exact h t h1
    · rw [List.mem_singleton.mp h1]; exact ht
  · exact h

theorem AddTask_length_le (wp : WorkerPool) (task : Task)
    (h : wp.tasks.length ≤ wp.capacity) :
    (wp.AddTask task).tasks.length ≤ wp.capacity ∧ (wp.AddTask task).capacity = wp.capacity := by
  unfold WorkerPool.AddTask
  split
  · simp; omega
  · exact ⟨h, rfl⟩

theorem foldl_AddTask_length_le (tasks : List Task) (wp : WorkerPool)
    (h : wp.tasks.length ≤ wp.capacity) :
    (tasks.foldl WorkerPool.AddTask wp).tasks.length ≤ wp.capacity
      ∧ (tasks.foldl WorkerPool.AddTask wp).capacity = wp.capacity := by
  induction tasks generalizing wp with
  | nil => exact ⟨h, rfl⟩
  | cons t ts ih =>
    have h1 := AddTask_length_le wp t h
    have h2 := ih (wp.AddTask t) (by rw [h1.2]; exact h1.1)
    rw [h1.2] at h2
    exact h2

end Workerpool

namespace Crawl

open Goquery Workerpool

theorem foldl_depthBounded {α : Type} (d : Int) (f : Crawler → α → Crawler)
    (hf : ∀ c a, DepthBounded d c → DepthBounded d (f c a)) (l : List α) (c : Crawler)
    (h : DepthBounded d c) : DepthBounded d (l.foldl f c) := by
  induction l generalizing c with
  | nil => exact h
  | cons x xs ih => exact ih (f c x) (hf c x h)

theorem seed_depthBounded (d : Int) (hd : 0 ≤ d) (c : Crawler) (domain : GoString)
    (h : DepthBounded d c) : DepthBounded d (c.seed domain) := by
  unfold Crawler.seed
  split
  · exact h
  · exact ⟨h.1, AddTask_tasks_bounded _ _ d h.2 hd⟩

theorem addSitemapTask_depthBounded (d : Int) (task : Task) (c : Crawler) (u : GoString)
    (h : DepthBounded d c) : DepthBounded d (Crawler.addSitemapTask task c u) := by
  unfold Crawler.addSitemapTask
  split
  · rename_i hle
    exact ⟨h.1, AddTask_tasks_bounded _ _ d h.2 (by rw [← h.1]; exact hle)⟩
  · exact h

theorem addLinkTask_depthBounded (d : Int) (task : Task) (ht : task.Depth + 1 ≤ d)
    (c : Crawler) (link : GoString) (h : DepthBounded d c) :
    DepthBounded d (Crawler.addLinkTask task c link) :=
  ⟨h.1, AddTask_tasks_bounded _ _ d h.2 ht⟩

theorem sitemapStep_depthBounded (d : Int) (c : Crawler) (env : TaskEnv) (task : Task)
    (h : DepthBounded d c) : DepthBounded d (c.sitemapStep env task) := by
  unfold Crawler.sitemapStep
  split
  · split
    · exact foldl_depthBounded d _ (fun c u hc => addSitemapTask_depthBounded d task c u hc) _ c h
    · exact h
  · exact h

theorem fetchStep_depthBounded (d : Int) (c : Crawler) (env : TaskEnv) (task : Task)
    (n : GoString) (h : DepthBounded d c) : DepthBounded d (c.fetchStep env task n).1 := by
  unfold Crawler.fetchStep
  split
  · exact h
  · exact h
  · split
    · exact h
    · split
      · rename_i hlt
        exact foldl_depthBounded d _
          (fun c l hc => addLinkTask_depthBounded d task (by rw [← h.1]; omega) c l hc) _ c h
      · exact h

theorem robotsStep_depthBounded (d : Int) (c : Crawler) (env : TaskEnv) (task : Task)
    (n : GoString) (h : DepthBounded d c) : DepthBounded d (c.robotsStep env task n).1 := by
  unfold Crawler.robotsStep
  split
  · exact h
  · split
    · exact h
    · exact fetchStep_depthBounded d _ env task n (sitemapStep_depthBounded d c env task h)

theorem processTask_depthBounded (d : Int) (c : Crawler) (env : TaskEnv) (task : Task)
    (h : DepthBounded d c) : DepthBounded d (c.processTask env task).1 := by
  unfold Crawler.processTask
  split
  · exact h
  · split
    · exact h
    · exact robotsStep_depthBounded d _ env task _ h

end Crawl

/-! ### Case variants are accepted or rejected together -/

namespace Crawl

open Strings Url

theorem ToLower_schemeVariant (s1 s2 : GoString) (hs : SchemeVariant s1 s2) :
    ToLower s1 = ToLower s2 := by
  cases hs with
  | none => rfl
  | scheme a b _ _ hcase => rw [ToLower_append, ToLower_append, hcase]

theorem ToLower_hostVariant (m1 m2 : GoString) (hm : HostVariant m1 m2) :
    ToLower m1 = ToLower m2 := by
  cases hm with
  | same t _ => rfl
  | host ui h1 h2 r _ _ _ _ hcase _ _ => simp only [ToLower_append, hcase]

end Crawl

namespace Crawl

open Strings Url

theorem stringContainsCTLByte_ToLower (s : GoString) :
    stringContainsCTLByte (ToLower s) = stringContainsCTLByte s := by
  unfold stringContainsCTLByte
  induction s with
  | nil => rfl
  | cons c cs ih =>
    rw [ToLower_cons, List.any_cons, List.any_cons, ih]
    congr 1
    unfold lowerByte
    rw [Bool.eq_iff_iff]
    split_ifs <;> (simp; try omega)

theorem setPath_isNone_host (u : URL) (H1 H2 p : GoString) :
    (URL.setPath { u with Host := H1 } p = none) ↔ (URL.setPath { u with Host := H2 } p = none) := by
  unfold URL.setPath
  cases unescape p .encodePath with
  | none => simp
  | some path =>
    simp only []
    split <;> simp

theorem parseHost_isNone_case (h1 h2 : GoString) (hcase : ToLower h1 = ToLower h2) :
    parseHost h1 = none ↔ parseHost h2 = none := by
  have e1 := parseHost_ToLower h1
  have e2 := parseHost_ToLower h2
  rw [hcase, e2] at e1
  cases a : parseHost h1 <;> cases b : parseHost h2 <;> rw [a, b] at e1 <;> simp at e1 ⊢

theorem parse_isNone_variant (sp1 sp2 m1 m2 : GoString) (hs : SchemeVariant sp1 sp2)
    (hm : HostVariant m1 m2) : parse (sp1 ++ m1) = none ↔ parse (sp2 ++ m2) = none := by
  have hlow : ToLower (sp1 ++ m1) = ToLower (sp2 ++ m2) := by
    rw [ToLower_append, ToLower_append, ToLower_schemeVariant sp1 sp2 hs,
      ToLower_hostVariant m1 m2 hm]
  have hctl : stringContainsCTLByte (sp1 ++ m1) = stringContainsCTLByte (sp2 ++ m2) := by
    rw [← stringContainsCTLByte_ToLower (sp1 ++ m1), hlow, stringContainsCTLByte_ToLower]
  -- the host case, once the scheme is split off
  have hostCase : ∀ (sch ui h1 h2 r : GoString),
      (ui = [] ∨ ∃ ui0, ui = ui0 ++ [64]) → (47 ∉ ui ∧ 63 ∉ ui ∧ 35 ∉ ui) →
      (47 ∉ h1 ∧ 63 ∉ h1 ∧ 35 ∉ h1 ∧ 64 ∉ h1) → (47 ∉ h2 ∧ 63 ∉ h2 ∧ 35 ∉ h2 ∧ 64 ∉ h2) →
      ToLower h1 = ToLower h2 → (r = [] ∨ r.head? = some 47 ∨ r.head? = some 63) →
      (sch ≠ [] ∨ h1 ≠ []) →
      (parseAfterScheme sch (bytes "//" ++ ui ++ h1 ++ r) = none
        ↔ parseAfterScheme sch (bytes "//" ++ ui ++ h2 ++ r) = none) := by
    intro sch ui h1 h2 r hui hui2 hh1 hh2 hcase hr hne
    have hne2 : sch ≠ [] ∨ h2 ≠ [] := by
      rcases hne with e | e
      · exact Or.inl e
      · right
        intro e2
        rw [e2] at hcase
        have : h1 = [] := by
          have := congrArg List.length hcase
          simp [ToLower] at this
          exact this
        exact e this
    rw [parseAfterScheme_authority sch ui h1 r hui hui2 hh1 hr hne,
      parseAfterScheme_authority sch ui h2 r hui hui2 hh2 hr hne2]
    have hn := parseHost_isNone_case h1 h2 hcase
    cases hH1 : parseHost h1 with
    | none =>
      rw [hn.mp hH1]
    | some H1 =>
      cases hH2 : parseHost h2 with
      | none => rw [hn.mpr hH2] at hH1; simp at hH1
      | some H2 =>
        cases hU : userPart ui with
        | none => simp
        | some user =>
          simp only []
          exact setPath_isNone_host
            { Scheme := sch, ForceQuery := (splitQuery r).2.1, RawQuery := (splitQuery r).2.2,
              User := user } H1 H2 (splitQuery r).1
  have afterScheme : ∀ (raw1 raw2 s1 s2 r1 r2 : GoString), raw1 ≠ [42] → raw2 ≠ [42] →
      stringContainsCTLByte raw1 = stringContainsCTLByte raw2 →
      getScheme raw1 = some (s1, r1) → getScheme raw2 = some (s2, r2) →
      (parseAfterScheme (ToLower s1) r1 = none ↔ parseAfterScheme (ToLower s2) r2 = none) →
      (parse raw1 = none ↔ parse raw2 = none) := by
    intro raw1 raw2 s1 s2 r1 r2 n1 n2 hc g1 g2 h
    unfold parse
    rw [hc, if_neg n1, if_neg n2, g1, g2]
    simp only []
    by_cases hcc : stringContainsCTLByte raw2 = true
    · rw [if_pos hcc, if_pos hcc]
    · rw [if_neg hcc, if_neg hcc]
      exact h
  cases hs with
  | none =>
    cases hm with
    | same t ht => rfl
    | host ui h1 h2 r hui hui2 hh1 hh2 hcase hr hr2 =>
      by_cases hne : h1 = []
      · have hne2 : h2 = [] := by
          rw [hne] at hcase
          have := congrArg List.length hcase
          simp [ToLower] at this
          exact List.length_eq_zero.mp this.symm
        subst hne; subst hne2
        rfl
      · rw [List.nil_append, List.nil_append] at hctl ⊢
        have hraw1 : bytes "//" ++ ui ++ h1 ++ r = 47 :: (47 :: (ui ++ h1 ++ r)) := by
          rw [bytes_slash2]; simp
        have hraw2 : bytes "//" ++ ui ++ h2 ++ r = 47 :: (47 :: (ui ++ h2 ++ r)) := by
          rw [bytes_slash2]; simp
        refine afterScheme _ _ [] [] _ _ (by rw [hraw1]; simp) (by rw [hraw2]; simp) hctl
          (by rw [hraw1]; exact getScheme_slash _) (by rw [hraw2]; exact getScheme_slash _) ?_
        rw [← hraw1, ← hraw2]
        exact hostCase (ToLower []) ui h1 h2 r hui hui2 hh1 hh2 hcase hr (Or.inr hne)
  | scheme s1 s2 hs1 hs2 hsc =>
    have hlen1 : s1 ≠ [] := by intro e; rw [e] at hs1; simp [isScheme] at hs1
    have hlen2 : s2 ≠ [] := by intro e; rw [e] at hs2; simp [isScheme] at hs2
    have hstar : ∀ (s m : GoString), s ≠ [] → s ++ [58] ++ m ≠ [42] := by
      intro s m hs e
      have := congrArg List.length e
      have hl : 0 < s.length := List.length_pos.mpr hs
      simp at this
      omega
    have hsch : ToLower s1 ≠ [] := by
      intro e
      have := congrArg List.length e
      simp [ToLower] at this
      exact hlen1 this
    refine afterScheme _ _ s1 s2 m1 m2 (hstar s1 m1 hlen1) (hstar s2 m2 hlen2) hctl
      (by rw [List.append_assoc]; exact getScheme_scheme s1 m1 hs1)
      (by rw [List.append_assoc]; exact getScheme_scheme s2 m2 hs2) ?_
    rw [← hsc]
    cases hm with
    | same t ht => rfl
    | host ui h1 h2 r hui hui2 hh1 hh2 hcase hr hr2 =>
      exact hostCase (ToLower s1) ui h1 h2 r hui hui2 hh1 hh2 hcase hr (Or.inl hsch)

theorem setFragment_isNone (x y : URL) (f : GoString) :
    URL.setFragment x f = none ↔ URL.setFragment y f = none := by
  unfold URL.setFragment
  cases unescape f .encodeFragment with
  | none => simp
  | some frag =>
    simp only []
    split <;> simp

theorem Parse_isNone_variant (sp1 sp2 m1 m2 f : GoString) (hs : SchemeVariant sp1 sp2)
    (hm : HostVariant m1 m2) (hf : isFragmentPart f) :
    Url.Parse (sp1 ++ m1 ++ f) = none ↔ Url.Parse (sp2 ++ m2 ++ f) = none := by
  have h35 := not_mem_35_variant sp1 m1 sp2 m2 hs hm
  have hcut : ∀ a : GoString, 35 ∉ a → Cut 35 (a ++ f) = (a, (Cut 35 f).2.1, (Cut 35 f).2.2) := by
    intro a ha
    rw [Cut_append_left 35 a f ha]
    rcases hf with hf | hf
    · subst hf; simp [Cut]
    · cases f with
      | nil => simp at hf
      | cons c cs =>
        simp at hf; subst hf
        simp [Cut]
  unfold Url.Parse
  rw [hcut _ h35.1, hcut _ h35.2]
  simp only []
  have hp := parse_isNone_variant sp1 sp2 m1 m2 hs hm
  cases p1 : parse (sp1 ++ m1) with
  | none => rw [hp.mp p1]
  | some x1 =>
    cases p2 : parse (sp2 ++ m2) with
    | none => rw [hp.mpr p2] at p1; simp at p1
    | some x2 =>
      simp only []
      split
      · simp
      · exact setFragment_isNone x1 x2 _

end Crawl

/-! ### The visited set, the robots check, links, the product map and sitemaps -/

namespace Crawl

open Strings Url

theorem foldl_visitedURLs {α : Type} (f : Crawler → α → Crawler)
    (hf : ∀ c a, (f c a).visitedURLs = c.visitedURLs) (l : List α) (c : Crawler) :
    (l.foldl f c).visitedURLs = c.visitedURLs := by
  induction l generalizing c with
  | nil => rfl
  | cons a t ih => rw [List.foldl_cons, ih, hf]

theorem addSitemapTask_visitedURLs (task : Task) (c : Crawler) (u : GoString) :
    (Crawler.addSitemapTask task c u).visitedURLs = c.visitedURLs := by
  unfold Crawler.addSitemapTask
  split <;> rfl

theorem addLinkTask_visitedURLs (task : Task) (c : Crawler) (link : GoString) :
    (Crawler.addLinkTask task c link).visitedURLs = c.visitedURLs := rfl

theorem sitemapStep_visitedURLs (c : Crawler) (env : TaskEnv) (task : Task) :
    (Crawler.sitemapStep c env task).visitedURLs = c.visitedURLs := by
  unfold Crawler.sitemapStep
  split
  · split
    · exact foldl_visitedURLs _ (addSitemapTask_visitedURLs task) _ c
    · rfl
  · rfl

theorem fetchStep_visitedURLs (c : Crawler) (env : TaskEnv) (task : Task) (n : GoString) :
    (Crawler.fetchStep c env task n).1.visitedURLs = c.visitedURLs := by
  unfold Crawler.fetchStep
  split
  · rfl
  · rfl
  · split
    · rfl
    · split
      · exact foldl_visitedURLs _ (addLinkTask_visitedURLs task) _ c
      · rfl

theorem robotsStep_visitedURLs (c : Crawler) (env : TaskEnv) (task : Task) (n : GoString) :
    (Crawler.robotsStep c env task n).1.visitedURLs = c.visitedURLs := by
  unfold Crawler.robotsStep
  split
  · rfl
  · split
    · rfl
    · rw [fetchStep_visitedURLs, sitemapStep_visitedURLs]

/-- The visited set after `processTask`: unchanged, or with the normalized URL of the task
appended. -/
theorem processTask_visitedURLs (c : Crawler) (env : TaskEnv) (task : Task) :
    (c.processTask env task).1.visitedURLs = c.visitedURLs
      ∨ (c.processTask env task).1.visitedURLs = c.visitedURLs ++ [normalizeURL task.URL] := by
  unfold Crawler.processTask
  split
  · left; rfl
  · split
    · left; rfl
    · right
      rw [robotsStep_visitedURLs]

theorem processTask_visited_mono (c : Crawler) (env : TaskEnv) (task : Task) (n : GoString)
    (h : n ∈ c.visitedURLs) : n ∈ (c.processTask env task).1.visitedURLs := by
  rcases processTask_visitedURLs c env task with e | e
  · rw [e]; exact h
  · rw [e]; exact List.mem_append_left _ h

/-- A call of `processTask` with the context not cancelled leaves the normalized URL of its
task in the visited set. -/
theorem processTask_marks (c : Crawler) (env : TaskEnv) (task : Task)
    (hctx : env.ctxErr = false) :
    normalizeURL task.URL ∈ (c.processTask env task).1.visitedURLs := by
  unfold Crawler.processTask
  rw [hctx]
  simp only [Bool.false_eq_true, if_false]
  split
  · rename_i h
    simpa using h
  · rw [robotsStep_visitedURLs]
    simp

theorem runTasks_visited_mono (calls : List (TaskEnv × Task)) (c : Crawler) (n : GoString)
    (h : n ∈ c.visitedURLs) : n ∈ (c.runTasks calls).visitedURLs := by
  induction calls generalizing c with
  | nil => exact h
  | cons call rest ih =>
    unfold Crawler.runTasks
    rw [List.foldl_cons]
    exact ih _ (processTask_visited_mono c call.1 call.2 n h)

end Crawl

namespace Crawl

theorem wrapInt64_mul_Second_ne (d : Int) (h0 : 0 < d) (h1 : d < 2 ^ 63) :
    wrapInt64 (d * Second) ≠ d := by
  have e63 : (2 : Int) ^ 63 = 9223372036854775808 := by norm_num
  have e64 : (2 : Int) ^ 64 = 18446744073709551616 := by norm_num
  unfold wrapInt64 Second
  rw [e63] at h1
  rw [e63, e64]
  intro h
  have hx : (d * 1000000000 + 9223372036854775808) % 18446744073709551616
      = d + 9223372036854775808 := by linarith
  have hdvd := Int.dvd_sub_of_emod_eq hx
  have e : d * 1000000000 + 9223372036854775808 - (d + 9223372036854775808)
      = 999999999 * d := by ring
  rw [e] at hdvd
  have hg : Int.gcd 18446744073709551616 999999999 = 1 := by norm_num
  have hd := Int.dvd_of_dvd_mul_right_of_gcd_one hdvd hg
  have := Int.le_of_dvd h0 hd
  linarith

end Crawl

namespace Crawl

theorem FromStatusAndBytes_other (fromBytes : GoString → Except Unit RobotsData)
    (statusCode : Int) (body : GoString) (h : statusCode < 200 ∨ 300 ≤ statusCode) :
    FromStatusAndBytes fromBytes statusCode body = .ok allowAllData
      ∨ FromStatusAndBytes fromBytes statusCode body = .ok disallowAllData
      ∨ FromStatusAndBytes fromBytes statusCode body = .error () := by
  unfold FromStatusAndBytes
  rw [if_neg (by omega)]
  split
  · left; rfl
  · split
    · right; left; rfl
    · right; right; rfl

/-- A task that the robots check denies: `processTask` returns nil and only the visited set
changes, whatever the page and the sitemap would have been. -/
theorem processTask_robots_denied (c : Crawler) (env : TaskEnv) (task : Task) (delay : Int)
    (hctx : env.ctxErr = false) (hnew : normalizeURL task.URL ∉ c.visitedURLs)
    (hrobots : env.robots = .ok (false, delay)) :
    c.processTask env task
      = ({ c with visitedURLs := c.visitedURLs ++ [normalizeURL task.URL] }, none) := by
  unfold Crawler.processTask
  rw [hctx]
  simp only [Bool.false_eq_true, if_false]
  rw [if_neg (by simpa using hnew)]
  unfold Crawler.robotsStep
  rw [hrobots]
  rfl

end Crawl

namespace Crawl

open Strings Url

theorem firstOccurrences_subset (l : List GoString) : ∀ x ∈ firstOccurrences l, x ∈ l := by
  induction l with
  | nil => intro x hx; simp [firstOccurrences] at hx
  | cons a t ih =>
    intro x hx
    unfold firstOccurrences at hx
    rcases List.mem_cons.mp hx with e | e
    · rw [e]; simp
    · exact List.mem_cons_of_mem _ (ih x (List.mem_filter.mp e).1)

theorem firstOccurrences_nodup (l : List GoString) : (firstOccurrences l).Nodup := by
  induction l with
  | nil => simp [firstOccurrences]
  | cons a t ih =>
    unfold firstOccurrences
    rw [List.nodup_cons]
    constructor
    · intro h
      have := (List.mem_filter.mp h).2
      simp at this
    · exact ih.filter _

theorem filter_not_mem_append (acc l : List GoString) (n : GoString) :
    l.filter (fun y => !(acc ++ [n]).contains y)
      = (l.filter (fun y => y ≠ n)).filter (fun y => !acc.contains y) := by
  rw [List.filter_filter]
  apply List.filter_congr
  intro x _
  by_cases h1 : x ∈ acc <;> by_cases h2 : x = n <;> simp [h1, h2]

theorem filter_not_mem_of_mem (acc l : List GoString) (n : GoString) (hn : n ∈ acc) :
    (l.filter (fun y => y ≠ n)).filter (fun y => !acc.contains y)
      = l.filter (fun y => !acc.contains y) := by
  rw [List.filter_filter]
  apply List.filter_congr
  intro x _
  by_cases h2 : x = n
  · subst h2; simp [hn]
  · simp [h2]

theorem firstOccurrences_cons (x : GoString) (xs : List GoString) :
    firstOccurrences (x :: xs) = x :: (firstOccurrences xs).filter (fun y => y ≠ x) := rfl

/-- One round of the loop of `extractLinks`, in terms of `acceptedLink`. -/
theorem extractLoop_cons (base : URL) (done : Nat → Bool) (i : Nat) (s : Element)
    (rest : List Element) (st : List GoString × List GoString) :
    extractLoop base done i (s :: rest) st
      = if done i then st.1
        else match acceptedLink base s with
          | none => extractLoop base done (i + 1) rest st
          | some n =>
            if !st.2.contains n then extractLoop base done (i + 1) rest (st.1 ++ [n], n :: st.2)
            else extractLoop base done (i + 1) rest st := by
  rw [extractLoop]
  unfold acceptedLink
  split
  · rfl
  · cases s.attr "href" with
    | none => rfl
    | some href =>
      simp only []
      cases processLink base href with
      | error e => rfl
      | ok link => rfl

/-- The loop of `extractLinks`, when the context is not cancelled: the links gathered so
far, followed by the first occurrences among the remaining anchors of the accepted links
not gathered yet. -/
theorem extractLoop_eq (base : URL) (done : Nat → Bool) (hdone : ∀ i, done i = false)
    (anchors : List Element) :
    ∀ (i : Nat) (acc seen : List GoString), (∀ x, x ∈ seen ↔ x ∈ acc) →
      extractLoop base done i anchors (acc, seen)
        = acc ++ (firstOccurrences (anchors.filterMap (acceptedLink base))).filter
            (fun y => !acc.contains y) := by
  induction anchors with
  | nil =>
    intro i acc seen _
    simp [extractLoop, firstOccurrences]
  | cons s rest ih =>
    intro i acc seen hseen
    rw [extractLoop_cons, hdone i, List.filterMap_cons]
    simp only [Bool.false_eq_true, if_false]
    cases hlink : acceptedLink base s with
    | none =>
      simp only []
      exact ih (i + 1) acc seen hseen
    | some n =>
      simp only []
      rw [firstOccurrences_cons, List.filter_cons]
      by_cases hin : n ∈ seen
      · have hc : seen.contains n = true := by simpa using hin
        have hacc : n ∈ acc := (hseen _).mp hin
        have hc2 : acc.contains n = true := by simpa using hacc
        rw [hc, hc2]
        simp only [Bool.not_true, Bool.false_eq_true, if_false]
        rw [ih (i + 1) acc seen hseen, filter_not_mem_of_mem acc _ _ hacc]
      · have hc : seen.contains n = false := by simpa using hin
        have hacc : n ∉ acc := fun h => hin ((hseen _).mpr h)
        have hc2 : acc.contains n = false := by simpa using hacc
        have hseen2 : ∀ x, x ∈ n :: seen ↔ x ∈ acc ++ [n] := by
          intro x
          simp only [List.mem_cons, List.mem_append, List.mem_singleton, hseen x,
            List.not_mem_nil, or_false]
          exact or_comm
        rw [hc, hc2]
        simp only [Bool.not_false, if_true]
        rw [ih (i + 1) _ _ hseen2, filter_not_mem_append acc _ _, List.append_assoc]
        rfl

end Crawl

namespace Crawl

open Strings Url

theorem foldl_append_singleton (l acc : List GoString) :
    l.foldl (fun urlList url => urlList ++ [url]) acc = acc ++ l := by
  induction l generalizing acc with
  | nil => simp
  | cons a t ih => rw [List.foldl_cons, ih]; simp

theorem setEntry_new (result : List (GoString × List GoString)) (domain : GoString)
    (urlList : List GoString) (h : domain ∉ result.map (·.1)) :
    setEntry result domain urlList = result ++ [(domain, urlList)] := by
  induction result with
  | nil => rfl
  | cons kv t ih =>
    obtain ⟨d, l⟩ := kv
    simp only [List.map_cons, List.mem_cons, not_or] at h
    unfold setEntry
    rw [if_neg (fun e => h.1 e.symm), ih h.2]
    rfl

theorem ToJSON_aux (m result : DomainURLMap)
    (h : (result.map (·.1) ++ m.map (·.1)).Nodup) :
    m.foldl (fun result kv =>
        setEntry result kv.1 (kv.2.foldl (fun urlList url => urlList ++ [url]) [])) result
      = result ++ m := by
  induction m generalizing result with
  | nil => simp
  | cons kv t ih =>
    rw [List.foldl_cons, foldl_append_singleton, List.nil_append]
    have hnew : kv.1 ∉ result.map (·.1) := by
      intro hk
      rw [List.nodup_append] at h
      exact h.2.2 hk (by simp)
    rw [setEntry_new _ _ _ hnew, ih]
    · simp
    · simpa using h

/-- On a map with each domain stored once, `ToJSON` lists the entries of the map. -/
theorem ToJSON_eq (m : DomainURLMap) (h : (m.map (·.1)).Nodup) : m.ToJSON = m := by
  unfold DomainURLMap.ToJSON
  rw [ToJSON_aux m [] (by simpa using h)]
  rfl

theorem Add_keys (m : DomainURLMap) (domain url : GoString) :
    (m.Add domain url).map (·.1)
      = if domain ∈ m.map (·.1) then m.map (·.1) else m.map (·.1) ++ [domain] := by
  induction m with
  | nil => simp [DomainURLMap.Add]
  | cons kv t ih =>
    obtain ⟨d, urls⟩ := kv
    unfold DomainURLMap.Add
    by_cases hd : d = domain
    · rw [if_pos hd]
      simp [hd]
    · rw [if_neg hd]
      simp only [List.map_cons, ih, List.mem_cons]
      have hd2 : ¬ domain = d := fun e => hd e.symm
      by_cases hin : domain ∈ t.map (·.1)
      · simp [hin]
      · simp [hin, hd2]

theorem Add_keys_nodup (m : DomainURLMap) (domain url : GoString)
    (h : (m.map (·.1)).Nodup) : ((m.Add domain url).map (·.1)).Nodup := by
  rw [Add_keys]
  split
  · exact h
  · rename_i hin
    rw [List.nodup_append]
    exact ⟨h, by simp, by
      intro a ha hb
      rw [List.mem_singleton] at hb
      subst hb
      exact hin ha⟩

/-- An entry of a map after `Add`: an old entry of another domain, the entry of the domain
with the URL joined to its list, or a new entry for the domain. -/
theorem mem_Add (m : DomainURLMap) (domain url d : GoString) (urls : List GoString)
    (hk : (m.map (·.1)).Nodup) (h : (d, urls) ∈ m.Add domain url) :
    ((d, urls) ∈ m ∧ d ≠ domain)
      ∨ (d = domain ∧ ∃ old, (domain, old) ∈ m
          ∧ urls = if old.contains url then old else old ++ [url])
      ∨ (d = domain ∧ domain ∉ m.map (·.1) ∧ urls = [url]) := by
  induction m with
  | nil =>
    simp only [DomainURLMap.Add, List.mem_singleton, Prod.mk.injEq] at h
    right; right
    exact ⟨h.1, by simp, h.2⟩
  | cons kv t ih =>
    obtain ⟨d0, l0⟩ := kv
    simp only [List.map_cons, List.nodup_cons] at hk
    unfold DomainURLMap.Add at h
    by_cases hd : d0 = domain
    · rw [if_pos hd] at h
      rcases List.mem_cons.mp h with e | e
      · simp only [Prod.mk.injEq] at e
        right; left
        exact ⟨e.1.trans hd, l0, by simp [hd], e.2⟩
      · left
        refine ⟨List.mem_cons_of_mem _ e, fun hdd => hk.1 ?_⟩
        rw [hd, ← hdd]
        exact List.mem_map_of_mem (·.1) e
    · rw [if_neg hd] at h
      rcases List.mem_cons.mp h with e | e
      · simp only [Prod.mk.injEq] at e
        left
        exact ⟨by simp [e.1, e.2], by rw [e.1]; exact hd⟩
      · rcases ih hk.2 e with ⟨h1, h2⟩ | ⟨h1, old, h2, h3⟩ | ⟨h1, h2, h3⟩
        · left; exact ⟨List.mem_cons_of_mem _ h1, h2⟩
        · right; left; exact ⟨h1, old, List.mem_cons_of_mem _ h2, h3⟩
        · right; right
          refine ⟨h1, ?_, h3⟩
          simp only [List.map_cons, List.mem_cons, not_or]
          exact ⟨fun e => hd e.symm, h2⟩

theorem Add_Add (m : DomainURLMap) (domain url : GoString) :
    (m.Add domain url).Add domain url = m.Add domain url := by
  induction m with
  | nil => simp [DomainURLMap.Add]
  | cons kv t ih =>
    obtain ⟨d0, l0⟩ := kv
    by_cases hd : d0 = domain
    · simp only [DomainURLMap.Add, if_pos hd]
      by_cases hc : l0.contains url = true
      · have hc1 : url ∈ l0 := by simpa using hc
        simp [hc1]
      · have hc2 : url ∉ l0 := by simpa using hc
        simp [hc2]
    · simp only [DomainURLMap.Add, if_neg hd, ih]

/-- What a map built by `Add` calls holds, with respect to the calls made. -/
theorem Add_invariant (m : DomainURLMap) (calls : List (GoString × GoString))
    (domain url : GoString)
    (hk : (m.map (·.1)).Nodup)
    (hd : ∀ d, d ∈ m.map (·.1) ↔ ∃ u, (d, u) ∈ calls)
    (hu : ∀ d urls, (d, urls) ∈ m → urls.Nodup ∧ ∀ u, u ∈ urls ↔ (d, u) ∈ calls) :
    ((m.Add domain url).map (·.1)).Nodup
      ∧ (∀ d, d ∈ (m.Add domain url).map (·.1) ↔ ∃ u, (d, u) ∈ calls ++ [(domain, url)])
      ∧ (∀ d urls, (d, urls) ∈ m.Add domain url →
          urls.Nodup ∧ ∀ u, u ∈ urls ↔ (d, u) ∈ calls ++ [(domain, url)]) := by
  refine ⟨Add_keys_nodup m domain url hk, ?_, ?_⟩
  · intro d
    rw [Add_keys]
    split
    · rename_i hin
      rw [hd]
      constructor
      · rintro ⟨u, hu2⟩
        exact ⟨u, List.mem_append_left _ hu2⟩
      · rintro ⟨u, hu2⟩
        rcases List.mem_append.mp hu2 with h | h
        · exact ⟨u, h⟩
        · simp only [List.mem_singleton, Prod.mk.injEq] at h
          rw [h.1]
          exact (hd domain).mp hin
    · rw [List.mem_append, hd]
      constructor
      · rintro (⟨u, hu2⟩ | h)
        · exact ⟨u, List.mem_append_left _ hu2⟩
        · rw [List.mem_singleton] at h
          exact ⟨url, by simp [h]⟩
      · rintro ⟨u, hu2⟩
        rcases List.mem_append.mp hu2 with h | h
        · exact Or.inl ⟨u, h⟩
        · simp only [List.mem_singleton, Prod.mk.injEq] at h
          exact Or.inr (by simp [h.1])
  · intro d urls hmem
    rcases mem_Add m domain url d urls hk hmem with ⟨h1, h2⟩ | ⟨h1, old, h2, h3⟩ | ⟨h1, h2, h3⟩
    · refine ⟨(hu d urls h1).1, fun u => ?_⟩
      rw [(hu d urls h1).2 u]
      simp [h2]
    · subst h1
      have hold := hu d old h2
      by_cases hc : old.contains url = true
      · rw [if_pos hc] at h3
        subst h3
        refine ⟨hold.1, fun u => ?_⟩
        rw [hold.2 u]
        have : (d, url) ∈ calls := (hold.2 url).mp (by simpa using hc)
        constructor
        · exact fun h => List.mem_append_left _ h
        · intro h
          rcases List.mem_append.mp h with h | h
          · exact h
          · simp only [List.mem_singleton, Prod.mk.injEq] at h
            rw [h.2]; exact this
      · rw [if_neg hc] at h3
        subst h3
        have hnot : url ∉ old := by simpa using hc
        refine ⟨?_, fun u => ?_⟩
        · rw [List.nodup_append]
          exact ⟨hold.1, by simp, by
            intro a ha hb
            rw [List.mem_singleton] at hb
            subst hb
            exact hnot ha⟩
        · simp only [List.mem_append, List.mem_singleton, Prod.mk.injEq, true_and]
          rw [hold.2 u]
    · subst h1
      subst h3
      have hnone : ∀ u, (d, u) ∉ calls := fun u h => h2 ((hd d).mpr ⟨u, h⟩)
      refine ⟨by simp, fun u => ?_⟩
      simp only [List.mem_singleton, List.mem_append, Prod.mk.injEq, true_and]
      constructor
      · exact fun h => Or.inr h
      · rintro (h | h)
        · exact absurd h (hnone u)
        · exact h

theorem addAll_invariant (calls : List (GoString × GoString)) :
    ∀ (m : DomainURLMap) (pre : List (GoString × GoString)),
      (m.map (·.1)).Nodup →
      (∀ d, d ∈ m.map (·.1) ↔ ∃ u, (d, u) ∈ pre) →
      (∀ d urls, (d, urls) ∈ m → urls.Nodup ∧ ∀ u, u ∈ urls ↔ (d, u) ∈ pre) →
      ((calls.foldl (fun m call => m.Add call.1 call.2) m).map (·.1)).Nodup
        ∧ (∀ d, d ∈ (calls.foldl (fun m call => m.Add call.1 call.2) m).map (·.1)
            ↔ ∃ u, (d, u) ∈ pre ++ calls)
        ∧ (∀ d urls, (d, urls) ∈ calls.foldl (fun m call => m.Add call.1 call.2) m →
            urls.Nodup ∧ ∀ u, u ∈ urls ↔ (d, u) ∈ pre ++ calls) := by
  induction calls with
  | nil =>
    intro m pre hk hd hu
    rw [List.foldl_nil, List.append_nil]
    exact ⟨hk, hd, hu⟩
  | cons call rest ih =>
    intro m pre hk hd hu
    obtain ⟨h1, h2, h3⟩ := Add_invariant m pre call.1 call.2 hk hd hu
    have := ih (m.Add call.1 call.2) (pre ++ [(call.1, call.2)]) h1 h2 h3
    rw [List.append_assoc] at this
    exact this

end Crawl

namespace Strings

theorem Contains_nil (s : GoString) : Contains s [] = true := by
  cases s <;> simp [Contains, List.isPrefixOf]

theorem Contains_append_right (s sub t : GoString) (h : Contains s sub = true) :
    Contains (s ++ t) sub = true := by
  induction s with
  | nil =>
    cases sub with
    | nil => exact Contains_nil _
    | cons a sub2 => simp [Contains] at h
  | cons c cs ih =>
    rw [List.cons_append, Contains]
    rw [Contains] at h
    simp only [Bool.or_eq_true] at h ⊢
    rcases h with h | h
    · left
      rw [List.isPrefixOf_iff_prefix] at h ⊢
      exact h.trans (List.prefix_append _ _)
    · right; exact ih h

theorem Contains_append_left (s sub t : GoString) (h : Contains s sub = true) :
    Contains (t ++ s) sub = true := by
  induction t with
  | nil => exact h
  | cons c cs ih =>
    rw [List.cons_append, Contains, ih]
    simp

/-- A string that contains `a ++ sub ++ b` contains `sub`. -/
theorem Contains_of_Contains_append (s a sub b : GoString)
    (h : Contains s (a ++ sub ++ b) = true) : Contains s sub = true := by
  induction s with
  | nil =>
    cases a with
    | nil =>
      cases sub with
      | nil => rfl
      | cons x xs => simp [Contains] at h
    | cons x xs => simp [Contains] at h
  | cons c cs ih =>
    rw [Contains] at h
    simp only [Bool.or_eq_true] at h
    rcases h with h | h
    · rw [List.isPrefixOf_iff_prefix] at h
      obtain ⟨t, ht⟩ := h
      rw [← ht]
      have e : a ++ sub ++ b ++ t = a ++ (sub ++ (b ++ t)) := by simp
      rw [e]
      apply Contains_append_left
      apply Contains_append_right
      clear e ht ih
      induction sub with
      | nil => rfl
      | cons x xs _ => simp [Contains, List.isPrefixOf]
    · rw [Contains, ih h]
      simp

end Strings

namespace Crawl

open Strings

theorem isProductSitemap_of_sitemap (url : GoString)
    (h : Contains (ToLower url) (bytes "sitemap") = true) : isProductSitemap url = true := by
  have e : bytes "sitemap" = bytes "s" ++ bytes "item" ++ bytes "ap" := by decide
  rw [e] at h
  unfold isProductSitemap
  rw [Contains_of_Contains_append _ _ _ _ h]
  simp

theorem isProductSitemap_candidate (domain : GoString) :
    ∀ u ∈ sitemapCandidates domain, isProductSitemap u = true := by
  intro u hu
  apply isProductSitemap_of_sitemap
  unfold sitemapCandidates at hu
  simp only [List.mem_cons, List.mem_singleton, List.not_mem_nil, or_false] at hu
  rcases hu with e | e | e <;> subst e <;> rw [ToLower_append] <;>
    exact Contains_append_left _ _ _ (by decide)

end Crawl

namespace Crawl

open Strings Url

theorem ToLower_ne_nil (s : GoString) (h : s ≠ []) : ToLower s ≠ [] := by
  intro e
  unfold ToLower at e
  exact h (List.map_eq_nil_iff.mp e)

theorem normalizeParsed_root_empty (u : URL) (hs : u.Scheme ≠ []) (ho : u.Opaque = [])
    (hh : u.Host ≠ []) (hq : u.RawQuery = []) (hp : u.Path = []) (hrp : u.RawPath = []) :
    normalizeParsed u = rootText u ++ bytes "/." := by
  have hs2 := ToLower_ne_nil _ hs
  have hh2 := ToLower_ne_nil _ hh
  have e1 : TrimSuffix (Filepath.Clean []) [47] = [46] := by decide
  have e2 : ReplaceAllByte [46] 92 47 = [46] := by decide
  have e3 : escape [46] .encodePath = [46] := by decide
  have e4 : bytes "/." = [47, 46] := by decide
  unfold normalizeParsed rootText uiPart
  simp only [hq, hp, if_true, ne_eq, not_true_eq_false, if_false, e1, e2]
  unfold URL.String URL.hierPart URL.EscapedPath
  simp only [hs2, hh2, ho, hrp, hq, e3, e4, ne_eq, not_true_eq_false, not_false_eq_true,
    if_true, if_false, true_or, or_true, false_and, and_false, and_true, true_and]
  simp

theorem normalizeParsed_root_slash (u : URL) (hs : u.Scheme ≠ []) (ho : u.Opaque = [])
    (hh : u.Host ≠ []) (hq : u.RawQuery = []) (hp : u.Path = [47]) (hrp : u.RawPath = []) :
    normalizeParsed u = rootText u := by
  have hs2 := ToLower_ne_nil _ hs
  have hh2 := ToLower_ne_nil _ hh
  have e1 : TrimSuffix (Filepath.Clean [47]) [47] = [] := by decide
  have e2 : ReplaceAllByte [] 92 47 = [] := by decide
  have e3 : escape [] .encodePath = [] := by decide
  unfold normalizeParsed rootText uiPart
  simp only [hq, hp, if_true, ne_eq, not_true_eq_false, if_false, e1, e2]
  unfold URL.String URL.hierPart URL.EscapedPath
  simp only [hs2, hh2, ho, hrp, hq, e3, ne_eq, not_true_eq_false, not_false_eq_true,
    if_true, if_false, true_or, or_true, false_and, and_false, and_true, true_and]
  simp

/-- How `url.Parse` reads a URL made of a scheme and an authority, without a path or with
the path `/`. -/
theorem Parse_root (sch ui h : GoString) (hs : isScheme sch = true)
    (hui : ui = [] ∨ ∃ ui0, ui = ui0 ++ [64]) (hui2 : 47 ∉ ui ∧ 63 ∉ ui ∧ 35 ∉ ui)
    (hh : 47 ∉ h ∧ 63 ∉ h ∧ 35 ∉ h ∧ 64 ∉ h) (u : URL)
    (hparse : Url.Parse (sch ++ 58 :: (bytes "//" ++ ui ++ h)) = some u) :
    ∃ host user, parseHost h = some host ∧ userPart ui = some user
      ∧ u = { Scheme := ToLower sch, User := user, Host := host }
      ∧ Url.Parse (sch ++ 58 :: (bytes "//" ++ ui ++ h) ++ [47])
          = some { Scheme := ToLower sch, User := user, Host := host, Path := [47] } := by
  have hsne : sch ≠ [] := by
    intro e; subst e; simp [isScheme] at hs
  have hlne : ToLower sch ≠ [] := ToLower_ne_nil _ hsne
  have h35s := not_mem_of_isScheme sch hs 35 (by decide)
  have h35 : 35 ∉ sch ++ 58 :: (bytes "//" ++ ui ++ h) := by
    rw [bytes_slash2]
    simp [h35s, hui2.2.2, hh.2.2.1]
  have h35b : 35 ∉ sch ++ 58 :: (bytes "//" ++ ui ++ h) ++ [47] := by
    intro hm
    rcases List.mem_append.mp hm with e | e
    · exact h35 e
    · simp at e
  have hstar : ∀ t : GoString, sch ++ 58 :: t ≠ [42] := by
    intro t e
    have := congrArg List.length e
    have hl : 0 < sch.length := List.length_pos.mpr hsne
    simp at this
    omega
  -- the URL without a path
  unfold Url.Parse at hparse
  rw [Cut_of_not_mem 35 _ h35] at hparse
  simp only [] at hparse
  cases hp : parse (sch ++ 58 :: (bytes "//" ++ ui ++ h)) with
  | none => rw [hp] at hparse; simp at hparse
  | some x =>
    rw [hp] at hparse
    simp only [if_true, Option.some.injEq] at hparse
    subst hparse
    have hctl : stringContainsCTLByte (sch ++ 58 :: (bytes "//" ++ ui ++ h)) = false := by
      unfold parse at hp
      by_contra hc
      rw [if_pos (by simpa using hc)] at hp
      exact Option.noConfusion hp
    have hpa := parse_eq_parseAfterScheme _ sch _ x (hstar _) (getScheme_scheme sch _ hs) hp
    have hauth := parseAfterScheme_authority (ToLower sch) ui h [] hui hui2 hh (Or.inl rfl)
      (Or.inl hlne)
    rw [List.append_nil] at hauth
    rw [hauth] at hpa
    have hauth2 := parseAfterScheme_authority (ToLower sch) ui h [47] hui hui2 hh
      (Or.inr (Or.inl rfl)) (Or.inl hlne)
    cases hph : parseHost h with
    | none => rw [hph] at hpa; simp at hpa
    | some host =>
      cases hup : userPart ui with
      | none => rw [hph, hup] at hpa; simp at hpa
      | some user =>
        rw [hph, hup] at hpa hauth2
        simp only [] at hpa hauth2
        have sq0 : splitQuery [] = ([], false, []) := by decide
        have sq1 : splitQuery [47] = ([47], false, []) := by decide
        have un0 : unescape [] .encodePath = some [] := by decide
        have un1 : unescape [47] .encodePath = some [47] := by decide
        have es0 : escape [] .encodePath = [] := by decide
        have es1 : escape [47] .encodePath = [47] := by decide
        rw [sq0] at hpa
        rw [sq1] at hauth2
        simp only [URL.setPath, un0, un1, es0, es1, if_true, Option.some.injEq] at hpa hauth2
        refine ⟨host, user, rfl, rfl, hpa.symm, ?_⟩
        unfold Url.Parse
        rw [Cut_of_not_mem 35 _ h35b]
        simp only [if_true]
        have hctl2 : stringContainsCTLByte (sch ++ 58 :: (bytes "//" ++ ui ++ h) ++ [47])
            = false := by
          unfold stringContainsCTLByte at hctl ⊢
          rw [List.any_append, hctl]
          decide
        have e : sch ++ 58 :: (bytes "//" ++ ui ++ h) ++ [47]
            = sch ++ 58 :: (bytes "//" ++ ui ++ h ++ [47]) := by simp
        unfold parse
        rw [hctl2]
        simp only [Bool.false_eq_true, if_false]
        rw [e, if_neg (hstar _), getScheme_scheme sch _ hs]
        simp only []
        rw [hauth2]

end Crawl

/-! ### Hosts that are written out and read back -/

namespace Url

open Strings Url Crawl Goquery Workerpool

theorem unhex_upperhex (i : Nat) (h : i < 16) : unhex (upperhex i) = i := by
  unfold unhex upperhex
  split_ifs <;> omega

theorem unescapeDecode_cons_pct (mode : Encoding) (a b : Nat) (tail : GoString) :
    unescapeDecode mode (37 :: a :: b :: tail)
      = (16 * unhex a + unhex b) :: unescapeDecode mode tail := by
  rw [unescapeDecode]
  simp

theorem unescapeDecode_cons_raw (mode : Encoding) (c : Nat) (tail : GoString) (hc : c ≠ 37)
    (hm : mode ≠ .encodeQueryComponent) :
    unescapeDecode mode (c :: tail) = c :: unescapeDecode mode tail := by
  cases tail with
  | nil =>
    by_cases h43 : c = 43
    · simp [unescapeDecode, h43, hm]
    · simp [unescapeDecode, hc, h43]
  | cons a t1 =>
    cases t1 with
    | nil =>
      by_cases h43 : c = 43
      · simp [unescapeDecode, h43, hm]
      · simp [unescapeDecode, hc, h43]
    | cons b t2 =>
      rw [unescapeDecode]
      by_cases h43 : c = 43
      · simp [h43, hm]
      · simp [hc, h43]

/-- What the byte `c` of a host becomes when it is written by `escape` and read by
`unescape`. -/
theorem unescapeDecode_escapeByte (c : Nat) (tail : GoString) :
    unescapeDecode .encodeHost (escapeByte .encodeHost c ++ tail)
      = (if shouldEscape c .encodeHost = true then c % 256 else c)
          :: unescapeDecode .encodeHost tail := by
  unfold escapeByte
  rw [if_neg (by simp)]
  by_cases hse : shouldEscape c .encodeHost = true
  · rw [if_pos hse, if_pos hse]
    rw [show ([37, upperhex (c / 16 % 16), upperhex (c % 16)] : GoString) ++ tail
          = 37 :: upperhex (c / 16 % 16) :: upperhex (c % 16) :: tail from rfl]
    rw [unescapeDecode_cons_pct, unhex_upperhex _ (Nat.mod_lt _ (by omega)),
      unhex_upperhex _ (Nat.mod_lt _ (by omega))]
    congr 1
    omega
  · rw [if_neg hse, if_neg hse, List.singleton_append]
    have hc : c ≠ 37 := by
      intro e
      rw [e, shouldEscape_pct] at hse
      exact hse rfl
    exact unescapeDecode_cons_raw _ c tail hc (by decide)

theorem unescapeDecode_escape_host (s : GoString) :
    unescapeDecode .encodeHost (escape s .encodeHost)
      = s.map (fun c => if shouldEscape c .encodeHost = true then c % 256 else c) := by
  induction s with
  | nil => rfl
  | cons c cs ih =>
    rw [escape_cons, unescapeDecode_escapeByte, ih, List.map_cons]

/-- A host of bytes is read back from what `escape` writes for it. -/
theorem unescapeDecode_escape_bytes (s : GoString) (hs : ∀ c ∈ s, c < 256) :
    unescapeDecode .encodeHost (escape s .encodeHost) = s := by
  rw [unescapeDecode_escape_host]
  induction s with
  | nil => rfl
  | cons c cs ih =>
    rw [List.map_cons, ih (fun x hx => hs x (List.mem_cons_of_mem _ hx))]
    have := hs c (by simp)
    split
    · rw [Nat.mod_eq_of_lt this]
    · rfl

theorem unescapeDecode_escape_ToLower (s : GoString)
    (h : unescapeDecode .encodeHost (escape s .encodeHost) = s) :
    unescapeDecode .encodeHost (escape (ToLower s) .encodeHost) = ToLower s := by
  rw [unescapeDecode_escape_host] at h ⊢
  induction s with
  | nil => rfl
  | cons c cs ih =>
    rw [List.map_cons] at h
    injection h with h1 h2
    rw [ToLower_cons, List.map_cons, ih h2]
    congr 1
    rw [shouldEscape_lowerByte]
    split
    · rename_i hse
      rw [if_pos hse] at h1
      have : lowerByte c = c := by
        unfold lowerByte
        split
        · rename_i hu
          exfalso
          have key : ∀ c, c < 128 → (65 ≤ c ∧ c ≤ 90) → shouldEscape c .encodeHost = false := by
            decide
          rw [key c (by omega) hu] at hse
          exact Bool.noConfusion hse
        · rfl
      rw [this]; exact h1
    · rfl

theorem unescapeDecode_mode_aux (m1 m2 : Encoding) (h1 : m1 ≠ .encodeQueryComponent)
    (h2 : m2 ≠ .encodeQueryComponent) (n : Nat) :
    ∀ s : GoString, s.length ≤ n → unescapeDecode m1 s = unescapeDecode m2 s := by
  induction n with
  | zero =>
    intro s hs
    have : s = [] := List.length_eq_zero.mp (Nat.le_zero.mp hs)
    subst this; rfl
  | succ n ih =>
    intro s hs
    cases s with
    | nil => rfl
    | cons c rest =>
      by_cases hc : c = 37
      · subst hc
        cases rest with
        | nil => simp [unescapeDecode]
        | cons a r1 =>
          cases r1 with
          | nil => simp [unescapeDecode]
          | cons b r2 =>
            rw [unescapeDecode_cons_pct, unescapeDecode_cons_pct]
            rw [ih r2 (by simp at hs; omega)]
      · rw [unescapeDecode_cons_raw _ c rest hc h1, unescapeDecode_cons_raw _ c rest hc h2]
        rw [ih rest (by simp at hs; omega)]

theorem unescapeDecode_mode (m1 m2 : Encoding) (h1 : m1 ≠ .encodeQueryComponent)
    (h2 : m2 ≠ .encodeQueryComponent) (s : GoString) :
    unescapeDecode m1 s = unescapeDecode m2 s :=
  unescapeDecode_mode_aux m1 m2 h1 h2 s.length s (Nat.le_refl _)

theorem unescapeValid_tail (mode : Encoding) (c : Nat) (rest : GoString) (hc : c ≠ 37)
    (h : unescapeValid mode (c :: rest) = true) : unescapeValid mode rest = true := by
  cases rest with
  | nil => rfl
  | cons a r1 =>
    cases r1 with
    | nil =>
      simp only [unescapeValid, hc, if_false] at h
      split at h
      · simpa [unescapeValid] using h
      · split at h
        · exact Bool.noConfusion h
        · simpa [unescapeValid] using h
    | cons b r2 =>
      rw [unescapeValid] at h
      simp only [hc, if_false] at h
      split at h
      · exact h
      · split at h
        · exact Bool.noConfusion h
        · exact h

theorem unescapeValid_pct_tail (mode : Encoding) (a b : Nat) (rest : GoString)
    (h : unescapeValid mode (37 :: a :: b :: rest) = true) : unescapeValid mode rest = true := by
  rw [unescapeValid] at h
  simp only [if_true] at h
  split at h
  · exact Bool.noConfusion h
  · split at h
    · exact Bool.noConfusion h
    · split at h
      · exact Bool.noConfusion h
      · exact h

theorem unescapeDecode_append_aux (m0 mode : Encoding) (hm : mode ≠ .encodeQueryComponent)
    (n : Nat) :
    ∀ a b : GoString, a.length ≤ n → unescapeValid m0 a = true →
      unescapeDecode mode (a ++ b) = unescapeDecode mode a ++ unescapeDecode mode b := by
  induction n with
  | zero =>
    intro a b ha _
    have : a = [] := List.length_eq_zero.mp (Nat.le_zero.mp ha)
    subst this; rfl
  | succ n ih =>
    intro a b ha hv
    cases a with
    | nil => rfl
    | cons c rest =>
      by_cases hc : c = 37
      · subst hc
        cases rest with
        | nil => simp [unescapeValid] at hv
        | cons x r1 =>
          cases r1 with
          | nil => simp [unescapeValid] at hv
          | cons y r2 =>
            rw [show (37 :: x :: y :: r2) ++ b = 37 :: x :: y :: (r2 ++ b) from rfl]
            rw [unescapeDecode_cons_pct, unescapeDecode_cons_pct]
            rw [ih r2 b (by simp at ha; omega) (unescapeValid_pct_tail _ _ _ _ hv)]
            rfl
      · rw [List.cons_append, unescapeDecode_cons_raw _ c _ hc hm,
          unescapeDecode_cons_raw _ c _ hc hm]
        rw [ih rest b (by simp at ha; omega) (unescapeValid_tail _ c rest hc hv)]
        rfl

theorem unescapeDecode_append (m0 mode : Encoding) (hm : mode ≠ .encodeQueryComponent)
    (a b : GoString) (hv : unescapeValid m0 a = true) :
    unescapeDecode mode (a ++ b) = unescapeDecode mode a ++ unescapeDecode mode b :=
  unescapeDecode_append_aux m0 mode hm a.length a b (Nat.le_refl _) hv

theorem unescape_some (s w : GoString) (mode : Encoding) (h : unescape s mode = some w) :
    unescapeValid mode s = true ∧ w = unescapeDecode mode s := by
  unfold unescape at h
  split at h
  · rename_i hv
    simp only [Option.some.injEq] at h
    exact ⟨hv, h.symm⟩
  · exact Option.noConfusion h

end Url

namespace Strings

open Strings Url Crawl Goquery Workerpool

theorem Index_le_length (sub : GoString) (s : GoString) (k : Nat)
    (h : Index sub s = some k) : k ≤ s.length := by
  induction s generalizing k with
  | nil =>
    unfold Index at h
    split at h
    · simp only [Option.some.injEq] at h
      rw [← h]; exact Nat.le_refl _
    · exact Option.noConfusion h
  | cons c cs ih =>
    unfold Index at h
    split at h
    · simp only [Option.some.injEq] at h
      rw [← h]; exact Nat.zero_le _
    · cases hi : Index sub cs with
      | none => rw [hi] at h; simp at h
      | some j =>
        rw [hi] at h
        simp only [Option.map_some', Option.some.injEq] at h
        have := ih j hi
        rw [← h]
        simp only [List.length_cons]
        omega

end Strings

namespace Url

open Strings Url Crawl Goquery Workerpool

/-- The host `parseHost` returns is the unescaped text of the host. -/
theorem parseHost_some_eq (z w : GoString) (h : parseHost z = some w) :
    w = unescapeDecode .encodeHost z := by
  unfold parseHost at h
  simp only [] at h
  split at h
  · split at h
    · exact Option.noConfusion h
    · rename_i i hi
      split at h
      · exact Option.noConfusion h
      · split at h
        · rename_i zone hz
          split at h
          · exact Option.noConfusion h
          · rename_i host1 h1
            split at h
            · exact Option.noConfusion h
            · rename_i host2 h2
              split at h
              · exact Option.noConfusion h
              · rename_i host3 h3
                simp only [Option.some.injEq] at h
                obtain ⟨v1, e1⟩ := unescape_some _ _ _ h1
                obtain ⟨v2, e2⟩ := unescape_some _ _ _ h2
                obtain ⟨_, e3⟩ := unescape_some _ _ _ h3
                have hle : zone ≤ i := by
                  have := Index_le_length _ _ _ hz
                  rw [List.length_take] at this
                  omega
                have hsplit : z = z.take zone ++ ((z.take i).drop zone ++ z.drop i) := by
                  have a1 : z.take zone = (z.take i).take zone := by
                    rw [List.take_take, Nat.min_eq_left hle]
                  rw [a1, ← List.append_assoc, List.take_append_drop, List.take_append_drop]
                rw [← h, e1, e2, e3]
                rw [unescapeDecode_mode .encodeZone .encodeHost (by decide) (by decide)]
                conv => rhs; rw [hsplit]
                rw [unescapeDecode_append .encodeHost .encodeHost (by decide) _ _ v1,
                  unescapeDecode_append .encodeZone .encodeHost (by decide) _ _ v2,
                  List.append_assoc]
        · exact (unescape_some _ _ _ h).2
  · split at h
    · split at h
      · exact Option.noConfusion h
      · exact (unescape_some _ _ _ h).2
    · exact (unescape_some _ _ _ h).2

end Url

namespace Url

open Strings Url Crawl Goquery Workerpool

/-- The text `escape` writes for a host holds no `/`, `?`, `#`, `@` and no control byte. -/
theorem escape_host_bytes (H : GoString) :
    ∀ x ∈ escape H .encodeHost,
      x ≠ 47 ∧ x ≠ 63 ∧ x ≠ 35 ∧ x ≠ 64 ∧ ¬ (x < 32 ∨ x = 0x7f) := by
  intro x hx
  rcases mem_escape H .encodeHost x hx with e | e | e | ⟨_, e⟩
  · subst e; decide
  · subst e; decide
  · unfold isUpperHex at e; omega
  · have hlt : x < 128 := by
      by_contra hge
      rw [shouldEscape_high x (by omega)] at e
      exact Bool.noConfusion e
    have key : ∀ x, x < 128 → shouldEscape x .encodeHost = false →
        x ≠ 47 ∧ x ≠ 63 ∧ x ≠ 35 ∧ x ≠ 64 ∧ ¬ (x < 32 ∨ x = 0x7f) := by
      decide
    exact key x hlt e

theorem escape_ne_nil (H : GoString) (mode : Encoding) (h : H ≠ []) : escape H mode ≠ [] := by
  cases H with
  | nil => exact absurd rfl h
  | cons c cs =>
    rw [escape_cons]
    unfold escapeByte
    split
    · simp
    · split <;> simp

/-- What `URL.String` writes for a URL with a host, without opaque part and fragment. -/
theorem String_eq_hostParts (u : URL) (ho : u.Opaque = []) (hh : u.Host ≠ [])
    (hf : u.Fragment = []) :
    URL.String u
      = (if u.Scheme ≠ [] then u.Scheme ++ [58] else [])
          ++ (bytes "//" ++ uiPart u.User ++ escape u.Host .encodeHost
          ++ (pathPart u ++ (if u.ForceQuery = true ∨ u.RawQuery ≠ [] then 63 :: u.RawQuery
                else []))) := by
  unfold URL.String URL.hierPart pathPart uiPart
  simp only [ho, hh, hf, ne_eq, not_true_eq_false, not_false_eq_true, if_true, if_false,
    true_or, or_true, false_and, and_false, and_true]
  have hlen : ∀ sp : GoString, ¬ ((sp ++ (bytes "//" ++
      (match u.User with
        | some ui => Userinfo.String ui ++ [64]
        | none => []) ++ escape u.Host .encodeHost)).length = 0) := by
    intro sp; simp [bytes_slash2]
  have hb2 : ¬ bytes "//" = [] := by decide
  by_cases hp : ¬ URL.EscapedPath u = [] ∧ ¬ (URL.EscapedPath u).head? = some 47
  · by_cases hq : u.ForceQuery = true ∨ ¬ u.RawQuery = []
    · simp [hq, hp, hlen, hb2]
    · simp [hq, hp, hlen, hb2]
  · by_cases hq : u.ForceQuery = true ∨ ¬ u.RawQuery = []
    · simp [hq, hp, hlen, hb2]
    · simp [hq, hp, hlen, hb2]

end Url

namespace Url

open Strings Url Crawl Goquery Workerpool

theorem isScheme_bytes (s : GoString) (hs : isScheme s = true) :
    ∀ x ∈ s, isQueryByte x ∧ x ≠ 47 := by
  intro x hx
  have hb : isSchemeByte x = true := by
    by_contra hn
    have : isSchemeByte x = false := by simpa using hn
    exact not_mem_of_isScheme s hs x this hx
  unfold isSchemeByte isLetter at hb
  simp only [Bool.or_eq_true, Bool.and_eq_true, decide_eq_true_eq] at hb
  unfold isQueryByte
  omega

/-- How `url.Parse` reads what `URL.String` wrote for a URL with a host: it parses the
escaped host, and gives back the scheme. -/
theorem Parse_String_host (u : URL)
    (hs : u.Scheme = [] ∨ (isScheme u.Scheme = true ∧ ToLower u.Scheme = u.Scheme))
    (ho : u.Opaque = []) (hh : u.Host ≠ []) (hf : u.Fragment = [])
    (hq : ∀ x ∈ u.RawQuery, isQueryByte x) :
    (∀ H, parseHost (escape u.Host .encodeHost) = some H →
        ∃ y, Parse (URL.String u) = some y ∧ y.Host = H ∧ y.Scheme = u.Scheme
          ∧ y.Opaque = [])
      ∧ (parseHost (escape u.Host .encodeHost) = none → Parse (URL.String u) = none) := by
  have hhb := escape_host_bytes u.Host
  have hub := uiPart_bytes u.User
  have hpb := pathPart_plainByte u
  have hhne := escape_ne_nil u.Host .encodeHost hh
  rw [String_eq_hostParts u ho hh hf]
  generalize hQ : (if u.ForceQuery = true ∨ u.RawQuery ≠ [] then 63 :: u.RawQuery else [])
    = Q
  generalize hT : escape u.Host .encodeHost = T at hhb hhne ⊢
  have hQb : ∀ x ∈ Q, isQueryByte x := by
    rw [← hQ]
    split
    · intro x hx
      rcases List.mem_cons.mp hx with e | e
      · subst e; unfold isQueryByte; decide
      · exact hq x e
    · intro x hx; simp at hx
  have hQhead : Q = [] ∨ Q.head? = some 63 := by
    rw [← hQ]
    split
    · right; rfl
    · left; rfl
  have hRb : ∀ x ∈ bytes "//" ++ uiPart u.User ++ T ++ (pathPart u ++ Q), isQueryByte x := by
    intro x hx
    rw [bytes_slash2] at hx
    simp only [List.mem_append, List.mem_cons, List.not_mem_nil, or_false] at hx
    rcases hx with (((h | h) | h) | h) | (h | h)
    · subst h; unfold isQueryByte; decide
    · subst h; unfold isQueryByte; decide
    · refine ⟨fun e => ?_, hub.2 x h⟩
      subst e
      exact hub.1.2.2 h
    · exact ⟨(hhb x h).2.2.1, (hhb x h).2.2.2.2⟩
    · exact isPlainByte_queryByte x (hpb x h)
    · exact hQb x h
  have hSb : ∀ x ∈ (if u.Scheme ≠ [] then u.Scheme ++ [58] else []), isQueryByte x := by
    intro x hx
    split at hx
    · rename_i hne
      rcases hs with e | e
      · exact absurd e hne
      · rcases List.mem_append.mp hx with h | h
        · exact (isScheme_bytes _ e.1 x h).1
        · rw [List.mem_singleton] at h
          subst h; unfold isQueryByte; decide
    · simp at hx
  have hall : ∀ x ∈ (if u.Scheme ≠ [] then u.Scheme ++ [58] else [])
      ++ (bytes "//" ++ uiPart u.User ++ T ++ (pathPart u ++ Q)), isQueryByte x := by
    intro x hx
    rcases List.mem_append.mp hx with h | h
    · exact hSb x h
    · exact hRb x h
  have h35 : 35 ∉ (if u.Scheme ≠ [] then u.Scheme ++ [58] else [])
      ++ (bytes "//" ++ uiPart u.User ++ T ++ (pathPart u ++ Q)) := fun h => (hall 35 h).1 rfl
  have hstar : (if u.Scheme ≠ [] then u.Scheme ++ [58] else [])
      ++ (bytes "//" ++ uiPart u.User ++ T ++ (pathPart u ++ Q)) ≠ [42] := by
    intro e
    have h1 := congrArg List.length e
    rw [bytes_slash2] at h1
    simp at h1
    omega
  have hget : getScheme ((if u.Scheme ≠ [] then u.Scheme ++ [58] else [])
      ++ (bytes "//" ++ uiPart u.User ++ T ++ (pathPart u ++ Q)))
      = some (u.Scheme, bytes "//" ++ uiPart u.User ++ T ++ (pathPart u ++ Q)) := by
    rcases hs with e | e
    · rw [e, if_neg (by simp), List.nil_append, bytes_slash2]
      exact getScheme_slash _
    · have hne : u.Scheme ≠ [] := by
        intro e2
        rw [e2] at e
        exact Bool.noConfusion e.1
      rw [if_pos hne, List.append_assoc, List.singleton_append]
      exact getScheme_scheme _ _ e.1
  have hlower : ToLower u.Scheme = u.Scheme := by
    rcases hs with e | e
    · rw [e]; rfl
    · exact e.2
  have hr : (pathPart u ++ Q) = [] ∨ (pathPart u ++ Q).head? = some 47
      ∨ (pathPart u ++ Q).head? = some 63 := by
    rcases pathPart_head u with e | e
    · rw [e, List.nil_append]
      rcases hQhead with e2 | e2
      · exact Or.inl e2
      · exact Or.inr (Or.inr e2)
    · right; left
      cases hpp : pathPart u with
      | nil => rw [hpp] at e; simp at e
      | cons a as => rw [hpp] at e; simpa using e
  have hsplit : (splitQuery (pathPart u ++ Q)).1 = pathPart u := by
    rw [← hQ]
    exact splitQuery_path_query _ _ _ (fun h => (hpb 63 h).1 rfl)
  have hpa := parseAfterScheme_authority u.Scheme (uiPart u.User) T (pathPart u ++ Q)
    (uiPart_shape u.User) hub.1
    ⟨fun h => (hhb 47 h).1 rfl, fun h => (hhb 63 h).2.1 rfl,
     fun h => (hhb 35 h).2.2.1 rfl, fun h => (hhb 64 h).2.2.2.1 rfl⟩
    hr (Or.inr hhne)
  have hparse : Parse ((if u.Scheme ≠ [] then u.Scheme ++ [58] else [])
      ++ (bytes "//" ++ uiPart u.User ++ T ++ (pathPart u ++ Q)))
      = parseAfterScheme u.Scheme (bytes "//" ++ uiPart u.User ++ T ++ (pathPart u ++ Q)) := by
    unfold Parse
    rw [Cut_of_not_mem 35 _ h35]
    simp only []
    unfold parse
    rw [stringContainsCTLByte_eq_false _ hall, if_neg hstar, hget]
    simp only [Bool.false_eq_true, if_false]
    rw [hlower]
    cases parseAfterScheme u.Scheme (bytes "//" ++ uiPart u.User ++ T ++ (pathPart u ++ Q)) <;>
      simp
  rw [hparse, hpa]
  constructor
  · intro H hH
    rw [hH, hsplit]
    cases hup : userPart (uiPart u.User) with
    | none => exact absurd hup (userPart_uiPart u.User)
    | some user =>
      simp only []
      obtain ⟨y, hy, hyH, hyS, hyO, _, _⟩ := setPath_fields
        { Scheme := u.Scheme, ForceQuery := (splitQuery (pathPart u ++ Q)).2.1,
          RawQuery := (splitQuery (pathPart u ++ Q)).2.2, User := user, Host := H }
        (pathPart u) (pathPart_valid u)
      exact ⟨y, hy, hyH, hyS, hyO⟩
  · intro hN
    rw [hN]

end Url

namespace Url

open Strings Url Crawl Goquery Workerpool

theorem ToLower_escapeByte (mode : Encoding) (c : Nat) :
    ToLower (escapeByte mode (lowerByte c)) = ToLower (escapeByte mode c) := by
  by_cases hu : 65 ≤ c ∧ c ≤ 90
  · have e : lowerByte c = c + 32 := by unfold lowerByte; rw [if_pos hu]
    have h1 : shouldEscape c mode = false := by
      have key : ∀ c, c < 128 → (65 ≤ c ∧ c ≤ 90) → shouldEscape c mode = false := by
        cases mode <;> decide
      exact key c (by omega) hu
    have h2 : shouldEscape (lowerByte c) mode = false := by
      rw [shouldEscape_lowerByte]; exact h1
    have e1 : escapeByte mode (lowerByte c) = [lowerByte c] := by
      unfold escapeByte
      rw [if_neg (by rw [e]; omega), h2]
      simp
    have e2 : escapeByte mode c = [c] := by
      unfold escapeByte
      rw [if_neg (by omega), h1]
      simp
    rw [e1, e2, ToLower_cons, ToLower_cons, lowerByte_idem]
  · have e : lowerByte c = c := by unfold lowerByte; rw [if_neg hu]
    rw [e]

theorem ToLower_escape (mode : Encoding) (s : GoString) :
    ToLower (escape (ToLower s) mode) = ToLower (escape s mode) := by
  induction s with
  | nil => rfl
  | cons c cs ih =>
    rw [ToLower_cons, escape_cons, escape_cons, ToLower_append, ToLower_append, ih,
      ToLower_escapeByte]

/-- A host that is read back from what `escape` writes for it is still read back after
`strings.ToLower`. -/
theorem parseHost_escape_ToLower (H : GoString)
    (h : parseHost (escape H .encodeHost) = some H) :
    parseHost (escape (ToLower H) .encodeHost) = some (ToLower H) := by
  have hd : unescapeDecode .encodeHost (escape H .encodeHost) = H :=
    (parseHost_some_eq _ _ h).symm
  have hd2 := unescapeDecode_escape_ToLower H hd
  cases hp : parseHost (escape (ToLower H) .encodeHost) with
  | none =>
    have := (parseHost_isNone_case (escape (ToLower H) .encodeHost) (escape H .encodeHost)
      (ToLower_escape _ H)).mp hp
    rw [h] at this
    exact Option.noConfusion this
  | some w =>
    rw [parseHost_some_eq _ _ hp, hd2]

end Url

namespace Crawl

open Strings Url Crawl Goquery Workerpool

/-- The normalised form of a written-out `http` or `https` URL whose host is read back
parses, and its host is the lowercased host. -/
theorem hostOf_normalizeURL_String_host (a : URL)
    (hs : a.Scheme = bytes "http" ∨ a.Scheme = bytes "https") (ho : a.Opaque = [])
    (hh : a.Host ≠ []) (hr : parseHost (escape a.Host .encodeHost) = some a.Host)
    (hf : a.Fragment = []) (hq : ∀ x ∈ a.RawQuery, isQueryByte x) :
    hostOf (normalizeURL (URL.String a)) = some (ToLower a.Host) := by
  have hsch : isScheme a.Scheme = true ∧ ToLower a.Scheme = a.Scheme := by
    rcases hs with e | e <;> rw [e] <;> decide
  obtain ⟨y, hy, hyH, hyS, hyO⟩ := (Parse_String_host a (Or.inr hsch) ho hh hf hq).1 _ hr
  obtain ⟨z, hz, hzS, hzH, hzO, hzF, hzQ⟩ := normalizeParsed_eq_String y
  have hzs : isScheme z.Scheme = true ∧ ToLower z.Scheme = z.Scheme := by
    rw [hzS, hyS, hsch.2]; exact hsch
  have hzne : z.Host ≠ [] := by
    rw [hzH, hyH]
    intro e
    exact hh (List.map_eq_nil_iff.mp e)
  have hzr : parseHost (escape z.Host .encodeHost) = some z.Host := by
    rw [hzH, hyH]; exact parseHost_escape_ToLower _ hr
  obtain ⟨w, hw, hwH, _, _⟩ :=
    (Parse_String_host z (Or.inr hzs) (by rw [hzO, hyO]) hzne hzF hzQ).1 _ hzr
  unfold normalizeURL hostOf
  rw [hy]
  simp only []
  rw [hz, hw]
  simp only [Option.map_some']
  rw [hwH, hzH, hyH]

/-- The link `processLink` resolves against a parsed base with a host, when it keeps that
host: not opaque, and with a raw query free of `#` and control bytes. -/
theorem resolveLink_host_facts (baseURL href : GoString) (base linkURL : URL)
    (hb : Url.Parse baseURL = some base) (hp : Url.Parse href = some linkURL)
    (hne : base.Host ≠ [])
    (hhost : (resolveLink base linkURL).Host = base.Host) :
    (resolveLink base linkURL).Opaque = [] ∧ (resolveLink base linkURL).Fragment = []
      ∧ ∀ x ∈ (resolveLink base linkURL).RawQuery, isQueryByte x := by
  have hne2 : (URL.ResolveReference base linkURL).Host ≠ [] := by
    have : (URL.ResolveReference base linkURL).Host = base.Host := hhost
    rw [this]
    exact hne
  have hf := ResolveReference_facts base linkURL (Parse_facts href linkURL hp).1 hne2
  refine ⟨hf.1, rfl, ?_⟩
  show ∀ x ∈ (URL.ResolveReference base linkURL).RawQuery, isQueryByte x
  rcases hf.2 with e | e
  · rw [e]; exact (Parse_facts href linkURL hp).2
  · rw [e]; exact (Parse_facts baseURL base hb).2

/-- Every URL `extractLinks` returns for a base with a host that is read back has the
lowercased host of the base. -/
theorem extractLinks_hostOf (done : Nat → Bool) (baseURL : GoString) (content : Page)
    (base : URL) (hb : Url.Parse baseURL = some base) (hne : base.Host ≠ [])
    (hr : parseHost (escape base.Host .encodeHost) = some base.Host)
    (l : GoString) (hl : l ∈ extractLinks done baseURL content) :
    hostOf l = some (ToLower base.Host) := by
  obtain ⟨doc, base2, e, href, linkURL, _, hb2, _, _, _, hp, hs, hh, hlink⟩ :=
    extractLinks_mem done baseURL content l hl
  rw [hb] at hb2
  simp only [Option.some.injEq] at hb2
  subst hb2
  have hf := resolveLink_host_facts baseURL (TrimSpace href) base linkURL hb hp hne hh
  rw [hlink, ← hh]
  rw [← hh] at hne hr
  exact hostOf_normalizeURL_String_host _ hs hf.1 hne hr hf.2.1 hf.2.2

end Crawl

namespace Url

open Strings Url Crawl Goquery Workerpool

theorem isScheme_snoc (pre : GoString) (c : Nat) (hpre : pre = [] ∨ isScheme pre = true)
    (hc : isLetter c = true ∨ (pre ≠ [] ∧ isSchemeByte c = true)) :
    isScheme (pre ++ [c]) = true := by
  cases pre with
  | nil =>
    rcases hc with h | h
    · simp [isScheme, h]
    · exact absurd rfl h.1
  | cons p ps =>
    rcases hpre with h | h
    · exact List.noConfusion h
    · simp only [isScheme, Bool.and_eq_true] at h
      have hcb : isSchemeByte c = true := by
        rcases hc with h2 | h2
        · unfold isSchemeByte; simp [h2]
        · exact h2.2
      simp only [List.cons_append, isScheme, Bool.and_eq_true, List.all_append, List.all_cons,
        List.all_nil, Bool.and_true]
      exact ⟨h.1, h.2, hcb⟩

theorem getSchemeAux_shape (raw : GoString) :
    ∀ (s pre : GoString) (i : Nat) (a b : GoString), raw = pre ++ s → pre.length = i →
      (pre = [] ∨ isScheme pre = true) → getSchemeAux raw i s = some (a, b) →
      a = [] ∨ isScheme a = true := by
  intro s
  induction s with
  | nil =>
    intro pre i a b _ _ _ h
    simp only [getSchemeAux, Option.some.injEq, Prod.mk.injEq] at h
    exact Or.inl h.1.symm
  | cons c cs ih =>
    intro pre i a b hraw hlen hpre h
    have hraw2 : raw = (pre ++ [c]) ++ cs := by rw [hraw]; simp
    have hlen2 : (pre ++ [c]).length = i + 1 := by simp [hlen]
    unfold getSchemeAux at h
    split at h
    · rename_i hl
      have hl2 : isLetter c = true := hl
      exact ih (pre ++ [c]) (i + 1) a b hraw2 hlen2
        (Or.inr (isScheme_snoc pre c hpre (Or.inl hl2))) h
    · split at h
      · rename_i hnl hd
        split at h
        · simp only [Option.some.injEq, Prod.mk.injEq] at h
          exact Or.inl h.1.symm
        · rename_i hi
          have hne : pre ≠ [] := by
            intro e
            rw [e] at hlen
            exact hi hlen.symm
          have hb : isSchemeByte c = true := by
            unfold isSchemeByte
            simp only [Bool.or_eq_true, Bool.and_eq_true, decide_eq_true_eq] at hd ⊢
            omega
          exact ih (pre ++ [c]) (i + 1) a b hraw2 hlen2
            (Or.inr (isScheme_snoc pre c hpre (Or.inr ⟨hne, hb⟩))) h
      · split at h
        · split at h
          · exact Option.noConfusion h
          · rename_i hi
            simp only [Option.some.injEq, Prod.mk.injEq] at h
            have hne : pre ≠ [] := by
              intro e
              rw [e] at hlen
              exact hi hlen.symm
            have ht : raw.take i = pre := by
              rw [hraw, ← hlen, List.take_left']
              rfl
            right
            rw [← h.1, ht]
            rcases hpre with e | e
            · exact absurd e hne
            · exact e
        · simp only [Option.some.injEq, Prod.mk.injEq] at h
          exact Or.inl h.1.symm

/-- The scheme `getScheme` splits off is empty or a scheme. -/
theorem getScheme_shape (raw a b : GoString) (h : getScheme raw = some (a, b)) :
    a = [] ∨ isScheme a = true :=
  getSchemeAux_shape raw raw [] 0 a b rfl rfl (Or.inl rfl) h

theorem isLetter_lowerByte (c : Nat) : isLetter (lowerByte c) = isLetter c := by
  unfold isLetter lowerByte
  rw [Bool.eq_iff_iff]
  split_ifs <;> (simp; try omega)

theorem isSchemeByte_lowerByte (c : Nat) : isSchemeByte (lowerByte c) = isSchemeByte c := by
  unfold isSchemeByte isLetter lowerByte
  rw [Bool.eq_iff_iff]
  split_ifs <;> (simp; try omega)

theorem isScheme_ToLower (s : GoString) : isScheme (ToLower s) = isScheme s := by
  cases s with
  | nil => rfl
  | cons c cs =>
    rw [ToLower_cons]
    simp only [isScheme]
    rw [isLetter_lowerByte]
    congr 1
    unfold ToLower
    rw [List.all_map]
    congr 1
    funext x
    exact isSchemeByte_lowerByte x

theorem parseAfterScheme_scheme (scheme rest : GoString) (y : URL)
    (h : parseAfterScheme scheme rest = some y) : y.Scheme = scheme := by
  unfold parseAfterScheme at h
  simp only [] at h
  split at h
  · simp only [Option.some.injEq] at h
    rw [← h]
  · split at h
    · exact Option.noConfusion h
    · split at h
      · split at h
        · exact Option.noConfusion h
        · exact (setPath_some_fields _ _ _ h).2.1
      · split at h
        · exact (setPath_some_fields _ _ _ h).2.1
        · exact (setPath_some_fields _ _ _ h).2.1

/-- The scheme of a URL that `url.Parse` returns is empty or a scheme in lower case. -/
theorem Parse_scheme (s : GoString) (y : URL) (h : Parse s = some y) :
    y.Scheme = [] ∨ (isScheme y.Scheme = true ∧ ToLower y.Scheme = y.Scheme) := by
  have key : ∀ u, parse (Cut 35 s).1 = some u →
      u.Scheme = [] ∨ (isScheme u.Scheme = true ∧ ToLower u.Scheme = u.Scheme) := by
    intro u hu
    unfold parse at hu
    split at hu
    · exact Option.noConfusion hu
    · split at hu
      · simp only [Option.some.injEq] at hu
        rw [← hu]; exact Or.inl rfl
      · split at hu
        · exact Option.noConfusion hu
        · rename_i scheme rest hg
          rw [parseAfterScheme_scheme _ _ _ hu]
          rcases getScheme_shape _ _ _ hg with e | e
          · left; rw [e]; rfl
          · right
            exact ⟨by rw [isScheme_ToLower]; exact e, ToLower_idem _⟩
  unfold Parse at h
  split at h
  · exact Option.noConfusion h
  · rename_i u hu
    split at h
    · simp only [Option.some.injEq] at h
      rw [← h]; exact key u hu
    · rw [(setFragment_some_fields _ _ _ h).2.1]
      exact key u hu

end Url

namespace Url

open Strings Url Crawl Goquery Workerpool

theorem unhex_le (c : Nat) : unhex c ≤ 15 := by
  unfold unhex
  split_ifs <;> omega

theorem mem_unescapeDecode_aux (mode : Encoding) (n : Nat) :
    ∀ s : GoString, s.length ≤ n → ∀ x ∈ unescapeDecode mode s, x ∈ s ∨ x < 256 := by
  induction n with
  | zero =>
    intro s hs x hx
    have : s = [] := List.length_eq_zero.mp (Nat.le_zero.mp hs)
    subst this
    simp [unescapeDecode] at hx
  | succ n ih =>
    intro s hs x hx
    cases s with
    | nil => simp [unescapeDecode] at hx
    | cons c rest =>
      by_cases hc : c = 37
      · subst hc
        cases rest with
        | nil => simp [unescapeDecode] at hx
        | cons a r1 =>
          cases r1 with
          | nil => simp [unescapeDecode] at hx
          | cons b r2 =>
            rw [unescapeDecode_cons_pct] at hx
            rcases List.mem_cons.mp hx with e | e
            · right
              have := unhex_le a
              have := unhex_le b
              omega
            · rcases ih r2 (by simp at hs; omega) x e with h | h
              · left; simp [h]
              · exact Or.inr h
      · have hrec : ∀ x ∈ unescapeDecode mode rest, x ∈ c :: rest ∨ x < 256 := by
          intro x hx
          rcases ih rest (by simp at hs; omega) x hx with h | h
          · exact Or.inl (List.mem_cons_of_mem _ h)
          · exact Or.inr h
        by_cases h43 : c = 43
        · subst h43
          have e : unescapeDecode mode (43 :: rest)
              = (if mode = .encodeQueryComponent then 32 else 43) :: unescapeDecode mode rest := by
            cases rest with
            | nil => simp [unescapeDecode]
            | cons a r1 =>
              cases r1 with
              | nil => simp [unescapeDecode]
              | cons b r2 => rw [unescapeDecode]; simp
          rw [e] at hx
          rcases List.mem_cons.mp hx with e2 | e2
          · right; rw [e2]; split <;> omega
          · exact hrec x e2
        · have e : unescapeDecode mode (c :: rest) = c :: unescapeDecode mode rest := by
            cases rest with
            | nil => simp [unescapeDecode, hc, h43]
            | cons a r1 =>
              cases r1 with
              | nil => simp [unescapeDecode, hc, h43]
              | cons b r2 => rw [unescapeDecode]; simp [hc, h43]
          rw [e] at hx
          rcases List.mem_cons.mp hx with e2 | e2
          · left; rw [e2]; simp
          · exact hrec x e2

/-- A byte of an unescaped text is a byte of the text or the value of two hex digits. -/
theorem mem_unescapeDecode (mode : Encoding) (s : GoString) :
    ∀ x ∈ unescapeDecode mode s, x ∈ s ∨ x < 256 :=
  mem_unescapeDecode_aux mode s.length s (Nat.le_refl _)

theorem parseAuthority_host (auth : GoString) (user : Option Userinfo) (host : GoString)
    (h : parseAuthority auth = some (user, host)) :
    ∃ t, (∀ x ∈ t, x ∈ auth) ∧ parseHost t = some host := by
  unfold parseAuthority at h
  split at h
  · split at h
    · exact Option.noConfusion h
    · rename_i host1 hp
      simp only [Option.some.injEq, Prod.mk.injEq] at h
      exact ⟨auth, fun _ hx => hx, by rw [hp, h.2]⟩
  · rename_i i _
    split at h
    · exact Option.noConfusion h
    · rename_i host1 hp
      split at h
      · exact Option.noConfusion h
      · simp only [Option.some.injEq, Prod.mk.injEq] at h
        exact ⟨auth.drop (i + 1), fun _ hx => List.mem_of_mem_drop hx, by rw [hp, h.2]⟩

theorem splitQuery_rest_mem (r : GoString) : ∀ x ∈ (splitQuery r).1, x ∈ r := by
  unfold splitQuery
  split
  · intro x hx; exact List.mem_of_mem_take hx
  · intro x hx; exact (mem_Cut_fst 63 r x hx).1

theorem splitAuthority_mem (r : GoString) : ∀ x ∈ (splitAuthority r).1, x ∈ r := by
  unfold splitAuthority
  split
  · intro x hx; exact List.mem_of_mem_drop (List.mem_of_mem_take hx)
  · intro x hx; exact List.mem_of_mem_drop hx

theorem parseAfterScheme_host (scheme rest : GoString) (y : URL)
    (h : parseAfterScheme scheme rest = some y) :
    y.Host = [] ∨ ∃ t, (∀ x ∈ t, x ∈ rest) ∧ parseHost t = some y.Host := by
  unfold parseAfterScheme at h
  simp only [] at h
  split at h
  · simp only [Option.some.injEq] at h
    rw [← h]; exact Or.inl rfl
  · split at h
    · exact Option.noConfusion h
    · split at h
      · split at h
        · exact Option.noConfusion h
        · rename_i user host ha
          right
          obtain ⟨t, ht, hp⟩ := parseAuthority_host _ _ _ ha
          refine ⟨t, fun x hx => splitQuery_rest_mem rest x (splitAuthority_mem _ x (ht x hx)), ?_⟩
          rw [(setPath_some_fields _ _ _ h).1]
          exact hp
      · split at h
        · left; rw [(setPath_some_fields _ _ _ h).1]
        · left; rw [(setPath_some_fields _ _ _ h).1]

/-- The host of a URL parsed from a string of bytes is a string of bytes. -/
theorem Parse_host_bytes (s : GoString) (y : URL) (h : Parse s = some y)
    (hs : ∀ c ∈ s, c < 256) : ∀ c ∈ y.Host, c < 256 := by
  have key : ∀ u, parse (Cut 35 s).1 = some u → ∀ c ∈ u.Host, c < 256 := by
    intro u hu c hc
    unfold parse at hu
    split at hu
    · exact Option.noConfusion hu
    · split at hu
      · simp only [Option.some.injEq] at hu
        rw [← hu] at hc
        simp at hc
      · split at hu
        · exact Option.noConfusion hu
        · rename_i scheme rest hg
          rcases parseAfterScheme_host _ _ _ hu with e | ⟨t, ht, hp⟩
          · rw [e] at hc; simp at hc
          · rw [parseHost_some_eq _ _ hp] at hc
            rcases mem_unescapeDecode _ _ c hc with h1 | h1
            · exact hs c (mem_Cut_fst 35 s c (getScheme_rest_mem _ _ _ hg c (ht c h1))).1
            · exact h1
  unfold Parse at h
  split at h
  · exact Option.noConfusion h
  · rename_i u hu
    split at h
    · simp only [Option.some.injEq] at h
      rw [← h]; exact key u hu
    · rw [(setFragment_some_fields _ _ _ h).1]
      exact key u hu

end Url

namespace Crawl

open Strings Url Crawl Goquery Workerpool

/-- The base `processTask` passes to `extractLinks` for a task URL with a host, when it
parses: its host is the lowercased host of the task URL, and is read back. -/
theorem normalizeURL_base (t : GoString) (u base : URL) (ht : ∀ c ∈ t, c < 256)
    (hu : Url.Parse t = some u) (hne : u.Host ≠ [])
    (hb : Url.Parse (normalizeURL t) = some base) :
    base.Host = ToLower u.Host ∧ base.Host ≠ []
      ∧ parseHost (escape base.Host .encodeHost) = some base.Host := by
  obtain ⟨z, hz, hzS, hzH, hzO, hzF, hzQ⟩ := normalizeParsed_eq_String u
  have hn : normalizeURL t = URL.String z := by
    unfold normalizeURL
    rw [hu]
    exact hz
  rw [hn] at hb
  have hzs : z.Scheme = [] ∨ (isScheme z.Scheme = true ∧ ToLower z.Scheme = z.Scheme) := by
    rcases Parse_scheme t u hu with e | e
    · left; rw [hzS, e]; rfl
    · right; rw [hzS, e.2]; exact e
  have hzo : z.Opaque = [] := by
    rw [hzO]
    by_contra ho
    exact hne ((Parse_facts t u hu).1 ho)
  have hzne : z.Host ≠ [] := by
    rw [hzH]
    intro e
    exact hne (List.map_eq_nil_iff.mp e)
  have hzb : ∀ c ∈ z.Host, c < 256 := by
    rw [hzH]
    intro c hc
    unfold ToLower at hc
    rw [List.mem_map] at hc
    obtain ⟨d, hd, e⟩ := hc
    have := Parse_host_bytes t u hu ht d hd
    rw [← e]
    unfold lowerByte
    split <;> omega
  have hrt := Parse_String_host z hzs hzo hzne hzF hzQ
  cases hp : parseHost (escape z.Host .encodeHost) with
  | none =>
    rw [hrt.2 hp] at hb
    exact Option.noConfusion hb
  | some H =>
    obtain ⟨y, hy, hyH, _, _⟩ := hrt.1 H hp
    rw [hy] at hb
    simp only [Option.some.injEq] at hb
    have hH : H = z.Host := by
      rw [parseHost_some_eq _ _ hp, unescapeDecode_escape_bytes _ hzb]
    rw [← hb, hyH, hH]
    refine ⟨hzH, hzne, ?_⟩
    rw [← hH]
    rw [hH] at hp ⊢
    exact hp

/-- Every URL `extractLinks` returns for the normalised form of a task URL with a host has
the host of that base. -/
theorem extractLinks_hostOf_normalized (done : Nat → Bool) (t : GoString) (content : Page)
    (u : URL) (ht : ∀ c ∈ t, c < 256) (hu : Url.Parse t = some u) (hne : u.Host ≠ [])
    (l : GoString) (hl : l ∈ extractLinks done (normalizeURL t) content) :
    hostOf l = hostOf (normalizeURL t) ∧ hostOf l = some (ToLower u.Host) := by
  obtain ⟨_, base, _, _, _, _, hb, _⟩ := extractLinks_mem done _ content l hl
  obtain ⟨h1, h2, h3⟩ := normalizeURL_base t u base ht hu hne hb
  have := extractLinks_hostOf done _ content base hb h2 h3 l hl
  have hlow : ToLower base.Host = base.Host := by rw [h1, ToLower_idem]
  rw [hlow] at this
  refine ⟨?_, by rw [this, h1]⟩
  rw [this]
  unfold hostOf
  rw [hb]
  rfl

end Crawl

/-! ### The claims -/

namespace Crawl

open Goquery Workerpool Strings Url

/-- C1, at the site root: `normalizeURL` maps `http://example.com` to
`http://example.com/.` (cleaning the empty path yields `.`) and maps that result to
`http://example.com`; applying it twice is not the same as applying it once. -/
theorem normalizeURL_root_not_idempotent :
    normalizeURL (bytes "http://example.com") = bytes "http://example.com/."
      ∧ normalizeURL (normalizeURL (bytes "http://example.com")) = bytes "http://example.com"
      ∧ normalizeURL (normalizeURL (bytes "http://example.com"))
          ≠ normalizeURL (bytes "http://example.com") := by
  decide!

/-- C2 fails on text that `url.Parse` rejects: `http://exa mple.com/` and the same text
followed by `#top` differ only in the presence of a fragment, both are rejected (a space in
the host), and `normalizeURL` returns each lowercased whole, fragment included. -/
theorem normalizeURL_fragment_sensitive_when_rejected :
    Url.Parse (bytes "http://exa mple.com/") = none
      ∧ Url.Parse (bytes "http://exa mple.com/" ++ bytes "#top") = none
      ∧ normalizeURL (bytes "http://exa mple.com/")
          ≠ normalizeURL (bytes "http://exa mple.com/" ++ bytes "#top") := by
  decide!

/-- A base URL that is not in normalised form, with an upper-case host: for the base
`http://Example.com/` and a page whose only anchor is `<a href="/a">`, `extractLinks`
returns `http://example.com/a`. The link resolved to the host `Example.com` of the base and
`normalizeURL` wrote it in lower case; `processTask` passes the base `http://example.com`. -/
theorem extractLinks_lowercases_mixed_case_base :
    extractLinks neverDone (bytes "http://Example.com/") oneLinkPage
        = [bytes "http://example.com/a"]
      ∧ hostOf (bytes "http://example.com/a") = some (bytes "example.com")
      ∧ hostOf (bytes "http://Example.com/") = some (bytes "Example.com")
      ∧ normalizeURL (bytes "http://Example.com/") = bytes "http://example.com" := by
  decide!

/-- C4, on a page with a product URL, the `og:type` meta tag and a Schema.org Product
script: the signals of the specification's table sum to 55 and give a positive verdict,
the code scores 35 and returns false. -/
theorem IsProductPage_differs_from_spec_table :
    specScore (bytes "https://example.com/product/123") (ogTypeAndSchemaOrgPage.getD []) = 55
      ∧ specIsProductPage (bytes "https://example.com/product/123") ogTypeAndSchemaOrgPage = true
      ∧ productScore (bytes "https://example.com/product/123") (ogTypeAndSchemaOrgPage.getD []) = 35
      ∧ IsProductPage (bytes "https://example.com/product/123") ogTypeAndSchemaOrgPage = false := by
  decide!

/-- C5, on the input of the test `product page with og:type`: the URL matches a product
pattern and the page has the `og:type` meta tag, the score is 20 + 15 = 35, and
`IsProductPage` returns false. -/
theorem IsProductPage_false_on_og_type_test :
    URLPatternMatch (bytes "https://example.com/product/123") = true
      ∧ checkMetaTags (ogTypePage.getD []) = true
      ∧ productScore (bytes "https://example.com/product/123") (ogTypePage.getD []) = 35
      ∧ IsProductPage (bytes "https://example.com/product/123") ogTypePage = false := by
  decide!

/-- C6, on the input of the test `product page with schema.org`: the URL matches a product
pattern and the page has the Schema.org Product script, the score is 20, and
`IsProductPage` returns false. -/
theorem IsProductPage_false_on_schema_org_test :
    URLPatternMatch (bytes "https://example.com/item/456") = true
      ∧ specStructuredData (schemaOrgPage.getD []) = true
      ∧ productScore (bytes "https://example.com/item/456") (schemaOrgPage.getD []) = 20
      ∧ IsProductPage (bytes "https://example.com/item/456") schemaOrgPage = false := by
  decide!

/-- C7: `checkStructuredData` returns false on every document, also on one whose
`application/ld+json` script block contains the marker `"@type":"product"`. -/
theorem checkStructuredData_always_false :
    specStructuredData (schemaOrgPage.getD []) = true
      ∧ ∀ doc : Document, checkStructuredData doc = false :=
  ⟨by decide!, fun _ => rfl⟩

/-- C8, on the input of the test `URL with product in query`: `URLPatternMatch` returns
false for `https://example.com/page?product_id=123`, although its query key contains
`product`. -/
theorem URLPatternMatch_false_on_product_query :
    checkQueryParams (bytes "https://example.com/page?product_id=123") = true
      ∧ URLPatternMatch (bytes "https://example.com/page?product_id=123") = false := by
  decide!

/-- C2, amended: two URLs made of scheme parts equal up to letter case and of host parts
equal up to the letter case of the host have the same `normalizeURL` result when they carry
the same fragment part, whether `url.Parse` accepts them or not; when they carry any two
fragment parts, they have the same result provided `url.Parse` accepts both. -/
theorem normalizeURL_case_fragment_insensitive
    (scheme1 scheme2 mid1 mid2 frag1 frag2 : GoString)
    (hs : SchemeVariant scheme1 scheme2) (hm : HostVariant mid1 mid2)
    (hf1 : isFragmentPart frag1) (hf2 : isFragmentPart frag2) :
    normalizeURL (scheme1 ++ mid1 ++ frag1) = normalizeURL (scheme2 ++ mid2 ++ frag1)
      ∧ (Url.Parse (scheme1 ++ mid1 ++ frag1) ≠ none →
          Url.Parse (scheme2 ++ mid2 ++ frag2) ≠ none →
          normalizeURL (scheme1 ++ mid1 ++ frag1) = normalizeURL (scheme2 ++ mid2 ++ frag2)) := by
  have accepted : ∀ f1 f2 : GoString, isFragmentPart f1 → isFragmentPart f2 →
      Url.Parse (scheme1 ++ mid1 ++ f1) ≠ none → Url.Parse (scheme2 ++ mid2 ++ f2) ≠ none →
      normalizeURL (scheme1 ++ mid1 ++ f1) = normalizeURL (scheme2 ++ mid2 ++ f2) := by
    intro f1 f2 h1 h2 hu hv
    have h35 := not_mem_35_variant scheme1 mid1 scheme2 mid2 hs hm
    obtain ⟨x1, p1, e1⟩ := normalizeURL_of_fragment (scheme1 ++ mid1) f1 h35.1 h1 hu
    obtain ⟨x2, p2, e2⟩ := normalizeURL_of_fragment (scheme2 ++ mid2) f2 h35.2 h2 hv
    rw [e1, e2]
    exact parse_variant scheme1 scheme2 mid1 mid2 hs hm x1 x2 p1 p2
  refine ⟨?_, accepted frag1 frag2 hf1 hf2⟩
  have hiff := Parse_isNone_variant scheme1 scheme2 mid1 mid2 frag1 hs hm hf1
  by_cases hu : Url.Parse (scheme1 ++ mid1 ++ frag1) = none
  · have hv := hiff.mp hu
    unfold normalizeURL
    rw [hu, hv]
    simp only [ToLower_append]
    rw [ToLower_schemeVariant scheme1 scheme2 hs, ToLower_hostVariant mid1 mid2 hm]
  · exact accepted frag1 frag1 hf1 hf1 hu (fun hv => hu (hiff.mpr hv))

/-- C2, amended, at `HTTP://Example.COM/a/b?x=1#top` and `http://example.com/a/b?x=1`:
both are accepted and both normalize to `http://example.com/a/b?x=1`. -/
theorem normalizeURL_case_fragment_insensitive_witness :
    bytes "HTTP" ++ [58] ++ (bytes "//" ++ [] ++ bytes "Example.COM" ++ bytes "/a/b?x=1")
        ++ bytes "#top" = bytes "HTTP://Example.COM/a/b?x=1#top"
      ∧ normalizeURL (bytes "http" ++ [58]
            ++ (bytes "//" ++ [] ++ bytes "example.com" ++ bytes "/a/b?x=1") ++ [])
          = bytes "http://example.com/a/b?x=1"
      ∧ normalizeURL (bytes "HTTP" ++ [58]
            ++ (bytes "//" ++ [] ++ bytes "Example.COM" ++ bytes "/a/b?x=1") ++ bytes "#top")
          = normalizeURL (bytes "http" ++ [58]
            ++ (bytes "//" ++ [] ++ bytes "example.com" ++ bytes "/a/b?x=1") ++ []) :=
  ⟨by decide!, by decide!,
    (normalizeURL_case_fragment_insensitive (bytes "HTTP" ++ [58]) (bytes "http" ++ [58])
      (bytes "//" ++ [] ++ bytes "Example.COM" ++ bytes "/a/b?x=1")
      (bytes "//" ++ [] ++ bytes "example.com" ++ bytes "/a/b?x=1") (bytes "#top") []
      (SchemeVariant.scheme (bytes "HTTP") (bytes "http") (by decide) (by decide) (by decide))
      (HostVariant.host [] (bytes "Example.COM") (bytes "example.com") (bytes "/a/b?x=1")
        (Or.inl rfl) (by decide) (by decide) (by decide) (by decide) (by decide) (by decide))
      (Or.inr (by decide)) (Or.inl rfl)).2 (by decide!) (by decide!)⟩

/-- C3: every URL in the list `extractLinks` returns comes from an anchor of the page whose
link resolved to an `http` or `https` URL with the host of the base URL, which is the
comparison `processLink` makes before `normalizeURL` lowercases the host of the returned
link. For a base URL as `processTask` passes it, `normalizeURL` of a task URL with a host (a
URL without a host is not fetched, so `processTask` returns before `extractLinks`), the
returned URL has the host of the base URL, the lowercased host of the task URL. For every
base URL with a host that `url.Parse` reads back from what `URL.String` writes for it, the
returned URL has the host of the base URL in lower case. -/
theorem extractLinks_host_eq_base (done : Nat → Bool) (baseURL : GoString)
    (content : Page) (l : GoString) (hl : l ∈ extractLinks done baseURL content) :
    (∃ doc base e href linkURL,
      content = some doc ∧ Url.Parse baseURL = some base
        ∧ e ∈ doc ∧ e.tag = bytes "a" ∧ e.attr "href" = some href
        ∧ Url.Parse (TrimSpace href) = some linkURL
        ∧ ((resolveLink base linkURL).Scheme = bytes "http"
            ∨ (resolveLink base linkURL).Scheme = bytes "https")
        ∧ (resolveLink base linkURL).Host = base.Host
        ∧ l = normalizeURL (URL.String (resolveLink base linkURL)))
      ∧ (∀ t u, (∀ c ∈ t, c < 256) → Url.Parse t = some u → u.Host ≠ [] →
          baseURL = normalizeURL t →
          hostOf l = hostOf baseURL ∧ hostOf l = some (ToLower u.Host))
      ∧ (∀ base, Url.Parse baseURL = some base → base.Host ≠ [] →
          parseHost (escape base.Host .encodeHost) = some base.Host →
          hostOf l = some (ToLower base.Host)) := by
  refine ⟨extractLinks_mem done baseURL content l hl, ?_, ?_⟩
  · intro t u ht hu hne hb
    subst hb
    exact extractLinks_hostOf_normalized done t content u ht hu hne l hl
  · intro base hb hne hr
    exact extractLinks_hostOf done baseURL content base hb hne hr l hl

/-- C3 at the task URL `HTTP://My_Shop.Test:8080/Dir/` and a page with three links: the
base is `http://my_shop.test:8080/Dir`, the one URL returned is
`http://my_shop.test:8080/a?x=1`, and its host is the host `my_shop.test:8080` of the
base. -/
theorem extractLinks_host_eq_base_witness :
    bytes "http://my_shop.test:8080/a?x=1"
        ∈ extractLinks neverDone (normalizeURL shopTaskURL) shopPage
      ∧ normalizeURL shopTaskURL = bytes "http://my_shop.test:8080/Dir"
      ∧ (hostOf (bytes "http://my_shop.test:8080/a?x=1") = hostOf (normalizeURL shopTaskURL)
          ∧ hostOf (bytes "http://my_shop.test:8080/a?x=1")
              = some (ToLower (bytes "My_Shop.Test:8080")))
      ∧ hostOf (bytes "http://my_shop.test:8080/a?x=1")
          = some (ToLower (bytes "my_shop.test:8080")) :=
  ⟨by decide!, by decide!,
    (extractLinks_host_eq_base neverDone (normalizeURL shopTaskURL) shopPage
      (bytes "http://my_shop.test:8080/a?x=1") (by decide!)).2.1 shopTaskURL
      { Scheme := bytes "http", Host := bytes "My_Shop.Test:8080", Path := bytes "/Dir/" }
      (by decide!) (by decide!) (by decide!) rfl,
    (extractLinks_host_eq_base neverDone (normalizeURL shopTaskURL) shopPage
      (bytes "http://my_shop.test:8080/a?x=1") (by decide!)).2.2
      { Scheme := bytes "http", Host := bytes "my_shop.test:8080", Path := bytes "/Dir" }
      (by decide!) (by decide!) (by decide!)⟩

/-- C9: for a non-negative `maxDepth`, if no task pending in the queue is deeper than
`maxDepth`, the same holds after `Start` has queued the seed tasks and after `processTask`
has run on any task, whatever the network answers and whatever the queue capacity (so for
every task passed to `AddTask`); neither changes `maxDepth`. -/
theorem depth_bound_invariant (c : Crawler) (env : TaskEnv) (task : Task)
    (hmax : 0 ≤ c.maxDepth) (hq : ∀ t ∈ c.workerPool.tasks, t.Depth ≤ c.maxDepth) :
    (∀ t ∈ c.Start.workerPool.tasks, t.Depth ≤ c.maxDepth)
      ∧ (∀ t ∈ (c.processTask env task).1.workerPool.tasks, t.Depth ≤ c.maxDepth)
      ∧ c.Start.maxDepth = c.maxDepth
      ∧ (c.processTask env task).1.maxDepth = c.maxDepth := by
  have hs := foldl_depthBounded c.maxDepth Crawler.seed
    (fun c a hc => seed_depthBounded _ hmax c a hc) c.domains c ⟨rfl, hq⟩
  have hp := processTask_depthBounded c.maxDepth c env task ⟨rfl, hq⟩
  exact ⟨hs.2, hp.2, hs.1, hp.1⟩

/-- C9 at the seeded crawler with `maxDepth = 3`: processing the seed task queues one
sitemap task and one link task, both of depth 1. -/
theorem depth_bound_invariant_witness :
    (0 : Int) ≤ seededCrawler.maxDepth
      ∧ (∀ t ∈ seededCrawler.workerPool.tasks, t.Depth ≤ seededCrawler.maxDepth)
      ∧ ((seededCrawler.processTask oneLinkEnv seedTask).1.workerPool.tasks.map (·.Depth)
          = [0, 1, 1])
      ∧ (∀ t ∈ (seededCrawler.processTask oneLinkEnv seedTask).1.workerPool.tasks,
          t.Depth ≤ seededCrawler.maxDepth) :=
  ⟨by decide!, by decide!, by decide!,
    (depth_bound_invariant seededCrawler oneLinkEnv seedTask (by decide!) (by decide!)).2.1⟩

/-- C10: on a pool of capacity 1000, as `NewWorkerPool` creates it, `AddTask` leaves a
queue of 1000 pending tasks unchanged (the incoming task is dropped), appends the task at
the tail of a queue of fewer than 1000 tasks, and after any sequence of `AddTask` calls
the queue holds at most 1000 tasks. -/
theorem AddTask_backpressure (wp : WorkerPool) (task : Task) (tasks : List Task)
    (hcap : wp.capacity = 1000) (hlen : wp.tasks.length ≤ 1000) :
    NewWorkerPool.capacity = 1000
      ∧ (wp.tasks.length = 1000 → wp.AddTask task = wp)
      ∧ (wp.tasks.length < 1000 → (wp.AddTask task).tasks = wp.tasks ++ [task])
      ∧ (tasks.foldl WorkerPool.AddTask wp).tasks.length ≤ 1000 := by
  refine ⟨rfl, ?_, ?_, ?_⟩
  · intro h
    simp [WorkerPool.AddTask, hcap, h]
  · intro h
    simp [WorkerPool.AddTask, hcap, h]
  · have := (foldl_AddTask_length_le tasks wp (by omega)).1
    omega

/-- C10 at a full pool, at the new pool, and after 1001 calls on the new pool. -/
theorem AddTask_backpressure_witness :
    fullPool.tasks.length = 1000
      ∧ fullPool.AddTask ⟨bytes "http://test/a", 1, bytes "test"⟩ = fullPool
      ∧ (NewWorkerPool.AddTask ⟨bytes "http://test/a", 1, bytes "test"⟩).tasks
          = [⟨bytes "http://test/a", 1, bytes "test"⟩]
      ∧ ((List.replicate 1001 (⟨bytes "http://test/a", 1, bytes "test"⟩ : Task)).foldl
          WorkerPool.AddTask NewWorkerPool).tasks.length ≤ 1000 :=
  ⟨by decide!,
   (AddTask_backpressure fullPool ⟨bytes "http://test/a", 1, bytes "test"⟩ [] rfl
      (by decide!)).2.1 (by decide!),
   (AddTask_backpressure NewWorkerPool ⟨bytes "http://test/a", 1, bytes "test"⟩ [] rfl
      (by simp [NewWorkerPool])).2.2.1 (by simp [NewWorkerPool]),
   (AddTask_backpressure NewWorkerPool ⟨bytes "http://test/a", 1, bytes "test"⟩
      (List.replicate 1001 ⟨bytes "http://test/a", 1, bytes "test"⟩) rfl
      (by simp [NewWorkerPool])).2.2.2⟩

/-- C11: in a sequence of `processTask` calls on one crawler, let `task1` and a later
`task2` have the same `normalizeURL` result, the context not being cancelled at either
call. If the normalized URL is not yet in the visited set when `task1` is processed,
`task1` is marked visited and goes on to the robots check, fetch, classification and link
extraction (`robotsStep`); the later call for `task2` returns nil and leaves the whole
crawler (visited set, product URL map, task queue) unchanged, after any calls in between,
and in any crawler state whose visited set holds the normalized URL. -/
theorem processTask_dedup_gate
    (c : Crawler) (before between : List (TaskEnv × Task)) (env1 env2 : TaskEnv)
    (task1 task2 : Task) (hctx1 : env1.ctxErr = false) (hctx2 : env2.ctxErr = false)
    (hsame : normalizeURL task1.URL = normalizeURL task2.URL) :
    (normalizeURL task1.URL ∉ (c.runTasks before).visitedURLs →
        (c.runTasks before).processTask env1 task1
          = Crawler.robotsStep
              { c.runTasks before with
                visitedURLs := (c.runTasks before).visitedURLs ++ [normalizeURL task1.URL] }
              env1 task1 (normalizeURL task1.URL))
      ∧ ((((c.runTasks before).processTask env1 task1).1.runTasks between).processTask env2 task2
          = ((((c.runTasks before).processTask env1 task1).1.runTasks between), none))
      ∧ (∀ c2 : Crawler, normalizeURL task1.URL ∈ c2.visitedURLs →
          c2.processTask env2 task2 = (c2, none)) := by
  have hgate : ∀ c2 : Crawler, normalizeURL task1.URL ∈ c2.visitedURLs →
      c2.processTask env2 task2 = (c2, none) := by
    intro c2 hm
    rw [hsame] at hm
    unfold Crawler.processTask
    rw [hctx2]
    simp only [Bool.false_eq_true, if_false]
    rw [if_pos (by simpa using hm)]
  refine ⟨?_, ?_, hgate⟩
  · intro hfirst
    unfold Crawler.processTask
    rw [hctx1]
    simp only [Bool.false_eq_true, if_false]
    rw [if_neg (by simpa using hfirst)]
  · have hm := runTasks_visited_mono between _ _
      (processTask_marks (c.runTasks before) env1 task1 hctx1)
    rw [hsame] at hm
    generalize (((c.runTasks before).processTask env1 task1).1.runTasks between) = c2 at hm ⊢
    unfold Crawler.processTask
    rw [hctx2]
    simp only [Bool.false_eq_true, if_false]
    rw [if_pos (by simpa using hm)]

/-- C11 at the seeded crawler: after the seed task `http://test/`, and the same task once
more, the task `HTTP://TEST/#top` of the same normalized URL changes nothing. -/
theorem processTask_dedup_gate_witness :
    oneLinkEnv.ctxErr = false
      ∧ normalizeURL seedTask.URL = normalizeURL seedTaskVariant.URL
      ∧ seedTask.URL ≠ seedTaskVariant.URL
      ∧ (((seededCrawler.runTasks []).processTask oneLinkEnv seedTask).1.runTasks
            [(oneLinkEnv, seedTask)]).processTask oneLinkEnv seedTaskVariant
          = ((((seededCrawler.runTasks []).processTask oneLinkEnv seedTask).1.runTasks
            [(oneLinkEnv, seedTask)]), none) :=
  ⟨rfl, by decide!, by decide!,
    (processTask_dedup_gate seededCrawler [] [(oneLinkEnv, seedTask)] oneLinkEnv oneLinkEnv seedTask
      seedTaskVariant rfl rfl (by decide!)).2.1⟩

/-- C12 fails in the code: when the selected robots group allows the task URL and has a
crawl delay `d > 0` (a `time.Duration` below `2 ^ 63` nanoseconds), `checkRobotsTxt`
returns `d * time.Second` computed in 64-bit integers, which is never `d`; with no crawl
delay (`d ≤ 0`) it returns the configured default delay. -/
theorem checkRobotsTxt_crawl_delay_scaled
    (c : Crawler) (env : RobotsEnv) (task : Task) (u : URL) (resp : Response)
    (data : RobotsData) (group : Group)
    (hparse : Url.Parse task.URL = some u) (hget : env.get (robotsURL u) = .ok resp)
    (hdata : FromResponse env resp = .ok data)
    (hgroup : data.FindGroup c.userAgent = some group)
    (hallowed : group.Test task.URL = true)
    (hrange : group.CrawlDelay < 2 ^ 63) :
    (0 < group.CrawlDelay →
        c.checkRobotsTxt env task = (true, wrapInt64 (group.CrawlDelay * Second), none)
          ∧ wrapInt64 (group.CrawlDelay * Second) ≠ group.CrawlDelay)
      ∧ (group.CrawlDelay ≤ 0 → c.checkRobotsTxt env task = (true, c.crawlDelay, none)) := by
  unfold Crawler.checkRobotsTxt
  rw [hparse]
  simp only []
  rw [hget]
  simp only []
  rw [hdata]
  simp only []
  rw [hgroup]
  simp only [hallowed, Bool.not_true, Bool.false_eq_true, if_false]
  constructor
  · intro h0
    rw [if_pos h0]
    exact ⟨rfl, wrapInt64_mul_Second_ne _ h0 hrange⟩
  · intro h0
    rw [if_neg (by omega)]

/-- C12 at `Crawl-delay: 2` and `Crawl-delay: 10`: the delays returned are
`2 * 10 ^ 18` nanoseconds, about 63 years, and a negative duration. -/
theorem checkRobotsTxt_crawl_delay_scaled_witness :
    Url.Parse (bytes "http://example.com/page")
        = some { Scheme := bytes "http", Host := bytes "example.com", Path := bytes "/page" }
      ∧ (0 : Int) < 2 * Second
      ∧ testCrawler.checkRobotsTxt
            (robotsEnvOf 200 "User-agent: *\nCrawl-delay: 2" (crawlDelayData 2))
            ⟨bytes "http://example.com/page", 1, bytes "example.com"⟩
          = (true, 2000000000000000000, none)
      ∧ testCrawler.checkRobotsTxt
            (robotsEnvOf 200 "User-agent: *\nCrawl-delay: 10" (crawlDelayData 10))
            ⟨bytes "http://example.com/page", 1, bytes "example.com"⟩
          = (true, -8446744073709551616, none) := by
  refine ⟨by decide!, by decide, ?_, ?_⟩
  · exact ((checkRobotsTxt_crawl_delay_scaled testCrawler (robotsEnvOf 200 "User-agent: *\nCrawl-delay: 2" (crawlDelayData 2))
      ⟨bytes "http://example.com/page", 1, bytes "example.com"⟩
      { Scheme := bytes "http", Host := bytes "example.com", Path := bytes "/page" }
      { StatusCode := 200, body := .ok (bytes "User-agent: *\nCrawl-delay: 2") }
      (crawlDelayData 2) { rules := [], CrawlDelay := 2 * Second }
      (by decide!) rfl rfl rfl rfl (by decide)).1 (by decide)).1
  · decide!

/-- C13 fails for a status between 200 and 299 other than 200: when `robots.txt` is
answered with status 203 and the body `User-agent: *`, `Disallow: /`, the robots library
parses the body and `checkRobotsTxt` returns `allowed = false`. -/
theorem checkRobotsTxt_denies_on_status_203 :
    (203 : Int) ≠ 200
      ∧ testCrawler.checkRobotsTxt
          (robotsEnvOf 203 "User-agent: *\nDisallow: /" (disallowData "/")) disallowedTask
        = (false, 1000000, none)
      ∧ testCrawler.checkRobotsTxt
          (robotsEnvOf 203 "User-agent: *\nDisallow: /" (disallowData "/")) disallowedTask
        ≠ (true, testCrawler.crawlDelay, none) := by
  decide!

/-- C13, amended: when the task URL parses and the fetch of `robots.txt` fails with a
network error, or is answered with a status outside 200..299, `checkRobotsTxt` returns
`allowed = true`, the configured default crawl delay and no error. -/
theorem checkRobotsTxt_allows_on_fetch_failure
    (c : Crawler) (env : RobotsEnv) (task : Task) (u : URL)
    (hparse : Url.Parse task.URL = some u)
    (hfail : (∃ e, env.get (robotsURL u) = .error e)
      ∨ ∃ resp, env.get (robotsURL u) = .ok resp
          ∧ (resp.StatusCode < 200 ∨ 300 ≤ resp.StatusCode)) :
    c.checkRobotsTxt env task = (true, c.crawlDelay, none) := by
  unfold Crawler.checkRobotsTxt
  rw [hparse]
  simp only []
  rcases hfail with ⟨e, he⟩ | ⟨resp, hresp, hstatus⟩
  · rw [he]
  · rw [hresp]
    simp only []
    unfold FromResponse
    cases hb : resp.body with
    | error e => rfl
    | ok buf =>
      simp only []
      rcases FromStatusAndBytes_other env.fromBytes resp.StatusCode buf hstatus with h | h | h
      · rw [h]; rfl
      · rw [h]; rfl
      · rw [h]

/-- C13, amended, at the status 503 with a body that disallows everything: the task is
allowed with the default delay. -/
theorem checkRobotsTxt_allows_on_fetch_failure_witness :
    testCrawler.checkRobotsTxt
        (robotsEnvOf 503 "User-agent: *\nDisallow: /" (disallowData "/")) disallowedTask
      = (true, 1000000, none) :=
  checkRobotsTxt_allows_on_fetch_failure testCrawler (robotsEnvOf 503 "User-agent: *\nDisallow: /" (disallowData "/"))
    disallowedTask
    { Scheme := bytes "http", Host := bytes "shop.test", Path := bytes "/disallowed/product" }
    (by decide!)
    (Or.inr ⟨{ StatusCode := 503, body := .ok (bytes "User-agent: *\nDisallow: /") }, rfl,
      Or.inr (by decide)⟩)

/-- C14 fails in the code: with the policy `User-agent: *`, `Disallow: /disallowed/`,
which denies the path `/disallowed/product`, `checkRobotsTxt` passes the whole task URL
`http://shop.test/disallowed/product` to `Group.Test`, no rule path is a prefix of it, and
the task is allowed; `processTask` then fetches and classifies the page and adds it to the
product URL map. -/
theorem processTask_ignores_path_disallow :
    Group.Test { rules := [{ path := bytes "/disallowed/", allow := false, pattern := none }],
                 CrawlDelay := 0 } (bytes "/disallowed/product") = false
      ∧ testCrawler.checkRobotsTxt
          (robotsEnvOf 200 "User-agent: *\nDisallow: /disallowed/" (disallowData "/disallowed/"))
          disallowedTask
        = (true, 1000000, none)
      ∧ disallowedEnv.robots.toOption = some (true, 1000000)
      ∧ (testCrawler.processTask disallowedEnv disallowedTask).2 = none
      ∧ (testCrawler.processTask disallowedEnv disallowedTask).1.productURLs
        = [(bytes "shop.test", [bytes "http://shop.test/disallowed/product"])] := by
  decide!

/-- C15 fails for a link that `url.Parse` rejects: for the base `http://example.com/` and
the href `http://exa mple.com/`, neither of the first two rules applies, there is no
resolved URL, and `processLink` returns the error of `url.Parse`, which is none of the four
listed errors and not a URL. -/
theorem processLink_parse_error_unlisted :
    Url.Parse (bytes "http://example.com/") = some exampleBase
      ∧ TrimSpace (bytes "http://exa mple.com/") = bytes "http://exa mple.com/"
      ∧ ¬ isSpecialLink (bytes "http://exa mple.com/")
      ∧ ¬ isNonHTTPLink (bytes "http://exa mple.com/")
      ∧ Url.Parse (bytes "http://exa mple.com/") = none
      ∧ processLink exampleBase (bytes "http://exa mple.com/") = .error .parseError
      ∧ processLink exampleBase (bytes "http://exa mple.com/") ≠ .error .ErrInvalidLink
      ∧ processLink exampleBase (bytes "http://exa mple.com/") ≠ .error .ErrInvalidScheme
      ∧ processLink exampleBase (bytes "http://exa mple.com/") ≠ .error .ErrExternalDomain
      ∧ processLink exampleBase (bytes "http://exa mple.com/") ≠ .error .ErrNonHTMLResource
      ∧ ∀ link, processLink exampleBase (bytes "http://exa mple.com/") ≠ .ok link := by
  have h : processLink exampleBase (bytes "http://exa mple.com/") = .error .parseError := by
    decide!
  refine ⟨by decide!, by decide!, ?_, ?_, by decide!, h, ?_, ?_, ?_, ?_, ?_⟩
  · unfold isSpecialLink; decide!
  · unfold isNonHTTPLink; decide!
  · rw [h]; simp
  · rw [h]; simp
  · rw [h]; simp
  · rw [h]; simp
  · intro link; rw [h]; simp

/-- C15, amended: `processLink` returns `ErrInvalidLink` exactly when the trimmed href is
empty, `#` or starts with `javascript:`; otherwise `ErrInvalidScheme` when it starts with
`mailto:`, `tel:`, `data:` or `chrome-extension:`; otherwise the error of `url.Parse` when
the trimmed href does not parse; otherwise, for the resolved URL with its fragment removed,
`ErrInvalidScheme` when its scheme is neither `http` nor `https`, else `ErrExternalDomain`
when its host differs from that of the base, else `ErrNonHTMLResource` when the lowercased
extension of its path is listed, else the text of the resolved URL and no error. -/
theorem processLink_rule_order (base : URL) (href : GoString) :
    (processLink base href = .error .ErrInvalidLink ↔ isSpecialLink (TrimSpace href))
      ∧ (¬ isSpecialLink (TrimSpace href) → isNonHTTPLink (TrimSpace href) →
          processLink base href = .error .ErrInvalidScheme)
      ∧ (¬ isSpecialLink (TrimSpace href) → ¬ isNonHTTPLink (TrimSpace href) →
          Url.Parse (TrimSpace href) = none → processLink base href = .error .parseError)
      ∧ ∀ linkURL, ¬ isSpecialLink (TrimSpace href) → ¬ isNonHTTPLink (TrimSpace href) →
          Url.Parse (TrimSpace href) = some linkURL →
          (resolveLink base linkURL).Fragment = []
            ∧ resolveLink base linkURL
                = { URL.ResolveReference base linkURL with Fragment := [] }
            ∧ processLink base href
              = if (resolveLink base linkURL).Scheme ≠ bytes "http"
                    ∧ (resolveLink base linkURL).Scheme ≠ bytes "https" then
                  .error .ErrInvalidScheme
                else if (resolveLink base linkURL).Host ≠ base.Host then
                  .error .ErrExternalDomain
                else if isNonHTMLResource
                    (ToLower (Filepath.Ext (resolveLink base linkURL).Path)) = true then
                  .error .ErrNonHTMLResource
                else .ok (URL.String (resolveLink base linkURL)) := by
  have hA : ¬ isSpecialLink (TrimSpace href) → ¬ (TrimSpace href = [] ∨ TrimSpace href = [35]
      ∨ HasPrefix (TrimSpace href) (bytes "javascript:") = true) := fun h => h
  have hB : ¬ isNonHTTPLink (TrimSpace href) → ¬ (HasPrefix (TrimSpace href) (bytes "mailto:") = true
      ∨ HasPrefix (TrimSpace href) (bytes "tel:") = true
      ∨ HasPrefix (TrimSpace href) (bytes "data:") = true
      ∨ HasPrefix (TrimSpace href) (bytes "chrome-extension:") = true) := fun h => h
  refine ⟨?_, ?_, ?_, ?_⟩
  · constructor
    · intro h
      by_contra hn
      unfold processLink at h
      simp only [] at h
      rw [if_neg (hA hn)] at h
      split at h
      · exact absurd h (by simp)
      · split at h
        · exact absurd h (by simp)
        · split at h
          · exact absurd h (by simp)
          · split at h
            · exact absurd h (by simp)
            · split at h
              · exact absurd h (by simp)
              · exact absurd h (by simp)
    · intro h
      unfold processLink
      simp only []
      exact if_pos h
  · intro hn hb
    unfold processLink
    simp only []
    rw [if_neg (hA hn)]
    exact if_pos hb
  · intro hn hb hp
    unfold processLink
    simp only []
    rw [if_neg (hA hn), if_neg (hB hb), hp]
  · intro linkURL hn hb hp
    refine ⟨rfl, rfl, ?_⟩
    unfold processLink
    simp only []
    rw [if_neg (hA hn), if_neg (hB hb), hp]

/-- C15, amended, at the base `http://example.com/` and the href ` /a/b.html#top `: no
rule applies and the result is `http://example.com/a/b.html`. -/
theorem processLink_rule_order_witness :
    ¬ isSpecialLink (TrimSpace (bytes " /a/b.html#top "))
      ∧ ¬ isNonHTTPLink (TrimSpace (bytes " /a/b.html#top "))
      ∧ Url.Parse (TrimSpace (bytes " /a/b.html#top "))
          = some { Path := bytes "/a/b.html", Fragment := bytes "top" }
      ∧ processLink exampleBase (bytes " /a/b.html#top ")
          = .ok (bytes "http://example.com/a/b.html") := by
  have hn : ¬ isSpecialLink (TrimSpace (bytes " /a/b.html#top ")) := by
    unfold isSpecialLink; decide!
  have hb : ¬ isNonHTTPLink (TrimSpace (bytes " /a/b.html#top ")) := by
    unfold isNonHTTPLink; decide!
  have hp : Url.Parse (TrimSpace (bytes " /a/b.html#top "))
      = some { Path := bytes "/a/b.html", Fragment := bytes "top" } := by decide!
  refine ⟨hn, hb, hp, ?_⟩
  rw [((processLink_rule_order exampleBase (bytes " /a/b.html#top ")).2.2.2 _ hn hb hp).2.2]
  decide!

/-- C16: when the context is not cancelled, the list `extractLinks` returns has no
duplicates and is the sequence of `normalizeURL(processLink(base, href))` over the anchors
with an `href` that `processLink` accepts, in document order, with only the first
occurrence of each normalized URL kept; it is empty when the page or the base URL does not
parse. -/
theorem extractLinks_first_occurrences
    (done : Nat → Bool) (hdone : ∀ i, done i = false) (baseURL : GoString)
    (content : Page) :
    (extractLinks done baseURL content).Nodup
      ∧ extractLinks done baseURL content
        = match content, Url.Parse baseURL with
          | some doc, some base => firstOccurrences (acceptedLinks base doc)
          | _, _ => [] := by
  have heq : extractLinks done baseURL content
      = match content, Url.Parse baseURL with
        | some doc, some base => firstOccurrences (acceptedLinks base doc)
        | _, _ => [] := by
    unfold extractLinks
    cases content with
    | none => rfl
    | some doc =>
      simp only []
      cases hb : Url.Parse baseURL with
      | none => rfl
      | some base =>
        simp only []
        rw [extractLoop_eq base done hdone _ 0 [] [] (fun x => Iff.rfl)]
        unfold acceptedLinks
        simp
  refine ⟨?_, heq⟩
  rw [heq]
  cases content with
  | none => simp
  | some doc =>
    cases Url.Parse baseURL with
    | none => simp
    | some base => exact firstOccurrences_nodup _

/-- C16 at the base `http://example.com/` and a page with five anchors, two of them
repetitions and one a `mailto:` link. -/
theorem extractLinks_first_occurrences_witness :
    (∀ i, neverDone i = false)
      ∧ extractLinks neverDone (bytes "http://example.com/") fiveLinkPage
          = [bytes "http://example.com/a", bytes "http://example.com/b"]
      ∧ (extractLinks neverDone (bytes "http://example.com/") fiveLinkPage).Nodup :=
  ⟨fun _ => rfl, by decide!,
    (extractLinks_first_occurrences neverDone (fun _ => rfl) (bytes "http://example.com/") fiveLinkPage).1⟩

/-- C17: after any sequence of `Add` calls on a new map, `ToJSON` has each domain once as
a key, its keys are exactly the domains added, the list of each domain has no duplicates
and holds exactly the URLs added under that domain, so none is missing; and a second
`Add(d, u)` right after `Add(d, u)` does not change `ToJSON`. -/
theorem DomainURLMap_set_semantics (calls : List (GoString × GoString)) :
    ((addAll calls).ToJSON.map (·.1)).Nodup
      ∧ (∀ d, d ∈ (addAll calls).ToJSON.map (·.1) ↔ ∃ u, (d, u) ∈ calls)
      ∧ (∀ d urls, (d, urls) ∈ (addAll calls).ToJSON →
          urls.Nodup ∧ ∀ u, u ∈ urls ↔ (d, u) ∈ calls)
      ∧ (∀ d u, (d, u) ∈ calls → ∃ urls, (d, urls) ∈ (addAll calls).ToJSON ∧ u ∈ urls)
      ∧ ∀ d u, (((addAll calls).Add d u).Add d u).ToJSON = ((addAll calls).Add d u).ToJSON := by
  obtain ⟨h1, h2, h3⟩ := addAll_invariant calls [] [] (by simp) (by simp) (by simp)
  simp only [List.nil_append] at h2 h3
  have e : (addAll calls).ToJSON = addAll calls := ToJSON_eq _ h1
  rw [e]
  refine ⟨h1, h2, h3, ?_, ?_⟩
  · intro d u hmem
    have hkey : d ∈ (addAll calls).map (·.1) := (h2 d).mpr ⟨u, hmem⟩
    rw [List.mem_map] at hkey
    obtain ⟨⟨d2, urls⟩, hin, hd2⟩ := hkey
    simp only at hd2
    subst hd2
    exact ⟨urls, hin, ((h3 d2 urls hin).2 u).mpr hmem⟩
  · intro d u
    rw [Add_Add]


/-- C17 at four `Add` calls, one of them a repetition: two domains, the repeated URL
once. -/
theorem DomainURLMap_set_semantics_witness :
    (addAll sampleCalls).ToJSON
        = [(bytes "a.test", [bytes "http://a.test/p/1", bytes "http://a.test/p/3"]),
           (bytes "b.test", [bytes "http://b.test/p/2"])]
      ∧ ((addAll sampleCalls).ToJSON.map (·.1)).Nodup
      ∧ ∃ urls, (bytes "a.test", urls) ∈ (addAll sampleCalls).ToJSON
          ∧ bytes "http://a.test/p/3" ∈ urls :=
  ⟨by decide!, (DomainURLMap_set_semantics sampleCalls).1,
    (DomainURLMap_set_semantics sampleCalls).2.2.2.1 (bytes "a.test") (bytes "http://a.test/p/3") (by decide!)⟩

/-- C18: `isProductSitemap` returns true on every string whose lowercase form contains
`sitemap`, so on the three candidate locations `d/sitemap.xml`, `d/sitemap_index.xml` and
`d/sitemap-index.xml` of every domain `d`; and a candidate location fetched with status
200 whose content is not a sitemap index is always handed to `parseSitemapURLs`, whose URLs
are appended and whose error is returned. -/
theorem isProductSitemap_accepts_sitemap_candidates (domain : GoString) :
    (∀ url, Contains (ToLower url) (bytes "sitemap") = true → isProductSitemap url = true)
      ∧ isProductSitemap (domain ++ bytes "/sitemap.xml") = true
      ∧ isProductSitemap (domain ++ bytes "/sitemap_index.xml") = true
      ∧ isProductSitemap (domain ++ bytes "/sitemap-index.xml") = true
      ∧ ∀ (env : SitemapEnv) (productURLs : List GoString) (sitemapURL : GoString)
          (resp : Response) (content : GoString),
          sitemapURL ∈ sitemapCandidates domain → env.get sitemapURL = .ok resp →
          resp.StatusCode = 200 → resp.body = .ok content →
          Contains content (bytes "<sitemapindex") = false →
          sitemapRound env productURLs sitemapURL
            = match parseSitemapURLs env sitemapURL with
              | .error _ => .error ()
              | .ok urls => .ok (productURLs ++ urls) := by
  have hc := isProductSitemap_candidate domain
  refine ⟨isProductSitemap_of_sitemap, hc _ (by simp [sitemapCandidates]),
    hc _ (by simp [sitemapCandidates]), hc _ (by simp [sitemapCandidates]), ?_⟩
  intro env productURLs sitemapURL resp content hmem hget hstatus hbody hindex
  unfold sitemapRound
  rw [hget]
  simp only []
  rw [if_neg (by rw [hstatus]; decide), hbody]
  simp only []
  rw [hindex, hc sitemapURL hmem]
  simp only [Bool.false_eq_true, if_false, if_true]

/-- C18 at the seed `http://shop.test`, where each of the three locations answers with a
`urlset` listing the page `/about`: the page is returned three times. -/
theorem isProductSitemap_accepts_sitemap_candidates_witness :
    checkSitemap aboutSitemapEnv (bytes "http://shop.test")
        = .ok [bytes "http://shop.test/about", bytes "http://shop.test/about",
               bytes "http://shop.test/about"]
      ∧ sitemapRound aboutSitemapEnv [] (bytes "http://shop.test" ++ bytes "/sitemap.xml")
        = .ok [bytes "http://shop.test/about"] := by
  refine ⟨by decide!, ?_⟩
  rw [(isProductSitemap_accepts_sitemap_candidates (bytes "http://shop.test")).2.2.2.2 aboutSitemapEnv []
    (bytes "http://shop.test" ++ bytes "/sitemap.xml")
    { StatusCode := 200, body := .ok (bytes "<urlset></urlset>") } (bytes "<urlset></urlset>")
    (by simp [sitemapCandidates]) rfl rfl rfl (by decide)]
  decide!

/-- C19: for a URL made of a scheme, `://` and an authority (optional user information and
a host, without `/`, `?` or `#`) that `url.Parse` accepts with a non-empty host,
`normalizeURL` returns the lowercased scheme, `://`, the user information and the
lowercased host, followed by `/.`; the same URL with the path `/` normalizes to that text
without the `/.`; the two results differ, so after `processTask` on the first spelling, on
a crawler with an empty visited set, the second is not in the visited set. For a plain host
without user information the text is the lowercased URL. -/
theorem normalizeURL_root_spellings (sch ui h : GoString) (hs : isScheme sch = true)
    (hui : ui = [] ∨ ∃ ui0, ui = ui0 ++ [64]) (hui2 : 47 ∉ ui ∧ 63 ∉ ui ∧ 35 ∉ ui)
    (hh : 47 ∉ h ∧ 63 ∉ h ∧ 35 ∉ h ∧ 64 ∉ h) (u : URL)
    (hparse : Url.Parse (sch ++ bytes "://" ++ ui ++ h) = some u) (hhost : u.Host ≠ []) :
    normalizeURL (sch ++ bytes "://" ++ ui ++ h) = rootText u ++ bytes "/."
      ∧ normalizeURL (sch ++ bytes "://" ++ ui ++ h ++ bytes "/") = rootText u
      ∧ normalizeURL (sch ++ bytes "://" ++ ui ++ h)
          ≠ normalizeURL (sch ++ bytes "://" ++ ui ++ h ++ bytes "/")
      ∧ (∀ (c : Crawler) (env : TaskEnv) (task : Task), c.visitedURLs = [] →
          task.URL = sch ++ bytes "://" ++ ui ++ h →
          normalizeURL (sch ++ bytes "://" ++ ui ++ h ++ bytes "/")
            ∉ (c.processTask env task).1.visitedURLs)
      ∧ (ui = [] → plainHost h = true →
          rootText u = ToLower sch ++ bytes "://" ++ ToLower h) := by
  have eraw : sch ++ bytes "://" ++ ui ++ h = sch ++ 58 :: (bytes "//" ++ ui ++ h) := by
    have : bytes "://" = 58 :: bytes "//" := by decide
    rw [this]; simp
  have eslash : bytes "/" = [47] := by decide
  rw [eraw] at hparse
  rw [eslash, eraw]
  obtain ⟨host, user, hph, hup, hu, hp1⟩ := Parse_root sch ui h hs hui hui2 hh u hparse
  have hsne : sch ≠ [] := by
    intro e; subst e; simp [isScheme] at hs
  have hus : u.Scheme ≠ [] := by rw [hu]; exact ToLower_ne_nil _ hsne
  have hroot : rootText { Scheme := ToLower sch, User := user, Host := host, Path := [47] }
      = rootText u := by rw [hu]; rfl
  have hn0 : normalizeURL (sch ++ 58 :: (bytes "//" ++ ui ++ h)) = rootText u ++ bytes "/." := by
    unfold normalizeURL
    rw [hparse]
    exact normalizeParsed_root_empty u hus (by rw [hu]) hhost (by rw [hu]) (by rw [hu])
      (by rw [hu])
  have hn1 : normalizeURL (sch ++ 58 :: (bytes "//" ++ ui ++ h) ++ [47]) = rootText u := by
    unfold normalizeURL
    rw [hp1]
    simp only []
    rw [← hroot]
    exact normalizeParsed_root_slash _ (by rw [hu] at hus; exact hus) rfl
      (by rw [hu] at hhost; exact hhost) rfl rfl rfl
  have hne : normalizeURL (sch ++ 58 :: (bytes "//" ++ ui ++ h))
      ≠ normalizeURL (sch ++ 58 :: (bytes "//" ++ ui ++ h) ++ [47]) := by
    rw [hn0, hn1]
    intro e
    have := congrArg List.length e
    have e2 : (bytes "/.").length = 2 := by decide
    rw [List.length_append, e2] at this
    omega
  refine ⟨hn0, hn1, hne, ?_, ?_⟩
  · intro c env task hv ht hmem
    rcases processTask_visitedURLs c env task with e | e
    · rw [e, hv] at hmem
      simp at hmem
    · rw [e, hv, ht] at hmem
      simp only [List.nil_append, List.mem_singleton] at hmem
      exact hne hmem.symm
  · intro hui0 hplain
    subst hui0
    have hhost2 : host = h := by
      rw [plainHost_parseHost h hplain] at hph
      exact (Option.some.inj hph).symm
    have huser : user = none := by
      simp [userPart] at hup
      exact hup.symm
    rw [hu]
    unfold rootText uiPart
    simp only [hhost2, huser, ToLower_idem,
      plainHost_escape _ (plainHost_ToLower h hplain)]
    have : bytes "://" = 58 :: bytes "//" := by decide
    rw [this]
    simp

/-- C19 at `http://example.com`: it normalizes to `http://example.com/.`, and
`http://example.com/` to `http://example.com`. -/
theorem normalizeURL_root_spellings_witness :
    normalizeURL (bytes "http://example.com") = bytes "http://example.com/."
      ∧ normalizeURL (bytes "http://example.com/") = bytes "http://example.com"
      ∧ normalizeURL (bytes "http://example.com") ≠ normalizeURL (bytes "http://example.com/") := by
  have hw := normalizeURL_root_spellings (bytes "http") [] (bytes "example.com") (by decide)
    (Or.inl rfl) (by decide) (by decide)
    { Scheme := bytes "http", Host := bytes "example.com" } (by decide!) (by decide)
  have hr := hw.2.2.2.2 rfl (by decide)
  have e1 : bytes "http" ++ bytes "://" ++ [] ++ bytes "example.com" = bytes "http://example.com" := by
    decide
  have e2 : bytes "http://example.com" ++ bytes "/" = bytes "http://example.com/" := by decide
  have e3 : ToLower (bytes "http") ++ bytes "://" ++ ToLower (bytes "example.com")
      = bytes "http://example.com" := by decide
  have e4 : bytes "http://example.com" ++ bytes "/." = bytes "http://example.com/." := by decide
  rw [e1, e2, hr, e3] at hw
  rw [e4] at hw
  exact ⟨hw.1, hw.2.1, hw.2.2.1⟩

end Crawl
